import Mathlib

/-!
# mjau: query parsing and the CSS request pipeline

A shallow embedding of `src/http/http.go` (with the parts of `src/font/font.go`,
`src/inventory/inventory.go` and `src/whitelist/whitelist.go` it calls) and the
properties of the query grammar and of the handler's status decisions.

Go strings are modelled as lists of characters (`GoString`). The library routines
the code calls (`strings.Split`, `strings.HasPrefix`, `strings.Contains`,
`strings.ToLower`, `strconv.Atoi`) are modelled as executable functions on such lists;
all separators and digits they look for are ASCII.
-/

set_option autoImplicit false

namespace Mjau

/-! ## Go strings and the library routines used by the code -/

/-- A Go string, as the sequence of its characters. -/
abbrev GoString := List Char

/-- Go `strings.HasPrefix(s, pre)`: `s` begins with `pre`. -/
def HasPrefix (s pre : GoString) : Bool :=
  pre.isPrefixOf s

/-- Go `strings.Split(s, sep)` for a one-character separator: the pieces of `s` between
occurrences of `sep`. A string with `n` separators has `n + 1` pieces, so the
empty string splits into one empty piece. -/
def Split (s : GoString) (sep : Char) : List GoString :=
  match s with
  | [] => [[]]
  | c :: cs =>
    if c = sep then [] :: Split cs sep
    else
      match Split cs sep with
      | [] => [[c]]
      | p :: ps => (c :: p) :: ps

/-- Go `strings.Contains(s, sub)`: `sub` occurs somewhere in `s`. -/
def Contains (s sub : GoString) : Bool :=
  s.tails.any (fun t => sub.isPrefixOf t)

/-- Go `strings.ToLower`, on the ASCII letters (all that a comparison with the
lower-case ASCII words `eot` and `woff` can observe). -/
def ToLower (s : GoString) : GoString :=
  s.map Char.toLower

/-- The width of Go's `int`, in bits. -/
def intSize : Nat := 64

/-- The value of a run of decimal digits. -/
def digitsValue (ds : List Char) : Nat :=
  ds.foldl (fun n c => n * 10 + (c.toNat - 48)) 0

/-- Go `strconv.Atoi(s)`: an optional sign, then one or more decimal digits, whose value
fits in an `int`; `none` stands for a non-nil error. -/
def Atoi (s : GoString) : Option Int :=
  let neg : Bool := match s with
    | c :: _ => c = '-'
    | [] => false
  let ds : List Char := match s with
    | c :: rest => if c = '-' ∨ c = '+' then rest else s
    | [] => s
  if ds.isEmpty || !ds.all Char.isDigit then none
  else if neg then
    (if digitsValue ds ≤ 2 ^ (intSize - 1) then some (-(digitsValue ds : Int)) else none)
  else
    (if digitsValue ds < 2 ^ (intSize - 1) then some (digitsValue ds : Int) else none)

/-! ## `font.Format` (src/font/font.go) -/

/-- Go `type Format int`. -/
structure Format where
  val : Int
deriving DecidableEq, Repr

/-- No format. -/
def NOF : Format := ⟨0⟩
/-- Embedded OpenType. -/
def EOT : Format := ⟨1⟩
/-- Web Open Font Format. -/
def WOFF : Format := ⟨2⟩

/-- Go `(*Format).FromString`: the format named by the string, or `f` unchanged when the
string names none. -/
def Format.FromString (f : Format) (format : GoString) : Format :=
  if ToLower format = "eot".toList then EOT
  else if ToLower format = "woff".toList then WOFF
  else f

/-- Go `(*Format).String`: the string representation; empty for anything but EOT and WOFF. -/
def Format.String (f : Format) : GoString :=
  if f = EOT then "eot".toList
  else if f = WOFF then "woff".toList
  else []

/-! ## `inventory.Query` and `http.Queries` -/

/-- An inventory query (src/inventory/inventory.go). -/
structure Query where
  RowKey : GoString
  ColumnKey : GoString
deriving DecidableEq, Repr

/-- The weight/style composite of a style token `s` (lines 244-250 of http.go): a token
that `Atoi` accepts is a weight and gets the default style `normal`, any other token is
taken as it is. -/
def styleComposite (s : GoString) : GoString :=
  if (Atoi s).isSome then s ++ "normal".toList else s

/-- The body of the inner loop of `Queries` (the `case 2` branch), for one style token `s`
of the family `rowKey`: the queries after the iteration. -/
def styleStep (rowKey : GoString) (format : Format) (queries : List Query)
    (s : GoString) : List Query :=
  let columnKey : GoString := styleComposite s
  if rowKey = [] ∨ columnKey = [] then queries
  else queries ++ [⟨rowKey, format.String ++ columnKey⟩]

/-- The body of the outer loop of `Queries`, for one `|`-segment `f`: the queries after
the iteration. -/
def familyStep (format : Format) (queries : List Query) (f : GoString) : List Query :=
  let familyStyles := Split f ':'
  match familyStyles with
  | [rowKey] =>
    let columnKey : GoString := "400normal".toList
    if rowKey = [] ∨ columnKey = [] then queries
    else queries ++ [⟨rowKey, format.String ++ columnKey⟩]
  | [rowKey, styleList] =>
    (Split styleList ',').foldl (styleStep rowKey format) queries
  | _ => queries

/-- Go `Queries(family, format)` of src/http/http.go. -/
def Queries (family : GoString) (format : Format) : List Query :=
  if HasPrefix family "|".toList || HasPrefix family ":".toList ||
      HasPrefix family ",".toList then []
  else (Split family '|').foldl (familyStep format) []

/-- The keys one style token contributes: one pass of the inner loop from no queries. -/
def styleKeys (rowKey : GoString) (format : Format) (s : GoString) : List Query :=
  styleStep rowKey format [] s

/-- The keys one `|`-segment contributes: one pass of the outer loop from no queries. -/
def segmentKeys (format : Format) (f : GoString) : List Query :=
  familyStep format [] f

/-- A string begins with one of the separators `|`, `:` or `,`. -/
def BeginsWithSeparator (s : GoString) : Prop :=
  s.head? = some '|' ∨ s.head? = some ':' ∨ s.head? = some ','

instance (s : GoString) : Decidable (BeginsWithSeparator s) := by
  unfold BeginsWithSeparator; infer_instance

/-- A family name as the grammar wants it: non-empty, free of `|` and `:`, and not
beginning with `,`. -/
def ValidFamilyName (A : GoString) : Prop :=
  A ≠ [] ∧ '|' ∉ A ∧ ':' ∉ A ∧ A.head? ≠ some ','

instance (A : GoString) : Decidable (ValidFamilyName A) := by
  unfold ValidFamilyName; infer_instance

/-! ## Fonts, the file system and the inventory -/

/-- File contents: a sequence of bytes, each a number below 256. -/
abbrev Bytes := List Nat

/-- A `time.Time`, known by its `String()` form. -/
structure Time where
  text : GoString
deriving DecidableEq, Repr

/-- Go `time.Time.String`. -/
def Time.String (t : Time) : GoString := t.text

/-- What the code asks of its surroundings: `ioutil.ReadFile` and the modification time
of `os.Stat` for a path (`none` stands for a non-nil error), and the lower-case
hexadecimal MD5 digest of a string (`crypto/md5` with `%x`). -/
structure Env where
  ReadFile : GoString → Option Bytes
  StatModTime : GoString → Option Time
  Md5Hex : GoString → GoString

/-- A single font file (src/font/font.go). -/
structure Font where
  Family : GoString
  Format : Format
  Path : GoString
  Style : GoString
  Weight : Int
deriving DecidableEq, Repr

/-- Go `(*Font).Contents`: the contents of the font file, or an error. -/
def Font.Contents (env : Env) (f : Font) : Option Bytes :=
  env.ReadFile f.Path

/-- Go `(*Font).MimeType`. -/
def Font.MimeType (f : Font) : GoString :=
  if f.Format = EOT then "application/vnd.ms-fontobject".toList
  else if f.Format = WOFF then "application/x-font-woff".toList
  else []

/-- Go `(*Font).ModTime`: the modification time of the font file, or an error. -/
def Font.ModTime (env : Env) (f : Font) : Option Time :=
  env.StatModTime f.Path

/-- The standard base64 alphabet. -/
def base64Alphabet : List Char :=
  "ABCDEFGHIJKLMNOPQRSTUVWXYZabcdefghijklmnopqrstuvwxyz0123456789+/".toList

/-- The base64 digit of a six-bit value. -/
def base64Digit (n : Nat) : Char :=
  base64Alphabet.getD (n % 64) 'A'

/-- Go `util.Base64` (src/util/util.go): the standard, padded base64 encoding. -/
def Base64 : Bytes → GoString
  | [] => []
  | [a] =>
    [base64Digit (a % 256 / 4), base64Digit (a % 4 * 16), '=', '=']
  | [a, b] =>
    [base64Digit (a % 256 / 4), base64Digit (a % 4 * 16 + b % 256 / 16),
      base64Digit (b % 16 * 4), '=']
  | a :: b :: c :: rest =>
    base64Digit (a % 256 / 4) :: base64Digit (a % 4 * 16 + b % 256 / 16) ::
      base64Digit (b % 16 * 4 + c % 256 / 64) :: base64Digit (c % 64) :: Base64 rest

/-- The table behind the inventory (`table.Table` of the samling library): the cells
`(rowKey, columnKey) ↦ font`, the most recently put cell first. -/
structure Inventory where
  cells : List ((GoString × GoString) × Font)
deriving Repr

/-- Go `inventory.New`: the empty inventory. -/
def Inventory.New : Inventory := ⟨[]⟩

/-- Go `Table.Put`: store a font under `(rowKey, columnKey)`, replacing what was there. -/
def Inventory.Put (i : Inventory) (rowKey columnKey : GoString) (font : Font) : Inventory :=
  ⟨((rowKey, columnKey), font) :: i.cells.filter (fun e => e.1 ≠ (rowKey, columnKey))⟩

/-- Go `Table.Get`: the font stored under `(rowKey, columnKey)`, if any. -/
def Inventory.Get (i : Inventory) (rowKey columnKey : GoString) : Option Font :=
  i.cells.lookup (rowKey, columnKey)

/-- Go `(*Inventory).Query`: the font which conforms to the query, or `none` (Go `nil`). -/
def Inventory.Query (i : Inventory) (query : Query) : Option Font :=
  i.Get query.RowKey query.ColumnKey

/-! ## The whitelist (src/whitelist/whitelist.go) -/

/-- A whitelist of referrer prefixes. -/
structure Whitelist where
  Domains : List GoString
deriving DecidableEq, Repr

/-- Go `(*Whitelist).Contains`: the loop over the domains raises the result `y` whenever
the given name has one of them as a prefix. -/
def Whitelist.Contains (w : Whitelist) (domain : GoString) : Bool :=
  w.Domains.foldl (fun y d => if HasPrefix domain d then true else y) false

/-! ## Requests and responses (`net/http`) -/

/-- HTTP headers, or form values: the value stored under each name. -/
abbrev Header := List (GoString × GoString)

/-- Go `Header.Get`: the value under `key`, or the empty string. -/
def Header.Get (h : Header) (key : GoString) : GoString :=
  (h.lookup key).getD []

/-- Go `Header.Set`: put `value` under `key`, replacing what was there. -/
def Header.Set (h : Header) (key value : GoString) : Header :=
  (key, value) :: h.filter (fun e => e.1 ≠ key)

/-- The part of an `http.Request` the handlers read. -/
structure Request where
  Method : GoString
  Header : Mjau.Header
  Form : Mjau.Header
deriving DecidableEq, Repr

/-- Go `(*Request).Referer`. -/
def Request.Referer (r : Request) : GoString :=
  r.Header.Get "Referer".toList

/-- Go `(*Request).FormValue`: the first value of the named form field, or the empty string. -/
def Request.FormValue (r : Request) (key : GoString) : GoString :=
  r.Form.Get key

/-- An `http.ResponseWriter`: the header map, the status written so far (`none` while
`WriteHeader` has not been called) and the body written so far. -/
structure ResponseWriter where
  Header : Header
  Status : Option Nat
  Body : GoString
deriving DecidableEq, Repr

/-- Go `w.Header().Set(key, value)`. -/
def ResponseWriter.SetHeader (w : ResponseWriter) (key value : GoString) : ResponseWriter :=
  { w with Header := w.Header.Set key value }

/-- Go `w.WriteHeader(code)`: the first call fixes the status. -/
def ResponseWriter.WriteHeader (w : ResponseWriter) (code : Nat) : ResponseWriter :=
  match w.Status with
  | none => { w with Status := some code }
  | some _ => w

/-- Go `w.Write(data)`: writes status 200 first when no status has been written. -/
def ResponseWriter.Write (w : ResponseWriter) (data : GoString) : ResponseWriter :=
  let w1 := w.WriteHeader 200
  { w1 with Body := w1.Body ++ data }

/-- Go `io.Copy(w, buf)` from a `bytes.Buffer`: one `Write` of the buffered text, none when
the buffer is empty. -/
def ResponseWriter.Copy (w : ResponseWriter) (buf : GoString) : ResponseWriter :=
  if buf = [] then w else w.Write buf

/-- The status the client receives: the one written, or 200 when the handler returned
without writing one. -/
def ResponseWriter.StatusCode (w : ResponseWriter) : Nat :=
  w.Status.getD 200

/-- Modelled from the spec: the error replies of the package's util.go, which is not
among the sources. An error response carries the `text/plain` content type and its
status code, and no body. -/
def errorReply (w : ResponseWriter) (code : Nat) : ResponseWriter :=
  (w.SetHeader "Content-Type".toList "text/plain; charset=utf-8".toList).WriteHeader code

/-- Modelled from the spec: `BadRequest` of the absent util.go replies 400. -/
def BadRequest (w : ResponseWriter) (_r : Request) : ResponseWriter :=
  errorReply w 400

/-- Modelled from the spec: `Forbidden` of the absent util.go replies 403. -/
def Forbidden (w : ResponseWriter) (_r : Request) : ResponseWriter :=
  errorReply w 403

/-- Modelled from the spec: `InternalServerError` of the absent util.go replies 500. -/
def InternalServerError (w : ResponseWriter) (_r : Request) : ResponseWriter :=
  errorReply w 500

/-- Modelled from the spec: `NotImplemented` of the absent util.go replies 501. -/
def NotImplemented (w : ResponseWriter) (_r : Request) : ResponseWriter :=
  errorReply w 501

/-- Modelled from the spec: `NotModified` of the absent util.go replies 304, with no
body and no content type. -/
def NotModified (w : ResponseWriter) (_r : Request) : ResponseWriter :=
  w.WriteHeader 304

/-! ## The handler (src/http/http.go) -/

/-- The state of the HTTP flags. -/
structure Flags where
  AcAllowOrigin : Bool
  CcMaxAge : Nat
  Etag : Bool
  Gzip : Bool
  Version : GoString
deriving DecidableEq, Repr

/-- A single `@font-face` CSS rule. -/
structure FontFace where
  Base64Data : GoString
  Family : GoString
  Format : GoString
  MimeType : GoString
  Style : GoString
  Weight : Int
deriving DecidableEq, Repr

/-- Go `new(FontFace)`: the zero value. -/
def FontFace.zero : FontFace := ⟨[], [], [], [], [], 0⟩

/-- The parsed templates, by what `ExecuteTemplate(buf, name, data)` does: the text it
writes to the buffer, or `none` for a non-nil error. -/
structure Template where
  ExecuteTemplate : GoString → List FontFace → Option GoString

/-- The context of a handler. -/
structure HandlerContext where
  Flags : Flags
  Inventory : Inventory
  Templates : Template
  Whitelist : Whitelist

/-- Go `(*FontFace).FromFont`: the font face after initialisation from the font, or `none`
for a non-nil error (the font face is then unchanged). -/
def FontFace.FromFont (env : Env) (_ff : FontFace) (f : Font) : Option FontFace :=
  match f.Contents env with
  | none => none
  | some data =>
    let mimeType := f.MimeType
    if mimeType = [] then none
    else some
      { Base64Data := Base64 data
        Family := f.Family
        Format := f.Format.String
        MimeType := mimeType
        Style := f.Style
        Weight := f.Weight }

/-- Go `strconv.FormatUint(n, 10)`. -/
def FormatUint (n : Nat) : GoString :=
  Nat.toDigits 10 n

/-- The loop of `Etag`: the text written to the hash so far is `written`; the result is
all the text written when every query has a font whose modification time can be read,
and `none` when the loop breaks with `failed` set. -/
def etagLoop (env : Env) (ctx : HandlerContext) :
    List Query → GoString → Option GoString
  | [], written => some written
  | query :: rest, written =>
    match ctx.Inventory.Query query with
    | none => none
    | some fnt =>
      match fnt.ModTime env with
      | none => none
      | some modtime => etagLoop env ctx rest (written ++ modtime.String)

/-- Go `Etag(w, r, queries, ctx)`: the response writer afterwards, and whether the resource
has not been modified. -/
def Etag (env : Env) (w : ResponseWriter) (r : Request) (queries : List Query)
    (ctx : HandlerContext) : ResponseWriter × Bool :=
  match etagLoop env ctx queries [] with
  | some written =>
    let etag := env.Md5Hex written
    let etag :=
      if ctx.Flags.Gzip && Contains (r.Header.Get "Accept-Encoding".toList) "gzip".toList
      then etag ++ "+gzip".toList else etag
    let w := w.SetHeader "ETag".toList etag
    if r.Header.Get "If-None-Match".toList = etag then
      let maxAge := FormatUint ctx.Flags.CcMaxAge
      let w := w.SetHeader "Cache-Control".toList ("max-age=".toList ++ maxAge)
      (NotModified w r, true)
    else (w, false)
  | none =>
    let etag := r.Header.Get "If-None-Match".toList
    if etag ≠ [] then (w.SetHeader "ETag".toList etag, false) else (w, false)

/-- How the resolution loop of `CssHandler` ends. -/
inductive Resolution where
  /-- Some query has no font: the handler replies `BadRequest`. -/
  | missing
  /-- Some font does not convert to a font face: `InternalServerError`. -/
  | failed
  /-- Every query is resolved: the template data and the template name. -/
  | resolved (templateData : List FontFace) (templateName : GoString)
deriving DecidableEq, Repr

/-- The resolution loop of `CssHandler` (lines 117-133), from the template data and the
template name built so far. -/
def resolveLoop (env : Env) (ctx : HandlerContext) :
    List Query → List FontFace → GoString → Resolution
  | [], templateData, templateName => .resolved templateData templateName
  | query :: rest, templateData, _ =>
    match ctx.Inventory.Query query with
    | none => .missing
    | some fnt =>
      match FontFace.FromFont env FontFace.zero fnt with
      | none => .failed
      | some fontFace =>
        resolveLoop env ctx rest (templateData ++ [fontFace])
          (fnt.Format.String ++ ".css.tmpl".toList)

/-- Go `CssHandler(w, r, ctx)`: the response writer when the handler returns. -/
def CssHandler (env : Env) (w : ResponseWriter) (r : Request) (ctx : HandlerContext) :
    ResponseWriter :=
  if r.Method ≠ "GET".toList then NotImplemented w r
  else if !ctx.Whitelist.Contains r.Referer then Forbidden w r
  else
    let family := r.FormValue "family".toList
    if family = [] then BadRequest w r
    else
      let sFormat := r.FormValue "format".toList
      let sFormat := if sFormat = [] then "woff".toList else sFormat
      let format := NOF.FromString sFormat
      if format = NOF then BadRequest w r
      else
        let queries := Queries family format
        if queries.length = 0 then BadRequest w r
        else
          let checked : ResponseWriter × Bool :=
            if ctx.Flags.Etag then Etag env w r queries ctx else (w, false)
          if checked.2 then checked.1
          else
            let w := checked.1
            match resolveLoop env ctx queries [] [] with
            | .missing => BadRequest w r
            | .failed => InternalServerError w r
            | .resolved templateData templateName =>
              match ctx.Templates.ExecuteTemplate templateName templateData with
              | none => InternalServerError w r
              | some buf =>
                let maxAge := FormatUint ctx.Flags.CcMaxAge
                let w := w.SetHeader "Cache-Control".toList ("max-age=".toList ++ maxAge)
                let w := w.SetHeader "Content-Type".toList "text/css; charset=utf-8".toList
                w.Copy buf

/-- The format `CssHandler` works with: the `format` form value, `woff` when it is
empty, read by `FromString` from `NOF`. -/
def requestFormat (r : Request) : Format :=
  NOF.FromString
    (if r.FormValue "format".toList = [] then "woff".toList else r.FormValue "format".toList)

/-! ## Sample data, to instantiate the theorems on the handler -/

/-- A sample environment: every file holds the three bytes of `Man` and was modified at
the time written as its own path; the digest is a stand-in (the text itself). -/
def sampleEnv : Env :=
  ⟨fun _ => some [77, 97, 110], fun path => some ⟨path⟩, fun text => text⟩

/-- The regular WOFF font of the sample family. -/
def sampleFont : Font :=
  ⟨"Amaranth".toList, WOFF, "amaranth-regular.woff".toList, "normal".toList, 400⟩

/-- A sample context: entity tags on, one font in the inventory, a template that writes
its own name, and the whitelist which allows every referrer. -/
def sampleContext : HandlerContext :=
  { Flags := ⟨false, 2592000, true, false, []⟩
    Inventory := Inventory.New.Put "Amaranth".toList "woff400normal".toList sampleFont
    Templates := ⟨fun name _ => some name⟩
    Whitelist := ⟨[[]]⟩ }

/-- A response writer nothing has been written to. -/
def freshWriter : ResponseWriter := ⟨[], none, []⟩

/-- A sample request with the given method and `family` form value, and no headers. -/
def sampleRequest (method family : GoString) : Request :=
  ⟨method, [], [("family".toList, family)]⟩

/-! ## Notions of the specification, to state the claims on the entity tag -/

/-- Two strings are equal up to the case of their ASCII letters. -/
def EqualFold (s t : GoString) : Prop :=
  ToLower s = ToLower t

instance (s t : GoString) : Decidable (EqualFold s t) := by
  unfold EqualFold; infer_instance

/-- The entity tag as the specification words it: the digest of the concatenation, in
order, of the string forms of the modification times, followed by `+gzip` exactly when
the Gzip flag is set and the `Accept-Encoding` header of the request contains `gzip`. -/
def specEntityTag (env : Env) (ctx : HandlerContext) (r : Request) (times : List Time) :
    GoString :=
  env.Md5Hex (times.map Time.String).flatten ++
    (if ctx.Flags.Gzip = true ∧
        Contains (r.Header.Get "Accept-Encoding".toList) "gzip".toList = true
      then "+gzip".toList else [])

/-- A query fails to fingerprint: it has no font in the inventory, or the modification
time of its font cannot be read. -/
def FingerprintFails (env : Env) (ctx : HandlerContext) (q : Query) : Prop :=
  ctx.Inventory.Query q = none ∨
    ∃ fnt, ctx.Inventory.Query q = some fnt ∧ fnt.ModTime env = none

/-- The handler from line 115 on: resolution, conversion, rendering and the headers of
success, from the response writer `w` that the entity-tag check has left. -/
def renderReply (env : Env) (w : ResponseWriter) (r : Request) (ctx : HandlerContext)
    (queries : List Query) : ResponseWriter :=
  match resolveLoop env ctx queries [] [] with
  | .missing => BadRequest w r
  | .failed => InternalServerError w r
  | .resolved templateData templateName =>
    match ctx.Templates.ExecuteTemplate templateName templateData with
    | none => InternalServerError w r
    | some buf =>
      ((w.SetHeader "Cache-Control".toList
          ("max-age=".toList ++ FormatUint ctx.Flags.CcMaxAge)).SetHeader
        "Content-Type".toList "text/css; charset=utf-8".toList).Copy buf

/-- The gates of `CssHandler` ahead of the entity-tag check: a GET request, a whitelisted
referrer, a non-empty family, a recognised format and at least one parsed key. -/
def PassesGates (r : Request) (ctx : HandlerContext) : Prop :=
  r.Method = "GET".toList ∧ ctx.Whitelist.Contains r.Referer = true ∧
    r.FormValue "family".toList ≠ [] ∧ requestFormat r ≠ NOF ∧
    Queries (r.FormValue "family".toList) (requestFormat r) ≠ []

instance (r : Request) (ctx : HandlerContext) : Decidable (PassesGates r ctx) := by
  unfold PassesGates; infer_instance

/-- The context with entity tags switched off. -/
def withoutEtag (ctx : HandlerContext) : HandlerContext :=
  { ctx with Flags := { ctx.Flags with Etag := false } }

/-! ## More sample data -/

/-- The italic WOFF font of the sample family. -/
def sampleItalic : Font :=
  ⟨"Amaranth".toList, WOFF, "amaranth-italic.woff".toList, "italic".toList, 400⟩

/-- The sample context with both fonts of the sample family in the inventory. -/
def twoFontContext : HandlerContext :=
  { sampleContext with
    Inventory :=
      (Inventory.New.Put "Amaranth".toList "woff400normal".toList sampleFont).Put
        "Amaranth".toList "woff400italic".toList sampleItalic }

/-- An environment in which every file was last modified at one and the same time, with
the given digest function. -/
def sameTimeEnv (md5 : GoString → GoString) : Env :=
  ⟨fun _ => some [77, 97, 110], fun _ => some ⟨"2012-10-01 12:00:00 +0000 UTC".toList⟩, md5⟩

/-- An environment in which no file can be read and no modification time obtained. -/
def unreadableEnv : Env :=
  ⟨fun _ => none, fun _ => none, fun text => text⟩

/-- An environment in which every file can be read and no modification time obtained. -/
def noStatEnv : Env :=
  ⟨fun _ => some [77, 97, 110], fun _ => none, fun text => text⟩

/-- A sample request with the given `family` form value and `If-None-Match` header. -/
def conditionalRequest (family tag : GoString) : Request :=
  ⟨"GET".toList, [("If-None-Match".toList, tag)], [("family".toList, family)]⟩

/-! ## `MakeHandler` (src/http/http.go) -/

/-- Go `type HandlerFunc func(http.ResponseWriter, *http.Request, HandlerContext)`: the
response writer when the handler returns. -/
abbrev HandlerFunc := ResponseWriter → Request → HandlerContext → ResponseWriter

/-- Go `MakeHandler(fn, ctx)`: the handler which sets the headers the flags ask for and
then calls `fn` with the context. -/
def MakeHandler (fn : HandlerFunc) (ctx : HandlerContext) :
    ResponseWriter → Request → ResponseWriter :=
  fun w r =>
    let w := if ctx.Flags.AcAllowOrigin then
      w.SetHeader "Access-Control-Allow-Origin".toList "*".toList else w
    let w := if ctx.Flags.Version ≠ [] then
      w.SetHeader "Server".toList ctx.Flags.Version else w
    let w := if ctx.Flags.Gzip then
      w.SetHeader "Vary".toList "Accept-Encoding".toList else w
    fn w r ctx

/-- Go `emptyHandler` of http_test.go: a handler that does nothing. -/
def emptyHandler : HandlerFunc :=
  fun w _ _ => w

/-! ## Building the inventory (src/inventory/inventory.go, src/font/font.go) -/

/-- Go `strconv.Itoa(i)`: the decimal representation, with a `-` sign when negative. -/
def Itoa (i : Int) : GoString :=
  if i < 0 then '-' :: Nat.toDigits 10 i.natAbs else Nat.toDigits 10 i.toNat

/-- The column key `Build` stores a font under (lines 57-59 of inventory.go): the format
string, the decimal weight and the style, concatenated. -/
def columnKeyOf (font : Font) : GoString :=
  font.Format.String ++ Itoa font.Weight ++ font.Style

/-- The inner loop of `Build` (lines 56-61): every font is put under its family and its
column key, in order. -/
def putFonts (i : Inventory) (fonts : List Font) : Inventory :=
  fonts.foldl (fun i font => i.Put font.Family (columnKeyOf font) font) i

/-- The metadata of a font subfamily. -/
structure Subfamily where
  Basename : GoString
  Formats : List GoString
  Style : GoString
  Weight : Int
deriving DecidableEq, Repr

/-- The metadata of a font family; `path` is the file the metadata was read from. -/
structure Metadata where
  Family : GoString
  Subfamilies : List Subfamily
  path : GoString
deriving DecidableEq, Repr

/-- The routines of `path/filepath` the code calls, taken as parameters. -/
structure Filepath where
  Dir : GoString → GoString
  Join : List GoString → GoString

/-- The font `Fonts` makes for the subfamily `s` and the format string `f`, recognised as
`format` (lines 126-135 of font.go). -/
def Metadata.fontOf (fp : Filepath) (m : Metadata) (s : Subfamily) (f : GoString)
    (format : Format) : Font :=
  let dir := fp.Dir m.path
  let filename := s.Basename ++ ".".toList ++ f
  let path := fp.Join [dir, filename]
  { Family := m.Family, Format := format, Path := path, Style := s.Style, Weight := s.Weight }

/-- The body of the inner loop of `Fonts`, for the format string `f` of the subfamily `s`:
the fonts after the iteration. -/
def Metadata.formatStep (fp : Filepath) (m : Metadata) (s : Subfamily) (fonts : List Font)
    (f : GoString) : List Font :=
  let format := NOF.FromString f
  if format = NOF then fonts
  else fonts ++ [m.fontOf fp s f format]

/-- Go `(*Metadata).Fonts`: all the valid fonts corresponding to the metadata. -/
def Metadata.Fonts (fp : Filepath) (m : Metadata) : List Font :=
  m.Subfamilies.foldl (fun fonts s => s.Formats.foldl (m.formatStep fp s) fonts) []

/-- An entry of a directory, as `ioutil.ReadDir` reports it. -/
structure FileInfo where
  Name : GoString
  IsDir : Bool
deriving DecidableEq, Repr

/-- What `Build` asks of the disk: `util.IsDir`, `util.Exists`, `ioutil.ReadDir` and the
decoding of a JSON metadata file by `util.ReadJson` into the family name and the
subfamilies (`none` stands for a non-nil error). -/
structure Disk where
  IsDir : GoString → Bool
  Exists : GoString → Bool
  ReadDir : GoString → Option (List FileInfo)
  ReadJson : GoString → Option (GoString × List Subfamily)

/-- Go `(*Metadata).Read`, on a new metadata value: the decoded metadata with its path
set to the name of the file, or `none` for a non-nil error. -/
def Metadata.Read (disk : Disk) (name : GoString) : Option Metadata :=
  match disk.ReadJson name with
  | none => none
  | some decoded => some { Family := decoded.1, Subfamilies := decoded.2, path := name }

/-- The fonts one entry of the font library contributes: none when the entry is not a
directory with a metadata file that can be read (lines 43-55 of inventory.go). -/
def entryFonts (disk : Disk) (fp : Filepath) (name : GoString) (entry : FileInfo) :
    List Font :=
  let mjson := fp.Join [name, entry.Name, "metadata.json".toList]
  if !(entry.IsDir && disk.Exists mjson) then []
  else
    match Metadata.Read disk mjson with
    | none => []
    | some metadata => metadata.Fonts fp

/-- Go `(*Inventory).Build`: the inventory after the fonts of every entry of the named
directory are put into it, or `none` for a non-nil error. -/
def Inventory.Build (disk : Disk) (fp : Filepath) (i : Inventory) (name : GoString) :
    Option Inventory :=
  if !disk.IsDir name then none
  else
    match disk.ReadDir name with
    | none => none
    | some entries =>
      some (entries.foldl (fun i entry => putFonts i (entryFonts disk fp name entry)) i)

/-- A string begins with a decimal digit. -/
def beginsWithDigit (s : GoString) : Bool :=
  match s with
  | c :: _ => c.isDigit
  | [] => false

/-- The format is one of the three declared constants. -/
def Format.Declared (f : Format) : Prop :=
  f = NOF ∨ f = EOT ∨ f = WOFF

instance (f : Format) : Decidable f.Declared := by
  unfold Format.Declared; infer_instance

/-- A sample of `path/filepath`: the directory is the text before the last `/`, and the
elements are joined with `/`. -/
def sampleFilepath : Filepath :=
  ⟨fun path => (List.intercalate "/".toList (Split path '/').dropLast),
    fun elems => List.intercalate "/".toList elems⟩

/-- The metadata of the sample family: a regular subfamily in three formats, one of them
unsupported, and an italic one. -/
def sampleMetadata : Metadata :=
  { Family := "Amaranth".toList
    Subfamilies :=
      [⟨"amaranth-regular".toList, ["eot".toList, "svg".toList, "WOFF".toList],
          "normal".toList, 400⟩,
        ⟨"amaranth-italic".toList, ["woff".toList], "italic".toList, 400⟩]
    path := "fonts/Amaranth/metadata.json".toList }

/-- A sample disk: the font library `fonts` holds the directory `Amaranth`, with the
sample metadata, and a plain file. -/
def sampleDisk : Disk :=
  { IsDir := fun name => name = "fonts".toList
    Exists := fun name => name = "fonts/Amaranth/metadata.json".toList
    ReadDir := fun name =>
      if name = "fonts".toList then
        some [⟨"Amaranth".toList, true⟩, ⟨"README".toList, false⟩]
      else none
    ReadJson := fun name =>
      if name = "fonts/Amaranth/metadata.json".toList then
        some (sampleMetadata.Family, sampleMetadata.Subfamilies)
      else none }

/-! ## Notions to state the claims that join the parser, the index and the handler -/

/-- The weight is a value of Go's `int`: it lies in the range of `intSize` bits. -/
def IsGoInt (w : Int) : Prop :=
  -(2 ^ (intSize - 1) : Int) ≤ w ∧ w < (2 ^ (intSize - 1) : Int)

instance (w : Int) : Decidable (IsGoInt w) := by
  unfold IsGoInt; infer_instance

/-- The state of an index populated only by `Build`: every cell holds a font of format
EOT or WOFF, under the family of the font and the column key of the font. -/
def BuiltIndex (i : Inventory) : Prop :=
  ∀ cell ∈ i.cells,
    cell.1 = (cell.2.Family, columnKeyOf cell.2) ∧
      (cell.2.Format = EOT ∨ cell.2.Format = WOFF)

/-- A digest function with the shape of `crypto/md5` printed with `%x`: every digest has
32 characters. -/
def Md5Shaped (md5 : GoString → GoString) : Prop :=
  ∀ text : GoString, (md5 text).length = 32

/-- A sample environment whose digest has the shape of MD5: 32 characters, the first of
them telling the empty text from the others. -/
def shapedEnv : Env :=
  ⟨fun _ => some [77, 97, 110], fun path => some ⟨path⟩,
    fun text => (if text = [] then 'd' else 'e') :: List.replicate 31 '0'⟩

/-! ## Lemmas on splitting and on the loops of `Queries` -/

theorem styleStep_eq (rowKey : GoString) (format : Format) (queries : List Query)
    (s : GoString) :
    styleStep rowKey format queries s = queries ++ styleKeys rowKey format s := by
  unfold styleKeys styleStep
  by_cases h : rowKey = [] ∨ styleComposite s = []
  · simp only [h, if_true, List.append_nil]
  · simp only [h, if_false, List.nil_append]

theorem foldl_styleStep (rowKey : GoString) (format : Format) (ss : List GoString) :
    ∀ queries : List Query,
      ss.foldl (styleStep rowKey format) queries
        = queries ++ ss.flatMap (styleKeys rowKey format) := by
  induction ss with
  | nil => intro queries; simp
  | cons s ss ih =>
    intro queries
    rw [List.foldl_cons, ih, styleStep_eq, List.flatMap_cons, List.append_assoc]

theorem familyStep_eq (format : Format) (queries : List Query) (f : GoString) :
    familyStep format queries f = queries ++ segmentKeys format f := by
  unfold segmentKeys familyStep
  simp only []
  generalize Split f ':' = l
  rcases l with _ | ⟨a, _ | ⟨b, _ | ⟨c, l⟩⟩⟩
  · simp
  · by_cases h : a = [] <;> simp [h]
  · simp only []
    rw [foldl_styleStep, foldl_styleStep, List.nil_append]
  · simp

theorem foldl_familyStep (format : Format) (fs : List GoString) :
    ∀ queries : List Query,
      fs.foldl (familyStep format) queries
        = queries ++ fs.flatMap (segmentKeys format) := by
  induction fs with
  | nil => intro queries; simp
  | cons s ss ih =>
    intro queries
    rw [List.foldl_cons, ih, familyStep_eq, List.flatMap_cons, List.append_assoc]

theorem Split_ne_nil (s : GoString) (sep : Char) : Split s sep ≠ [] := by
  induction s with
  | nil => simp [Split]
  | cons c cs ih =>
    unfold Split
    split
    · simp
    · split <;> simp

theorem Split_cons_sep (s : GoString) (sep : Char) :
    Split (sep :: s) sep = [] :: Split s sep := by
  rw [Split]; simp

theorem Split_cons_ne (c : Char) (s : GoString) (sep : Char) (h : c ≠ sep) :
    ∃ p ps, Split s sep = p :: ps ∧ Split (c :: s) sep = (c :: p) :: ps := by
  cases hs : Split s sep with
  | nil => exact absurd hs (Split_ne_nil s sep)
  | cons p ps =>
    refine ⟨p, ps, rfl, ?_⟩
    rw [Split, if_neg h, hs]

theorem Split_of_not_mem (s : GoString) (sep : Char) (h : sep ∉ s) :
    Split s sep = [s] := by
  induction s with
  | nil => simp [Split]
  | cons c cs ih =>
    have hc : c ≠ sep := fun e => h (by simp [e])
    have hcs : sep ∉ cs := fun e => h (by simp [e])
    obtain ⟨p, ps, h1, h2⟩ := Split_cons_ne c cs sep hc
    rw [h2]
    rw [ih hcs] at h1
    simp only [List.cons.injEq] at h1
    rw [← h1.1, ← h1.2]

theorem Split_append_sep (a b : GoString) (sep : Char) (h : sep ∉ a) :
    Split (a ++ sep :: b) sep = a :: Split b sep := by
  induction a with
  | nil => simp [Split_cons_sep]
  | cons c cs ih =>
    have hc : c ≠ sep := fun e => h (by simp [e])
    have hcs : sep ∉ cs := fun e => h (by simp [e])
    obtain ⟨p, ps, h1, h2⟩ := Split_cons_ne c (cs ++ sep :: b) sep hc
    rw [List.cons_append, h2]
    rw [ih hcs] at h1
    simp only [List.cons.injEq] at h1
    rw [← h1.1, ← h1.2]

theorem Split_append (a b : GoString) (sep : Char) :
    Split (a ++ sep :: b) sep = Split a sep ++ Split b sep := by
  induction a with
  | nil => simp [Split_cons_sep, Split]
  | cons c cs ih =>
    by_cases hc : c = sep
    · subst hc
      rw [List.cons_append, Split_cons_sep, Split_cons_sep, ih, List.cons_append]
    · obtain ⟨p, ps, h1, h2⟩ := Split_cons_ne c (cs ++ sep :: b) sep hc
      obtain ⟨p', ps', h1', h2'⟩ := Split_cons_ne c cs sep hc
      rw [List.cons_append, h2, h2']
      rw [ih, h1'] at h1
      simp only [List.cons_append, List.cons.injEq] at h1
      rw [← h1.1, ← h1.2, List.cons_append]


theorem Split_length_of_mem (s : GoString) (sep : Char) (h : sep ∈ s) :
    ∃ p q r, Split s sep = p :: q :: r := by
  obtain ⟨a, b, rfl⟩ := List.append_of_mem h
  rw [Split_append]
  cases ha : Split a sep with
  | nil => exact absurd ha (Split_ne_nil a sep)
  | cons p ps =>
    cases hb : Split b sep with
    | nil => exact absurd hb (Split_ne_nil b sep)
    | cons q qs =>
      cases ps with
      | nil => exact ⟨p, q, qs, rfl⟩
      | cons p' ps' => exact ⟨p, p', ps' ++ q :: qs, rfl⟩

theorem HasPrefix_singleton (s : GoString) (c : Char) :
    HasPrefix s [c] = true ↔ s.head? = some c := by
  cases s with
  | nil => simp [HasPrefix, List.isPrefixOf]
  | cons d ds =>
    simp only [HasPrefix, List.isPrefixOf, Bool.and_true, beq_iff_eq, List.head?_cons,
      Option.some.injEq]
    exact eq_comm

theorem Queries_of_begins (family : GoString) (format : Format)
    (h : BeginsWithSeparator family) : Queries family format = [] := by
  unfold Queries
  have e1 : "|".toList = [ '|'] := rfl
  have e2 : ":".toList = [ ':'] := rfl
  have e3 : ",".toList = [ ','] := rfl
  rw [e1, e2, e3]
  rcases h with h | h | h
  · rw [(HasPrefix_singleton family _).2 h]; simp
  · rw [(HasPrefix_singleton family _).2 h]; simp
  · rw [(HasPrefix_singleton family _).2 h]; simp

theorem Queries_of_not_begins (family : GoString) (format : Format)
    (h : ¬ BeginsWithSeparator family) :
    Queries family format = (Split family '|').flatMap (segmentKeys format) := by
  unfold Queries
  have e1 : "|".toList = [ '|'] := rfl
  have e2 : ":".toList = [ ':'] := rfl
  have e3 : ",".toList = [ ','] := rfl
  rw [e1, e2, e3]
  have h1 : HasPrefix family [ '|'] = false := by
    rw [Bool.eq_false_iff, Ne, HasPrefix_singleton]; exact fun e => h (Or.inl e)
  have h2 : HasPrefix family [ ':'] = false := by
    rw [Bool.eq_false_iff, Ne, HasPrefix_singleton]; exact fun e => h (Or.inr (Or.inl e))
  have h3 : HasPrefix family [ ','] = false := by
    rw [Bool.eq_false_iff, Ne, HasPrefix_singleton]; exact fun e => h (Or.inr (Or.inr e))
  rw [h1, h2, h3, foldl_familyStep]
  simp

theorem Atoi_nil : Atoi [] = none := by decide

theorem styleComposite_eq_nil (s : GoString) : styleComposite s = [] ↔ s = [] := by
  unfold styleComposite
  constructor
  · intro h
    split at h
    · exact (List.append_eq_nil.1 h).1
    · exact h
  · intro h
    subst h
    rfl

theorem styleKeys_eq (rowKey : GoString) (format : Format) (s : GoString) :
    styleKeys rowKey format s
      = if rowKey = [] ∨ s = [] then []
        else [⟨rowKey, format.String ++ styleComposite s⟩] := by
  unfold styleKeys styleStep
  simp only [styleComposite_eq_nil, List.nil_append]

theorem segmentKeys_family_only (format : Format) (s : GoString) (h : ':' ∉ s) :
    segmentKeys format s
      = if s = [] then [] else [⟨s, format.String ++ "400normal".toList⟩] := by
  unfold segmentKeys familyStep
  simp only []
  rw [Split_of_not_mem s _ h]
  by_cases hs : s = [] <;> simp [hs]

theorem segmentKeys_styles (format : Format) (A L : GoString) (hA : ':' ∉ A)
    (hL : ':' ∉ L) :
    segmentKeys format (A ++ ':' :: L) = (Split L ',').flatMap (styleKeys A format) := by
  unfold segmentKeys familyStep
  simp only []
  rw [Split_append_sep A L _ hA, Split_of_not_mem L _ hL]
  simp only []
  rw [foldl_styleStep, List.nil_append]

theorem segmentKeys_colons (format : Format) (A L : GoString) (hL : ':' ∈ L) :
    segmentKeys format (A ++ ':' :: L) = [] := by
  unfold segmentKeys familyStep
  simp only []
  rw [Split_append]
  obtain ⟨p, q, r, e⟩ := Split_length_of_mem L _ hL
  rw [e]
  cases ha : Split A ':' with
  | nil => exact absurd ha (Split_ne_nil A _)
  | cons a as =>
    cases as with
    | nil => simp
    | cons a' as' => simp

theorem not_begins_of_valid (A : GoString) (h : ValidFamilyName A) (rest : GoString) :
    ¬ BeginsWithSeparator (A ++ rest) := by
  obtain ⟨h0, h1, h2, h3⟩ := h
  cases A with
  | nil => exact absurd rfl h0
  | cons c cs =>
    unfold BeginsWithSeparator
    simp only [List.cons_append, List.head?_cons, Option.some.injEq, List.mem_cons,
      not_or] at h1 h2 h3 ⊢
    exact ⟨fun e => h1.1 e.symm, fun e => h2.1 e.symm, fun e => h3 (congrArg some e)⟩



theorem flatMap_styleKeys (A : GoString) (format : Format) (hA : A ≠ [])
    (ss : List GoString) :
    ss.flatMap (styleKeys A format)
      = (ss.filter (fun t => !t.isEmpty)).map
          (fun t => (⟨A, format.String ++ styleComposite t⟩ : Query)) := by
  induction ss with
  | nil => simp
  | cons s ss ih =>
    rw [List.flatMap_cons, ih, styleKeys_eq]
    cases s with
    | nil => simp
    | cons c cs => simp [hA]

theorem Queries_colon_styles (A L : GoString) (format : Format) (hA : ValidFamilyName A)
    (h1 : '|' ∉ L) (h2 : ':' ∉ L) :
    Queries (A ++ ':' :: L) format
      = ((Split L ',').filter (fun t => !t.isEmpty)).map
          (fun t => (⟨A, format.String ++ styleComposite t⟩ : Query)) := by
  rw [Queries_of_not_begins _ _ (not_begins_of_valid A hA _)]
  have hbar : '|' ∉ A ++ ':' :: L := by
    intro h
    rcases List.mem_append.1 h with h | h
    · exact hA.2.1 h
    · rcases List.mem_cons.1 h with h | h
      · exact absurd h (by decide)
      · exact h1 h
  rw [Split_of_not_mem _ _ hbar, List.flatMap_singleton,
    segmentKeys_styles format A L hA.2.2.1 h2, flatMap_styleKeys A format hA.1]

theorem Queries_nil (format : Format) : Queries [] format = [] := by
  rw [Queries_of_not_begins _ _ (by decide)]
  rfl

theorem segmentKeys_nil (format : Format) : segmentKeys format [] = [] := rfl

theorem not_begins_append (a rest : GoString) (ha : a ≠ [])
    (h : ¬ BeginsWithSeparator a) : ¬ BeginsWithSeparator (a ++ rest) := by
  cases a with
  | nil => exact absurd rfl ha
  | cons c cs => exact h

theorem segmentKeys_mem (format : Format) (f : GoString) (q : Query)
    (h : q ∈ segmentKeys format f) :
    q.RowKey ≠ [] ∧ ∃ c : GoString, c ≠ [] ∧ q.ColumnKey = format.String ++ c := by
  unfold segmentKeys familyStep at h
  simp only [] at h
  generalize Split f ':' = l at h
  rcases l with _ | ⟨a, _ | ⟨b, _ | ⟨c, l⟩⟩⟩
  · simp at h
  · by_cases ha : a = []
    · simp [ha] at h
    · have e : q = ⟨a, format.String ++ "400normal".toList⟩ := by
        simpa [ha] using h
      subst e
      exact ⟨ha, "400normal".toList, by decide, rfl⟩
  · simp only [] at h
    rw [foldl_styleStep, List.nil_append, List.mem_flatMap] at h
    obtain ⟨s, -, hs⟩ := h
    rw [styleKeys_eq] at hs
    by_cases hc : a = [] ∨ s = []
    · simp [hc] at hs
    · rw [if_neg hc, List.mem_singleton] at hs
      subst hs
      rw [not_or] at hc
      exact ⟨hc.1, styleComposite s, fun e => hc.2 ((styleComposite_eq_nil s).1 e), rfl⟩
  · simp at h

/-! ## The claims on `Queries` -/

/-- C1: for every family string that begins with `|`, `:` or `,` and every format,
`Queries` returns the empty sequence of keys. -/
theorem Queries_leading_separator (c : Char) (rest : GoString) (format : Format)
    (h : c = '|' ∨ c = ':' ∨ c = ',') : Queries (c :: rest) format = [] := by
  apply Queries_of_begins
  rcases h with h | h | h <;> subst h
  · exact Or.inl rfl
  · exact Or.inr (Or.inl rfl)
  · exact Or.inr (Or.inr rfl)

/-- Witness of C1 at the family string `|Amaranth`. -/
theorem Queries_leading_separator_witness :
    ( '|' = '|' ∨ '|' = ':' ∨ '|' = ',') ∧ Queries ( '|' :: "Amaranth".toList) WOFF = [] :=
  ⟨by decide, Queries_leading_separator '|' "Amaranth".toList WOFF (by decide)⟩

/-- C2: for every non-empty family name that contains neither `|` nor `:` and does not
begin with `,`, and every format, `Queries` returns exactly the one key made of the name
and of the format's string followed by `400normal`. -/
theorem Queries_family_alone (name : GoString) (format : Format)
    (h : ValidFamilyName name) :
    Queries name format = [⟨name, format.String ++ "400normal".toList⟩] := by
  have hb := not_begins_of_valid name h []
  rw [List.append_nil] at hb
  rw [Queries_of_not_begins _ _ hb, Split_of_not_mem _ _ h.2.1, List.flatMap_singleton,
    segmentKeys_family_only _ _ h.2.2.1, if_neg h.1]

/-- Witness of C2 at the family name `Amaranth` and the format EOT. -/
theorem Queries_family_alone_witness :
    ValidFamilyName "Amaranth".toList ∧
      Queries "Amaranth".toList EOT = [⟨"Amaranth".toList, EOT.String ++ "400normal".toList⟩] :=
  ⟨by decide, Queries_family_alone "Amaranth".toList EOT (by decide)⟩

/-- C3: for every valid family name `A` and every non-empty style token `t` free of `|`,
`:` and `,`, `Queries (A ++ ":" ++ t)` is the one key `(A, format ++ t ++ "normal")` when
`strconv.Atoi` accepts `t`, and the one key `(A, format ++ t)` otherwise. -/
theorem Queries_one_style (A t : GoString) (format : Format) (hA : ValidFamilyName A)
    (ht : t ≠ []) (h1 : '|' ∉ t) (h2 : ':' ∉ t) (h3 : ',' ∉ t) :
    Queries (A ++ ':' :: t) format
      = if (Atoi t).isSome then [⟨A, format.String ++ t ++ "normal".toList⟩]
        else [⟨A, format.String ++ t⟩] := by
  rw [Queries_colon_styles A t format hA h1 h2, Split_of_not_mem _ _ h3]
  cases t with
  | nil => exact absurd rfl ht
  | cons c cs =>
    simp only [List.filter_cons, List.isEmpty_cons, Bool.not_false, if_true,
      List.filter_nil, List.map_cons, List.map_nil, styleComposite]
    split <;> simp

/-- Witness of C3 at `Amaranth:700` and at `Amaranth:700italic`, format EOT. -/
theorem Queries_one_style_witness :
    Queries "Amaranth:700".toList EOT = [⟨"Amaranth".toList, "eot700normal".toList⟩] ∧
      Queries "Amaranth:700italic".toList EOT
        = [⟨"Amaranth".toList, "eot700italic".toList⟩] :=
  ⟨Queries_one_style "Amaranth".toList "700".toList EOT (by decide) (by decide)
      (by decide) (by decide) (by decide),
    Queries_one_style "Amaranth".toList "700italic".toList EOT (by decide) (by decide)
      (by decide) (by decide) (by decide)⟩

/-- C4: empty style tokens are skipped. For a valid family name `A` and a style list `L`
free of `|` and `:`, `Queries (A ++ ":" ++ L)` has exactly one key per non-empty
comma-separated token of `L`, in order; a trailing comma and a doubled comma in `L` leave
the result unchanged; and `A:700,300italic,` with WOFF gives the two keys
`(A, woff700normal)` and `(A, woff300italic)`. -/
theorem Queries_skips_empty_styles (A L : GoString) (format : Format)
    (hA : ValidFamilyName A) (h1 : '|' ∉ L) (h2 : ':' ∉ L) :
    Queries (A ++ ':' :: L) format
        = ((Split L ',').filter (fun t => !t.isEmpty)).map
            (fun t => (⟨A, format.String ++ styleComposite t⟩ : Query))
      ∧ Queries (A ++ ':' :: (L ++ [ ','])) format = Queries (A ++ ':' :: L) format
      ∧ (∀ L1 L2 : GoString, L = L1 ++ ',' :: L2 →
          Queries (A ++ ':' :: (L1 ++ ',' :: ',' :: L2)) format
            = Queries (A ++ ':' :: L) format)
      ∧ Queries "A:700,300italic,".toList WOFF
          = [⟨"A".toList, "woff700normal".toList⟩, ⟨"A".toList, "woff300italic".toList⟩] := by
  refine ⟨Queries_colon_styles A L format hA h1 h2, ?_, ?_, by decide⟩
  · have g1 : '|' ∉ L ++ [ ','] := by
      intro h
      rcases List.mem_append.1 h with h | h
      · exact h1 h
      · exact absurd (List.mem_singleton.1 h) (by decide)
    have g2 : ':' ∉ L ++ [ ','] := by
      intro h
      rcases List.mem_append.1 h with h | h
      · exact h2 h
      · exact absurd (List.mem_singleton.1 h) (by decide)
    rw [Queries_colon_styles A _ format hA g1 g2, Queries_colon_styles A L format hA h1 h2,
      Split_append]
    have e : Split [] ',' = [[]] := rfl
    rw [e, List.filter_append]
    simp
  · intro L1 L2 hL
    subst hL
    have a1 : '|' ∉ L1 := fun h => h1 (List.mem_append_left _ h)
    have a2 : ':' ∉ L1 := fun h => h2 (List.mem_append_left _ h)
    have b1 : '|' ∉ L2 := fun h => h1 (List.mem_append_right _ (List.mem_cons_of_mem _ h))
    have b2 : ':' ∉ L2 := fun h => h2 (List.mem_append_right _ (List.mem_cons_of_mem _ h))
    have g1 : '|' ∉ L1 ++ ',' :: ',' :: L2 := by
      intro h
      rcases List.mem_append.1 h with h | h
      · exact a1 h
      · rcases List.mem_cons.1 h with h | h
        · exact absurd h (by decide)
        · rcases List.mem_cons.1 h with h | h
          · exact absurd h (by decide)
          · exact b1 h
    have g2 : ':' ∉ L1 ++ ',' :: ',' :: L2 := by
      intro h
      rcases List.mem_append.1 h with h | h
      · exact a2 h
      · rcases List.mem_cons.1 h with h | h
        · exact absurd h (by decide)
        · rcases List.mem_cons.1 h with h | h
          · exact absurd h (by decide)
          · exact b2 h
    rw [Queries_colon_styles A _ format hA g1 g2, Queries_colon_styles A _ format hA h1 h2,
      Split_append, Split_append, Split_cons_sep, List.filter_append, List.filter_append]
    simp

/-- Witness of C4 at the family `Open+Sans` and the style list `700,300italic`. -/
theorem Queries_skips_empty_styles_witness :
    Queries "Open+Sans:700,300italic,".toList EOT
      = Queries "Open+Sans:700,300italic".toList EOT :=
  (Queries_skips_empty_styles "Open+Sans".toList "700,300italic".toList EOT (by decide)
    (by decide) (by decide)).2.1

/-- C5, as the claim states it, fails: the segment `A:700:italic` has two `:`, and
`Queries` yields no key for it, so not the key `(A, woff700:italic)`. -/
theorem Queries_two_colons_counterexample :
    Queries "A:700:italic".toList WOFF = [] ∧
      ¬ (∃ q : Query, q ∈ Queries "A:700:italic".toList WOFF ∧ q.RowKey = "A".toList ∧
          q.ColumnKey = "woff700:italic".toList) := by
  have e : Queries "A:700:italic".toList WOFF = [] := by decide
  refine ⟨e, ?_⟩
  rw [e]
  simp

/-- C5, amended: a segment is split on every `:`. The keys of a family string that does
not begin with a separator are the keys of its `|`-segments, in order; a segment `A:L`
with a non-empty `A` free of `:` has the family name `A` (the text before the first `:`)
and the style list `L` (the text after it), one key per non-empty token, when `L` has no
further `:`; and it yields no key when `L` has a further `:`. -/
theorem Queries_segment_colons (family : GoString) (format : Format)
    (h : ¬ BeginsWithSeparator family) :
    Queries family format = (Split family '|').flatMap (segmentKeys format)
      ∧ ∀ A L : GoString, A ≠ [] → ':' ∉ A →
          ( ':' ∉ L →
              segmentKeys format (A ++ ':' :: L)
                = ((Split L ',').filter (fun t => !t.isEmpty)).map
                    (fun t => (⟨A, format.String ++ styleComposite t⟩ : Query)))
          ∧ ( ':' ∈ L → segmentKeys format (A ++ ':' :: L) = []) := by
  refine ⟨Queries_of_not_begins family format h, fun A L hA hc => ⟨fun hL => ?_, fun hL => ?_⟩⟩
  · rw [segmentKeys_styles format A L hc hL, flatMap_styleKeys A format hA]
  · exact segmentKeys_colons format A L hL

/-- Witness of the amended C5 at the family string `B:300|A:700:italic`: only the first
segment gives a key. -/
theorem Queries_segment_colons_witness :
    Queries "B:300|A:700:italic".toList EOT = [⟨"B".toList, "eot300normal".toList⟩] ∧
      segmentKeys EOT "A:700:italic".toList = [] :=
  ⟨(Queries_segment_colons "B:300|A:700:italic".toList EOT (by decide)).1,
    ((Queries_segment_colons "B:300|A:700:italic".toList EOT (by decide)).2 "A".toList
      "700:italic".toList (by decide) (by decide)).2 (by decide)⟩

/-- C6: `Queries` distributes over `|` and keeps the input order. For a non-empty `a` and
any `b`, neither beginning with `|`, `:` or `,`, the keys of `a|b` are the keys of `a`
followed by the keys of `b`; a trailing `|` and a doubled `|` add no key; and
`A|B:300,600italic` with EOT gives `(A, eot400normal)`, `(B, eot300normal)`,
`(B, eot600italic)`. -/
theorem Queries_pipe_distrib (a b : GoString) (format : Format) (ha : a ≠ [])
    (hab : ¬ BeginsWithSeparator a) (hb : ¬ BeginsWithSeparator b) :
    Queries (a ++ '|' :: b) format = Queries a format ++ Queries b format
      ∧ Queries (a ++ [ '|']) format = Queries a format
      ∧ Queries (a ++ '|' :: '|' :: b) format = Queries a format ++ Queries b format
      ∧ Queries "A|B:300,600italic".toList EOT
          = [⟨"A".toList, "eot400normal".toList⟩, ⟨"B".toList, "eot300normal".toList⟩,
              ⟨"B".toList, "eot600italic".toList⟩] := by
  refine ⟨?_, ?_, ?_, by decide⟩
  · rw [Queries_of_not_begins _ _ (not_begins_append a _ ha hab),
      Queries_of_not_begins _ _ hab, Queries_of_not_begins _ _ hb, Split_append,
      List.flatMap_append]
  · rw [Queries_of_not_begins _ _ (not_begins_append a _ ha hab),
      Queries_of_not_begins _ _ hab, Split_append, List.flatMap_append]
    have e : Split [] '|' = [[]] := rfl
    rw [e, List.flatMap_singleton, segmentKeys_nil, List.append_nil]
  · rw [Queries_of_not_begins _ _ (not_begins_append a _ ha hab),
      Queries_of_not_begins _ _ hab, Queries_of_not_begins _ _ hb, Split_append,
      Split_cons_sep, List.flatMap_append, List.flatMap_cons, segmentKeys_nil,
      List.nil_append]

/-- Witness of C6 at `Open+Sans:700,300italic` and `Amaranth`, the doubled `|` of the
test cases. -/
theorem Queries_pipe_distrib_witness :
    Queries "Open+Sans:700,300italic||Amaranth".toList EOT
      = Queries "Open+Sans:700,300italic".toList EOT ++ Queries "Amaranth".toList EOT :=
  (Queries_pipe_distrib "Open+Sans:700,300italic".toList "Amaranth".toList EOT (by decide)
    (by decide) (by decide)).2.2.1

/-- C7: every key emitted by `Queries`, for every family string and format, has a
non-empty `RowKey`, and a `ColumnKey` that is the format's string followed by a non-empty
weight/style composite. -/
theorem Queries_keys_nonempty (family : GoString) (format : Format) (q : Query) :
    q ∈ Queries family format →
      q.RowKey ≠ [] ∧ ∃ c : GoString, c ≠ [] ∧ q.ColumnKey = format.String ++ c := by
  intro h
  by_cases hb : BeginsWithSeparator family
  · rw [Queries_of_begins _ _ hb] at h
    exact absurd h (List.not_mem_nil q)
  · rw [Queries_of_not_begins _ _ hb, List.mem_flatMap] at h
    obtain ⟨f, -, hf⟩ := h
    exact segmentKeys_mem format f q hf

/-- Witness of C7 at the second key of `A|B:300`. -/
theorem Queries_keys_nonempty_witness :
    (⟨"B".toList, "eot300normal".toList⟩ : Query).RowKey ≠ [] ∧
      ∃ c : GoString, c ≠ [] ∧
        (⟨"B".toList, "eot300normal".toList⟩ : Query).ColumnKey = EOT.String ++ c :=
  Queries_keys_nonempty "A|B:300".toList EOT ⟨"B".toList, "eot300normal".toList⟩ (by decide)


/-! ## Lemmas on the response writer and the loops of the handler -/

theorem StatusCode_errorReply (w : ResponseWriter) (code : Nat) (hw : w.Status = none) :
    (errorReply w code).StatusCode = code := by
  simp [errorReply, ResponseWriter.WriteHeader, ResponseWriter.SetHeader,
    ResponseWriter.StatusCode, hw]

theorem Status_SetHeader (w : ResponseWriter) (key value : GoString) :
    (w.SetHeader key value).Status = w.Status := rfl

theorem StatusCode_Copy (w : ResponseWriter) (buf : GoString) (hw : w.Status = none) :
    (w.Copy buf).StatusCode = 200 := by
  unfold ResponseWriter.Copy
  split
  · simp [ResponseWriter.StatusCode, hw]
  · simp [ResponseWriter.Write, ResponseWriter.WriteHeader, ResponseWriter.StatusCode, hw]

theorem Etag_status (env : Env) (w : ResponseWriter) (r : Request) (queries : List Query)
    (ctx : HandlerContext) (hw : w.Status = none) :
    ((Etag env w r queries ctx).2 = true → (Etag env w r queries ctx).1.StatusCode = 304)
      ∧ ((Etag env w r queries ctx).2 = false → (Etag env w r queries ctx).1.Status = none) := by
  unfold Etag
  cases etagLoop env ctx queries [] with
  | none =>
    simp only []
    split <;> simp [Status_SetHeader, hw]
  | some written =>
    simp only []
    split <;> split <;>
      simp [NotModified, ResponseWriter.WriteHeader, ResponseWriter.StatusCode,
        Status_SetHeader, hw]

theorem resolveLoop_resolved (env : Env) (ctx : HandlerContext) (queries : List Query) :
    ∀ (templateData : List FontFace) (templateName : GoString),
      (∃ d n, resolveLoop env ctx queries templateData templateName = .resolved d n)
        ↔ ∀ q ∈ queries, ∃ fnt, ctx.Inventory.Query q = some fnt ∧
            (FontFace.FromFont env FontFace.zero fnt).isSome = true := by
  induction queries with
  | nil =>
    intro d n
    simp [resolveLoop]
  | cons q qs ih =>
    intro d n
    unfold resolveLoop
    cases hq : ctx.Inventory.Query q with
    | none => simp [hq]
    | some fnt =>
      cases hf : FontFace.FromFont env FontFace.zero fnt with
      | none => simp [hq, hf]
      | some ff =>
        simp only [List.mem_cons, forall_eq_or_imp, hq, Option.some.injEq, exists_eq_left',
          hf, Option.isSome_some, true_and]
        exact ih _ _

theorem CssHandler_passed (env : Env) (w : ResponseWriter) (r : Request)
    (ctx : HandlerContext) (hm : r.Method = "GET".toList)
    (hwl : ctx.Whitelist.Contains r.Referer = true)
    (hfam : r.FormValue "family".toList ≠ []) (hfmt : requestFormat r ≠ NOF)
    (hq : Queries (r.FormValue "family".toList) (requestFormat r) ≠ []) :
    CssHandler env w r ctx
      = if (if ctx.Flags.Etag then
              Etag env w r (Queries (r.FormValue "family".toList) (requestFormat r)) ctx
            else (w, false)).2 = true
        then (if ctx.Flags.Etag then
              Etag env w r (Queries (r.FormValue "family".toList) (requestFormat r)) ctx
            else (w, false)).1
        else
          match resolveLoop env ctx (Queries (r.FormValue "family".toList) (requestFormat r))
              [] [] with
          | .missing => BadRequest (if ctx.Flags.Etag then
              Etag env w r (Queries (r.FormValue "family".toList) (requestFormat r)) ctx
            else (w, false)).1 r
          | .failed => InternalServerError (if ctx.Flags.Etag then
              Etag env w r (Queries (r.FormValue "family".toList) (requestFormat r)) ctx
            else (w, false)).1 r
          | .resolved templateData templateName =>
            match ctx.Templates.ExecuteTemplate templateName templateData with
            | none => InternalServerError (if ctx.Flags.Etag then
                Etag env w r (Queries (r.FormValue "family".toList) (requestFormat r)) ctx
              else (w, false)).1 r
            | some buf =>
              ((((if ctx.Flags.Etag then
                  Etag env w r (Queries (r.FormValue "family".toList) (requestFormat r)) ctx
                else (w, false)).1.SetHeader "Cache-Control".toList
                    ("max-age=".toList ++ FormatUint ctx.Flags.CcMaxAge)).SetHeader
                  "Content-Type".toList "text/css; charset=utf-8".toList).Copy buf) := by
  have hlen : ¬ (Queries (r.FormValue "family".toList) (requestFormat r)).length = 0 := by
    intro h
    exact hq (List.length_eq_zero.1 h)
  unfold requestFormat at hfmt hq hlen ⊢
  unfold CssHandler
  rw [if_neg (not_not.2 hm), hwl]
  simp only [Bool.not_true, Bool.false_eq_true, if_false, hfam, hfmt, hlen]

/-! ## The claims on `CssHandler` -/

/-- C8: one request gives one status. `CssHandler` responds 200 exactly when the method
is GET, the referrer is contained in the whitelist, `family` is non-empty, the format is
recognised, `Queries` yields at least one key, the entity-tag check did not match, every
key resolves to a font, every font converts to a font face and the template renders; in
every other case the status is one of 501, 403, 400, 304 and 500. -/
theorem CssHandler_status (env : Env) (w : ResponseWriter) (r : Request)
    (ctx : HandlerContext) (hw : w.Status = none) :
    ((CssHandler env w r ctx).StatusCode = 200 ↔
        r.Method = "GET".toList ∧
        ctx.Whitelist.Contains r.Referer = true ∧
        r.FormValue "family".toList ≠ [] ∧
        requestFormat r ≠ NOF ∧
        Queries (r.FormValue "family".toList) (requestFormat r) ≠ [] ∧
        ¬ (ctx.Flags.Etag = true ∧
            (Etag env w r (Queries (r.FormValue "family".toList) (requestFormat r)) ctx).2
              = true) ∧
        (∀ q ∈ Queries (r.FormValue "family".toList) (requestFormat r),
            ∃ fnt, ctx.Inventory.Query q = some fnt) ∧
        (∀ q ∈ Queries (r.FormValue "family".toList) (requestFormat r),
            ∀ fnt, ctx.Inventory.Query q = some fnt →
              (FontFace.FromFont env FontFace.zero fnt).isSome = true) ∧
        (∀ templateData templateName,
            resolveLoop env ctx (Queries (r.FormValue "family".toList) (requestFormat r))
                [] [] = .resolved templateData templateName →
              (ctx.Templates.ExecuteTemplate templateName templateData).isSome = true))
      ∧ ((CssHandler env w r ctx).StatusCode ≠ 200 →
          (CssHandler env w r ctx).StatusCode ∈ [501, 403, 400, 304, 500]) := by
  have key : ∀ (w1 : ResponseWriter) (code : Nat), w1.Status = none →
      (errorReply w1 code).StatusCode = code := fun w1 c h => StatusCode_errorReply w1 c h
  -- step 1: the method
  by_cases hm : r.Method = "GET".toList
  swap
  · have e : (CssHandler env w r ctx).StatusCode = 501 := by
      unfold CssHandler
      rw [if_pos hm]
      exact key w 501 hw
    rw [e]
    exact ⟨⟨fun h => absurd h (by decide), fun h => absurd h.1 hm⟩, fun _ => by decide⟩
  -- step 2: the whitelist
  by_cases hwl : ctx.Whitelist.Contains r.Referer = true
  swap
  · have e : (CssHandler env w r ctx).StatusCode = 403 := by
      unfold CssHandler
      rw [if_neg (not_not.2 hm)]
      rw [Bool.not_eq_true] at hwl
      rw [hwl]
      exact key w 403 hw
    rw [e]
    exact ⟨⟨fun h => absurd h (by decide), fun h => absurd h.2.1 hwl⟩, fun _ => by decide⟩
  -- step 3: the family parameter
  by_cases hfam : r.FormValue "family".toList = []
  · have e : (CssHandler env w r ctx).StatusCode = 400 := by
      unfold CssHandler
      rw [if_neg (not_not.2 hm), hwl]
      simp only [Bool.not_true, Bool.false_eq_true, if_false, hfam, if_true]
      exact key w 400 hw
    rw [e]
    exact ⟨⟨fun h => absurd h (by decide), fun h => absurd hfam h.2.2.1⟩, fun _ => by decide⟩
  -- step 4: the format parameter
  by_cases hfmt : requestFormat r = NOF
  · have e : (CssHandler env w r ctx).StatusCode = 400 := by
      unfold requestFormat at hfmt
      unfold CssHandler
      rw [if_neg (not_not.2 hm), hwl]
      simp only [Bool.not_true, Bool.false_eq_true, if_false, hfam, hfmt, if_true]
      exact key w 400 hw
    rw [e]
    exact ⟨⟨fun h => absurd h (by decide), fun h => absurd hfmt h.2.2.2.1⟩,
      fun _ => by decide⟩
  -- step 5: the parsed queries
  by_cases hq : Queries (r.FormValue "family".toList) (requestFormat r) = []
  · have e : (CssHandler env w r ctx).StatusCode = 400 := by
      unfold requestFormat at hfmt hq
      unfold CssHandler
      rw [if_neg (not_not.2 hm), hwl]
      simp only [Bool.not_true, Bool.false_eq_true, if_false, hfam, hfmt, hq,
        List.length_nil, if_true]
      exact key w 400 hw
    rw [e]
    exact ⟨⟨fun h => absurd h (by decide), fun h => absurd hq h.2.2.2.2.1⟩,
      fun _ => by decide⟩
  rw [CssHandler_passed env w r ctx hm hwl hfam hfmt hq]
  generalize hqs : Queries (r.FormValue "family".toList) (requestFormat r) = queries
  -- step 6: the entity tag
  have hchecked :
      ((if ctx.Flags.Etag then Etag env w r queries ctx else (w, false)).2 = true ↔
          (ctx.Flags.Etag = true ∧ (Etag env w r queries ctx).2 = true))
        ∧ ((if ctx.Flags.Etag then Etag env w r queries ctx else (w, false)).2 = true →
          (if ctx.Flags.Etag then Etag env w r queries ctx else (w, false)).1.StatusCode
            = 304)
        ∧ (¬ (if ctx.Flags.Etag then Etag env w r queries ctx else (w, false)).2 = true →
          (if ctx.Flags.Etag then Etag env w r queries ctx else (w, false)).1.Status
            = none) := by
    cases hflag : ctx.Flags.Etag with
    | false => simp [hw]
    | true =>
      simp only [if_true, true_and, Bool.not_eq_true]
      exact ⟨(Etag_status env w r queries ctx hw).1,
        (Etag_status env w r queries ctx hw).2⟩
  generalize (if ctx.Flags.Etag then Etag env w r queries ctx else (w, false)) = checked
    at hchecked ⊢
  obtain ⟨hiff, h304, hnone⟩ := hchecked
  by_cases hmatch : checked.2 = true
  · rw [if_pos hmatch, h304 hmatch]
    exact ⟨⟨fun h => absurd h (by decide), fun h => absurd (hiff.1 hmatch) h.2.2.2.2.2.1⟩,
      fun _ => by decide⟩
  rw [if_neg hmatch]
  have hw1 := hnone hmatch
  have hnot : ¬ (ctx.Flags.Etag = true ∧ (Etag env w r queries ctx).2 = true) :=
    fun h => hmatch (hiff.2 h)
  -- steps 7 and 8: resolution, conversion, rendering
  have hres := resolveLoop_resolved env ctx queries [] []
  cases hloop : resolveLoop env ctx queries [] [] with
  | missing =>
    simp only []
    rw [show (BadRequest checked.1 r).StatusCode = 400 from key _ 400 hw1]
    refine ⟨⟨fun h => absurd h (by decide), fun h => ?_⟩, fun _ => by decide⟩
    have hall : ∀ q ∈ queries, ∃ fnt, ctx.Inventory.Query q = some fnt ∧
        (FontFace.FromFont env FontFace.zero fnt).isSome = true := by
      intro q hqm
      obtain ⟨fnt, hf⟩ := h.2.2.2.2.2.2.1 q hqm
      exact ⟨fnt, hf, h.2.2.2.2.2.2.2.1 q hqm fnt hf⟩
    obtain ⟨d, n, hdn⟩ := hres.2 hall
    rw [hloop] at hdn
    exact Resolution.noConfusion hdn
  | failed =>
    simp only []
    rw [show (InternalServerError checked.1 r).StatusCode = 500 from key _ 500 hw1]
    refine ⟨⟨fun h => absurd h (by decide), fun h => ?_⟩, fun _ => by decide⟩
    have hall : ∀ q ∈ queries, ∃ fnt, ctx.Inventory.Query q = some fnt ∧
        (FontFace.FromFont env FontFace.zero fnt).isSome = true := by
      intro q hqm
      obtain ⟨fnt, hf⟩ := h.2.2.2.2.2.2.1 q hqm
      exact ⟨fnt, hf, h.2.2.2.2.2.2.2.1 q hqm fnt hf⟩
    obtain ⟨d, n, hdn⟩ := hres.2 hall
    rw [hloop] at hdn
    exact Resolution.noConfusion hdn
  | resolved templateData templateName =>
    simp only []
    have hall := hres.1 ⟨templateData, templateName, hloop⟩
    cases htmpl : ctx.Templates.ExecuteTemplate templateName templateData with
    | none =>
      simp only []
      rw [show (InternalServerError checked.1 r).StatusCode = 500 from key _ 500 hw1]
      refine ⟨⟨fun h => absurd h (by decide), fun h => ?_⟩, fun _ => by decide⟩
      have := h.2.2.2.2.2.2.2.2 templateData templateName rfl
      rw [htmpl] at this
      exact absurd this (by decide)
    | some buf =>
      simp only []
      have e200 : (((checked.1.SetHeader "Cache-Control".toList
          ("max-age=".toList ++ FormatUint ctx.Flags.CcMaxAge)).SetHeader
            "Content-Type".toList "text/css; charset=utf-8".toList).Copy buf).StatusCode
            = 200 := by
        apply StatusCode_Copy
        rw [Status_SetHeader, Status_SetHeader]
        exact hw1
      rw [e200]
      refine ⟨⟨fun _ => ⟨hm, hwl, hfam, hfmt, hqs ▸ hq, hnot, ?_, ?_, ?_⟩, fun _ => rfl⟩,
        fun h => absurd rfl h⟩
      · intro q hqm
        obtain ⟨fnt, hf, -⟩ := hall q hqm
        exact ⟨fnt, hf⟩
      · intro q hqm fnt hf
        obtain ⟨fnt1, hf1, hc⟩ := hall q hqm
        rw [hf] at hf1
        rw [Option.some.inj hf1]
        exact hc
      · intro d n hdn
        rw [Resolution.resolved.injEq] at hdn
        rw [← hdn.1, ← hdn.2, htmpl]
        rfl

/-- Witness of C8: the sample GET request for `Amaranth` is answered 200, and with that
status comes each of the conditions, here the method. -/
theorem CssHandler_status_witness :
    freshWriter.Status = none ∧
      (CssHandler sampleEnv freshWriter (sampleRequest "GET".toList "Amaranth".toList)
          sampleContext).StatusCode = 200 ∧
      (sampleRequest "GET".toList "Amaranth".toList).Method = "GET".toList :=
  ⟨rfl, by decide,
    ((CssHandler_status sampleEnv freshWriter (sampleRequest "GET".toList "Amaranth".toList)
      sampleContext rfl).1.1 (by decide)).1⟩

/-- C9: for every request whose method is not GET, `CssHandler` responds 501, whatever
the referrer, the whitelist, the query parameters and the flags. -/
theorem CssHandler_not_get (env : Env) (w : ResponseWriter) (r : Request)
    (ctx : HandlerContext) (hw : w.Status = none) (hm : r.Method ≠ "GET".toList) :
    (CssHandler env w r ctx).StatusCode = 501 := by
  unfold CssHandler
  rw [if_pos hm]
  exact StatusCode_errorReply w 501 hw

/-- Witness of C9 at a POST request for a family the sample inventory holds. -/
theorem CssHandler_not_get_witness :
    freshWriter.Status = none ∧
      (sampleRequest "POST".toList "Amaranth".toList).Method ≠ "GET".toList ∧
      (CssHandler sampleEnv freshWriter (sampleRequest "POST".toList "Amaranth".toList)
          sampleContext).StatusCode = 501 :=
  ⟨rfl, by decide,
    CssHandler_not_get sampleEnv freshWriter (sampleRequest "POST".toList "Amaranth".toList)
      sampleContext rfl (by decide)⟩

/-- C10: for every GET request whose referrer is not contained in the whitelist,
`CssHandler` responds 403, whatever the family and format parameters and the inventory
hold. -/
theorem CssHandler_not_whitelisted (env : Env) (w : ResponseWriter) (r : Request)
    (ctx : HandlerContext) (hw : w.Status = none) (hm : r.Method = "GET".toList)
    (hwl : ctx.Whitelist.Contains r.Referer = false) :
    (CssHandler env w r ctx).StatusCode = 403 := by
  unfold CssHandler
  rw [if_neg (not_not.2 hm), hwl]
  exact StatusCode_errorReply w 403 hw

/-- Witness of C10 at a valid GET request, with the sample inventory and an empty
whitelist. -/
theorem CssHandler_not_whitelisted_witness :
    ({ sampleContext with Whitelist := ⟨[]⟩ } : HandlerContext).Whitelist.Contains
        (sampleRequest "GET".toList "Amaranth".toList).Referer = false ∧
      (CssHandler sampleEnv freshWriter (sampleRequest "GET".toList "Amaranth".toList)
          { sampleContext with Whitelist := ⟨[]⟩ }).StatusCode = 403 :=
  ⟨by decide,
    CssHandler_not_whitelisted sampleEnv freshWriter
      (sampleRequest "GET".toList "Amaranth".toList) { sampleContext with Whitelist := ⟨[]⟩ }
      rfl (by decide) (by decide)⟩

/-! ## Lemmas on headers and on the loop of `Etag` -/

theorem lookup_filter_ne (h : Header) (k k' : GoString) (hk : k' ≠ k) :
    (h.filter (fun e => e.1 ≠ k)).lookup k' = h.lookup k' := by
  induction h with
  | nil => rfl
  | cons e es ih =>
    obtain ⟨a, b⟩ := e
    by_cases ha : a = k
    · subst ha
      have hne : (k' == a) = false := by simpa using hk
      simp only [List.filter_cons, ne_eq, not_true_eq_false, decide_False,
        Bool.false_eq_true, if_false, List.lookup_cons, hne]
      exact ih
    · by_cases hb : k' = a
      · subst hb
        simp [List.filter_cons, ha, List.lookup_cons]
      · have hne : (k' == a) = false := by simpa using hb
        simp only [List.filter_cons, ne_eq, ha, not_false_eq_true, decide_True, if_true,
          List.lookup_cons, hne]
        exact ih

theorem Header_Get_Set (h : Header) (k v k' : GoString) :
    Header.Get (Header.Set h k v) k' = if k' = k then v else Header.Get h k' := by
  unfold Header.Get Header.Set
  by_cases hk : k' = k
  · subst hk
    simp [List.lookup_cons]
  · have hne : (k' == k) = false := by simpa using hk
    rw [List.lookup_cons, hne, if_neg hk, lookup_filter_ne h k k' hk]

theorem etagLoop_eq_some (env : Env) (ctx : HandlerContext) :
    ∀ (queries : List Query) (written : GoString) (fonts : List Font) (times : List Time),
      queries.map ctx.Inventory.Query = fonts.map some →
      fonts.map (Font.ModTime env) = times.map some →
      etagLoop env ctx queries written
        = some (written ++ (times.map Time.String).flatten) := by
  intro queries
  induction queries with
  | nil =>
    intro written fonts times h1 h2
    cases fonts with
    | nil =>
      cases times with
      | nil => simp [etagLoop]
      | cons t ts => simp at h2
    | cons f fs => simp at h1
  | cons q qs ih =>
    intro written fonts times h1 h2
    cases fonts with
    | nil => simp at h1
    | cons f fs =>
      cases times with
      | nil => simp at h2
      | cons t ts =>
        simp only [List.map_cons, List.cons.injEq] at h1 h2
        unfold etagLoop
        rw [h1.1]
        simp only []
        rw [h2.1]
        simp only []
        rw [ih _ fs ts h1.2 h2.2]
        simp [List.append_assoc]

theorem etagLoop_some_inv (env : Env) (ctx : HandlerContext) :
    ∀ (queries : List Query) (written out : GoString),
      etagLoop env ctx queries written = some out →
      ∃ (fonts : List Font) (times : List Time),
        queries.map ctx.Inventory.Query = fonts.map some ∧
        fonts.map (Font.ModTime env) = times.map some ∧
        out = written ++ (times.map Time.String).flatten := by
  intro queries
  induction queries with
  | nil =>
    intro written out h
    refine ⟨[], [], rfl, rfl, ?_⟩
    simp only [etagLoop, Option.some.injEq] at h
    simp [h]
  | cons q qs ih =>
    intro written out h
    unfold etagLoop at h
    cases hq : ctx.Inventory.Query q with
    | none => rw [hq] at h; exact absurd h (by simp)
    | some fnt =>
      rw [hq] at h
      simp only [] at h
      cases ht : fnt.ModTime env with
      | none => rw [ht] at h; exact absurd h (by simp)
      | some t =>
        rw [ht] at h
        simp only [] at h
        obtain ⟨fonts, times, h1, h2, h3⟩ := ih _ _ h
        refine ⟨fnt :: fonts, t :: times, ?_, ?_, ?_⟩
        · simp [hq, h1]
        · simp [ht, h2]
        · rw [h3]; simp [List.append_assoc]

theorem etagLoop_eq_none_iff (env : Env) (ctx : HandlerContext) :
    ∀ (queries : List Query) (written : GoString),
      etagLoop env ctx queries written = none ↔
        ∃ q ∈ queries, FingerprintFails env ctx q := by
  intro queries
  induction queries with
  | nil => intro written; simp [etagLoop]
  | cons q qs ih =>
    intro written
    unfold etagLoop
    cases hq : ctx.Inventory.Query q with
    | none =>
      simp only [true_iff]
      exact ⟨q, List.mem_cons_self q qs, Or.inl hq⟩
    | some fnt =>
      simp only []
      cases ht : fnt.ModTime env with
      | none =>
        simp only [true_iff]
        exact ⟨q, List.mem_cons_self q qs, Or.inr ⟨fnt, hq, ht⟩⟩
      | some t =>
        simp only []
        rw [ih]
        constructor
        · rintro ⟨p, hp, hf⟩
          exact ⟨p, List.mem_cons_of_mem q hp, hf⟩
        · rintro ⟨p, hp, hf⟩
          rcases List.mem_cons.1 hp with rfl | hp
          · rcases hf with hf | ⟨fnt1, hf1, hf2⟩
            · rw [hq] at hf; exact absurd hf (by simp)
            · rw [hq] at hf1
              rw [← Option.some.inj hf1, ht] at hf2
              exact absurd hf2 (by simp)
          · exact ⟨p, hp, hf⟩

theorem Header_WriteHeader (w : ResponseWriter) (code : Nat) :
    (w.WriteHeader code).Header = w.Header := by
  unfold ResponseWriter.WriteHeader
  cases w.Status <;> rfl

theorem Body_WriteHeader (w : ResponseWriter) (code : Nat) :
    (w.WriteHeader code).Body = w.Body := by
  unfold ResponseWriter.WriteHeader
  cases w.Status <;> rfl

theorem Get_SetHeader (w : ResponseWriter) (k v k' : GoString) :
    (w.SetHeader k v).Header.Get k' = if k' = k then v else w.Header.Get k' :=
  Header_Get_Set w.Header k v k'

theorem Etag_of_times (env : Env) (w : ResponseWriter) (r : Request)
    (queries : List Query) (ctx : HandlerContext) (fonts : List Font) (times : List Time)
    (h1 : queries.map ctx.Inventory.Query = fonts.map some)
    (h2 : fonts.map (Font.ModTime env) = times.map some) :
    Etag env w r queries ctx
      = if r.Header.Get "If-None-Match".toList = specEntityTag env ctx r times then
          (NotModified
            ((w.SetHeader "ETag".toList (specEntityTag env ctx r times)).SetHeader
              "Cache-Control".toList ("max-age=".toList ++ FormatUint ctx.Flags.CcMaxAge)) r,
            true)
        else (w.SetHeader "ETag".toList (specEntityTag env ctx r times), false) := by
  have hloop := etagLoop_eq_some env ctx queries [] fonts times h1 h2
  rw [List.nil_append] at hloop
  have htag : (if (ctx.Flags.Gzip &&
        Contains (r.Header.Get "Accept-Encoding".toList) "gzip".toList) = true
      then env.Md5Hex (times.map Time.String).flatten ++ "+gzip".toList
      else env.Md5Hex (times.map Time.String).flatten) = specEntityTag env ctx r times := by
    unfold specEntityTag
    by_cases hc : (ctx.Flags.Gzip &&
        Contains (r.Header.Get "Accept-Encoding".toList) "gzip".toList) = true
    · rw [if_pos hc, if_pos (Bool.and_eq_true _ _ ▸ hc)]
    · rw [if_neg hc, if_neg (Bool.and_eq_true _ _ ▸ hc), List.append_nil]
  unfold Etag
  rw [hloop]
  simp only []
  rw [htag]

theorem Etag_of_fails (env : Env) (w : ResponseWriter) (r : Request)
    (queries : List Query) (ctx : HandlerContext)
    (h : ∃ q ∈ queries, FingerprintFails env ctx q) :
    Etag env w r queries ctx
      = if r.Header.Get "If-None-Match".toList ≠ [] then
          (w.SetHeader "ETag".toList (r.Header.Get "If-None-Match".toList), false)
        else (w, false) := by
  unfold Etag
  rw [(etagLoop_eq_none_iff env ctx queries []).2 h]

theorem fingerprint_cases (env : Env) (ctx : HandlerContext) (queries : List Query) :
    (∃ q ∈ queries, FingerprintFails env ctx q) ∨
      ∃ (fonts : List Font) (times : List Time),
        queries.map ctx.Inventory.Query = fonts.map some ∧
        fonts.map (Font.ModTime env) = times.map some := by
  cases h : etagLoop env ctx queries [] with
  | none => exact Or.inl ((etagLoop_eq_none_iff env ctx queries []).1 h)
  | some out =>
    obtain ⟨fonts, times, h1, h2, -⟩ := etagLoop_some_inv env ctx queries [] out h
    exact Or.inr ⟨fonts, times, h1, h2⟩

theorem fingerprint_exclusive (env : Env) (ctx : HandlerContext) (queries : List Query)
    (fonts : List Font) (times : List Time)
    (h1 : queries.map ctx.Inventory.Query = fonts.map some)
    (h2 : fonts.map (Font.ModTime env) = times.map some) :
    ¬ ∃ q ∈ queries, FingerprintFails env ctx q := by
  intro h
  have a := etagLoop_eq_some env ctx queries [] fonts times h1 h2
  rw [(etagLoop_eq_none_iff env ctx queries []).2 h] at a
  exact absurd a (by simp)

theorem times_unique (env : Env) (ctx : HandlerContext) (queries : List Query)
    (fonts fonts1 : List Font) (times times1 : List Time)
    (h1 : queries.map ctx.Inventory.Query = fonts.map some)
    (h2 : fonts.map (Font.ModTime env) = times.map some)
    (g1 : queries.map ctx.Inventory.Query = fonts1.map some)
    (g2 : fonts1.map (Font.ModTime env) = times1.map some) :
    times1 = times := by
  have inj : Function.Injective (some : Font → Option Font) := fun a b e => Option.some.inj e
  have inj2 : Function.Injective (some : Time → Option Time) := fun a b e => Option.some.inj e
  have e : fonts1 = fonts := List.map_injective_iff.2 inj (g1.symm.trans h1)
  subst e
  exact List.map_injective_iff.2 inj2 (g2.symm.trans h2)

theorem Etag_header_of_times (env : Env) (w : ResponseWriter) (r : Request)
    (queries : List Query) (ctx : HandlerContext) (fonts : List Font) (times : List Time)
    (h1 : queries.map ctx.Inventory.Query = fonts.map some)
    (h2 : fonts.map (Font.ModTime env) = times.map some) :
    (Etag env w r queries ctx).1.Header.Get "ETag".toList
      = specEntityTag env ctx r times := by
  rw [Etag_of_times env w r queries ctx fonts times h1 h2]
  split
  · show (NotModified _ r).Header.Get _ = _
    unfold NotModified
    rw [Header_WriteHeader, Get_SetHeader, if_neg (by decide), Get_SetHeader, if_pos rfl]
  · show (w.SetHeader _ _).Header.Get _ = _
    rw [Get_SetHeader, if_pos rfl]

/-! ## The claims on `Etag` -/

/-- C14: when fingerprinting succeeds (every query resolves to a font whose modification
time can be read), the entity tag `Etag` sets is the digest of the concatenation, in query
order, of the string forms of the modification times, followed by `+gzip` exactly when the
Gzip flag is set and `Accept-Encoding` contains `gzip`; so for the same records the
negotiated tag is the non-negotiated tag followed by `+gzip`. -/
theorem Etag_entity_tag (env : Env) (w : ResponseWriter) (r : Request)
    (queries : List Query) (ctx : HandlerContext) (fonts : List Font) (times : List Time)
    (h1 : queries.map ctx.Inventory.Query = fonts.map some)
    (h2 : fonts.map (Font.ModTime env) = times.map some) :
    (Etag env w r queries ctx).1.Header.Get "ETag".toList
        = env.Md5Hex (times.map Time.String).flatten ++
            (if ctx.Flags.Gzip = true ∧
                Contains (r.Header.Get "Accept-Encoding".toList) "gzip".toList = true
              then "+gzip".toList else [])
      ∧ ∀ (w1 : ResponseWriter) (r1 : Request) (ctx1 : HandlerContext),
          ctx1.Inventory = ctx.Inventory →
          (ctx.Flags.Gzip = true ∧
            Contains (r.Header.Get "Accept-Encoding".toList) "gzip".toList = true) →
          ¬ (ctx1.Flags.Gzip = true ∧
            Contains (r1.Header.Get "Accept-Encoding".toList) "gzip".toList = true) →
          (Etag env w r queries ctx).1.Header.Get "ETag".toList
            = (Etag env w1 r1 queries ctx1).1.Header.Get "ETag".toList ++ "+gzip".toList := by
  have key : ∀ (w0 : ResponseWriter) (r0 : Request) (ctx0 : HandlerContext),
      ctx0.Inventory = ctx.Inventory →
      (Etag env w0 r0 queries ctx0).1.Header.Get "ETag".toList
        = specEntityTag env ctx0 r0 times :=
    fun w0 r0 ctx0 hinv =>
      Etag_header_of_times env w0 r0 queries ctx0 fonts times (hinv ▸ h1) h2
  refine ⟨key w r ctx rfl, fun w1 r1 ctx1 hinv hneg hnot => ?_⟩
  rw [key w r ctx rfl, key w1 r1 ctx1 hinv]
  unfold specEntityTag
  rw [if_pos hneg, if_neg hnot, List.append_nil]

/-- Witness of C14 at the sample font: the tag is the digest of its one modification
time. -/
theorem Etag_entity_tag_witness :
    (Etag sampleEnv freshWriter (sampleRequest "GET".toList "Amaranth".toList)
        [⟨"Amaranth".toList, "woff400normal".toList⟩] sampleContext).1.Header.Get
        "ETag".toList
      = sampleEnv.Md5Hex "amaranth-regular.woff".toList :=
  (Etag_entity_tag sampleEnv freshWriter (sampleRequest "GET".toList "Amaranth".toList)
    [⟨"Amaranth".toList, "woff400normal".toList⟩] sampleContext [sampleFont]
    [⟨"amaranth-regular.woff".toList⟩] (by decide) (by decide)).1

/-- C15: `Etag` returns true if and only if every query resolves to a font whose
modification time can be read and the `If-None-Match` header of the request is equal,
as a string, to the freshly computed entity tag (with its `+gzip` suffix when that
applies). -/
theorem Etag_true_iff (env : Env) (w : ResponseWriter) (r : Request)
    (queries : List Query) (ctx : HandlerContext) :
    (Etag env w r queries ctx).2 = true ↔
      ∃ (fonts : List Font) (times : List Time),
        queries.map ctx.Inventory.Query = fonts.map some ∧
        fonts.map (Font.ModTime env) = times.map some ∧
        r.Header.Get "If-None-Match".toList = specEntityTag env ctx r times := by
  rcases fingerprint_cases env ctx queries with hf | ⟨fonts, times, h1, h2⟩
  · rw [Etag_of_fails env w r queries ctx hf]
    constructor
    · intro h
      split at h <;> exact absurd h (by simp)
    · rintro ⟨fonts, times, h1, h2, -⟩
      exact absurd hf (fingerprint_exclusive env ctx queries fonts times h1 h2)
  · rw [Etag_of_times env w r queries ctx fonts times h1 h2]
    constructor
    · intro h
      by_cases hm : r.Header.Get "If-None-Match".toList = specEntityTag env ctx r times
      · exact ⟨fonts, times, h1, h2, hm⟩
      · rw [if_neg hm] at h
        exact absurd h (by simp)
    · rintro ⟨fonts1, times1, g1, g2, hm⟩
      rw [times_unique env ctx queries fonts fonts1 times times1 h1 h2 g1 g2] at hm
      rw [if_pos hm]

/-- C16: whenever the entity tag matches, the response is 304, its `Cache-Control`
header is `max-age=` followed by the decimal `CcMaxAge`, its `ETag` header is the matched
tag, and no CSS is rendered: the body is untouched and, entity tags being on, `CssHandler`
returns this very response. -/
theorem Etag_match_reply (env : Env) (w : ResponseWriter) (r : Request)
    (queries : List Query) (ctx : HandlerContext) (hw : w.Status = none)
    (hmatch : (Etag env w r queries ctx).2 = true) :
    (Etag env w r queries ctx).1.StatusCode = 304
      ∧ (Etag env w r queries ctx).1.Header.Get "Cache-Control".toList
          = "max-age=".toList ++ FormatUint ctx.Flags.CcMaxAge
      ∧ (Etag env w r queries ctx).1.Header.Get "ETag".toList
          = r.Header.Get "If-None-Match".toList
      ∧ (∃ (fonts : List Font) (times : List Time),
          queries.map ctx.Inventory.Query = fonts.map some ∧
          fonts.map (Font.ModTime env) = times.map some ∧
          (Etag env w r queries ctx).1.Header.Get "ETag".toList
            = specEntityTag env ctx r times)
      ∧ (Etag env w r queries ctx).1.Body = w.Body
      ∧ (r.Method = "GET".toList → ctx.Whitelist.Contains r.Referer = true →
          r.FormValue "family".toList ≠ [] → requestFormat r ≠ NOF →
          queries = Queries (r.FormValue "family".toList) (requestFormat r) →
          queries ≠ [] → ctx.Flags.Etag = true →
          CssHandler env w r ctx = (Etag env w r queries ctx).1) := by
  rcases fingerprint_cases env ctx queries with hf | ⟨fonts, times, h1, h2⟩
  · rw [Etag_of_fails env w r queries ctx hf] at hmatch
    split at hmatch <;> exact absurd hmatch (by simp)
  · have hE := Etag_of_times env w r queries ctx fonts times h1 h2
    by_cases hm : r.Header.Get "If-None-Match".toList = specEntityTag env ctx r times
    swap
    · rw [hE, if_neg hm] at hmatch
      exact absurd hmatch (by simp)
    rw [if_pos hm] at hE
    have hget : (Etag env w r queries ctx).1.Header.Get "ETag".toList
        = specEntityTag env ctx r times :=
      Etag_header_of_times env w r queries ctx fonts times h1 h2
    refine ⟨(Etag_status env w r queries ctx hw).1 hmatch, ?_, ?_, ?_, ?_, ?_⟩
    · rw [hE]
      show (NotModified _ r).Header.Get _ = _
      unfold NotModified
      rw [Header_WriteHeader, Get_SetHeader, if_pos rfl]
    · rw [hget, hm]
    · exact ⟨fonts, times, h1, h2, hget⟩
    · rw [hE]
      show (NotModified _ r).Body = _
      unfold NotModified
      rw [Body_WriteHeader]
      rfl
    · intro g1 g2 g3 g4 g5 g6 g7
      subst g5
      rw [CssHandler_passed env w r ctx g1 g2 g3 g4 g6]
      simp only [g7, if_true]
      rw [if_pos hmatch]

/-- Witness of C16: the sample request that carries the tag of the sample font is
answered 304. -/
theorem Etag_match_reply_witness :
    (Etag sampleEnv freshWriter
        (conditionalRequest "Amaranth".toList "amaranth-regular.woff".toList)
        [⟨"Amaranth".toList, "woff400normal".toList⟩] sampleContext).2 = true ∧
      (Etag sampleEnv freshWriter
        (conditionalRequest "Amaranth".toList "amaranth-regular.woff".toList)
        [⟨"Amaranth".toList, "woff400normal".toList⟩] sampleContext).1.StatusCode = 304 :=
  ⟨by decide,
    (Etag_match_reply sampleEnv freshWriter
      (conditionalRequest "Amaranth".toList "amaranth-regular.woff".toList)
      [⟨"Amaranth".toList, "woff400normal".toList⟩] sampleContext rfl (by decide)).1⟩

/-- C17: when fingerprinting fails (some query has no font in the inventory, or the
modification time of some font cannot be read), `Etag` returns false; it sets the `ETag`
header of the response to the `If-None-Match` value of the request, unchanged, when that
value is non-empty, and leaves the response as it was otherwise. -/
theorem Etag_fingerprint_fails (env : Env) (w : ResponseWriter) (r : Request)
    (queries : List Query) (ctx : HandlerContext)
    (h : ∃ q ∈ queries, FingerprintFails env ctx q) :
    (Etag env w r queries ctx).2 = false
      ∧ (r.Header.Get "If-None-Match".toList ≠ [] →
          (Etag env w r queries ctx).1
              = w.SetHeader "ETag".toList (r.Header.Get "If-None-Match".toList) ∧
            (Etag env w r queries ctx).1.Header.Get "ETag".toList
              = r.Header.Get "If-None-Match".toList)
      ∧ (r.Header.Get "If-None-Match".toList = [] → (Etag env w r queries ctx).1 = w) := by
  rw [Etag_of_fails env w r queries ctx h]
  refine ⟨?_, fun hne => ?_, fun he => ?_⟩
  · split <;> rfl
  · rw [if_pos hne]
    exact ⟨rfl, by rw [Get_SetHeader, if_pos rfl]⟩
  · rw [if_neg (not_not.2 he)]

/-- Witness of C17: a request for a family the sample inventory does not hold gets no
short-circuit. -/
theorem Etag_fingerprint_fails_witness :
    (Etag sampleEnv freshWriter (conditionalRequest "Nonexistent".toList "abc".toList)
        [⟨"Nonexistent".toList, "woff400normal".toList⟩] sampleContext).2 = false :=
  (Etag_fingerprint_fails sampleEnv freshWriter
    (conditionalRequest "Nonexistent".toList "abc".toList)
    [⟨"Nonexistent".toList, "woff400normal".toList⟩] sampleContext
    ⟨⟨"Nonexistent".toList, "woff400normal".toList⟩, List.mem_singleton.2 rfl,
      Or.inl (by decide)⟩).1

/-- C18, as the claim states it, fails: two requests resolve the two sample fonts in
opposite orders, both fonts have the same modification time, and the entity tags are
equal, whatever the digest function. -/
theorem Etag_order_counterexample :
    (Queries "Amaranth:400normal,400italic".toList WOFF).map twoFontContext.Inventory.Query
        = [some sampleFont, some sampleItalic]
      ∧ (Queries "Amaranth:400italic,400normal".toList WOFF).map
          twoFontContext.Inventory.Query = [some sampleItalic, some sampleFont]
      ∧ ∀ md5 : GoString → GoString,
          (Etag (sameTimeEnv md5) freshWriter
              (sampleRequest "GET".toList "Amaranth:400normal,400italic".toList)
              (Queries "Amaranth:400normal,400italic".toList WOFF)
              twoFontContext).1.Header.Get "ETag".toList
            = (Etag (sameTimeEnv md5) freshWriter
              (sampleRequest "GET".toList "Amaranth:400italic,400normal".toList)
              (Queries "Amaranth:400italic,400normal".toList WOFF)
              twoFontContext).1.Header.Get "ETag".toList := by
  refine ⟨by decide, by decide, fun md5 => ?_⟩
  have t1 := Etag_header_of_times (sameTimeEnv md5) freshWriter
    (sampleRequest "GET".toList "Amaranth:400normal,400italic".toList)
    (Queries "Amaranth:400normal,400italic".toList WOFF) twoFontContext
    [sampleFont, sampleItalic]
    [⟨"2012-10-01 12:00:00 +0000 UTC".toList⟩, ⟨"2012-10-01 12:00:00 +0000 UTC".toList⟩]
    (by decide) rfl
  have t2 := Etag_header_of_times (sameTimeEnv md5) freshWriter
    (sampleRequest "GET".toList "Amaranth:400italic,400normal".toList)
    (Queries "Amaranth:400italic,400normal".toList WOFF) twoFontContext
    [sampleItalic, sampleFont]
    [⟨"2012-10-01 12:00:00 +0000 UTC".toList⟩, ⟨"2012-10-01 12:00:00 +0000 UTC".toList⟩]
    (by decide) rfl
  rw [t1, t2]
  rfl

/-- C18, amended: the entity tag is a function of the modification-time strings in
resolution order. For two requests with the same gzip negotiation on which fingerprinting
succeeds, the tags differ exactly when the digests of the two concatenations of
modification-time strings differ; a change of order that leaves the concatenation as it
was leaves the tag as it was. -/
theorem Etag_tags_differ_iff (env : Env) (ctx : HandlerContext) (w1 w2 : ResponseWriter)
    (r1 r2 : Request) (queries1 queries2 : List Query) (fonts1 fonts2 : List Font)
    (times1 times2 : List Time)
    (h1 : queries1.map ctx.Inventory.Query = fonts1.map some)
    (h2 : fonts1.map (Font.ModTime env) = times1.map some)
    (g1 : queries2.map ctx.Inventory.Query = fonts2.map some)
    (g2 : fonts2.map (Font.ModTime env) = times2.map some)
    (hneg : Contains (r1.Header.Get "Accept-Encoding".toList) "gzip".toList
      = Contains (r2.Header.Get "Accept-Encoding".toList) "gzip".toList) :
    ((Etag env w1 r1 queries1 ctx).1.Header.Get "ETag".toList
        ≠ (Etag env w2 r2 queries2 ctx).1.Header.Get "ETag".toList
      ↔ env.Md5Hex (times1.map Time.String).flatten
          ≠ env.Md5Hex (times2.map Time.String).flatten)
      ∧ ((times1.map Time.String).flatten = (times2.map Time.String).flatten →
          (Etag env w1 r1 queries1 ctx).1.Header.Get "ETag".toList
            = (Etag env w2 r2 queries2 ctx).1.Header.Get "ETag".toList) := by
  rw [Etag_header_of_times env w1 r1 queries1 ctx fonts1 times1 h1 h2,
    Etag_header_of_times env w2 r2 queries2 ctx fonts2 times2 g1 g2]
  unfold specEntityTag
  rw [hneg]
  refine ⟨?_, fun e => by rw [e]⟩
  rw [Ne, Ne, List.append_left_inj]

/-- Witness of the amended C18: with modification times that differ, and a digest that
tells their concatenations apart, the two orders of the sample fonts get different
tags. -/
theorem Etag_tags_differ_iff_witness :
    (Etag sampleEnv freshWriter
        (sampleRequest "GET".toList "Amaranth:400normal,400italic".toList)
        (Queries "Amaranth:400normal,400italic".toList WOFF)
        twoFontContext).1.Header.Get "ETag".toList
      ≠ (Etag sampleEnv freshWriter
        (sampleRequest "GET".toList "Amaranth:400italic,400normal".toList)
        (Queries "Amaranth:400italic,400normal".toList WOFF)
        twoFontContext).1.Header.Get "ETag".toList :=
  (Etag_tags_differ_iff sampleEnv twoFontContext freshWriter freshWriter
    (sampleRequest "GET".toList "Amaranth:400normal,400italic".toList)
    (sampleRequest "GET".toList "Amaranth:400italic,400normal".toList)
    (Queries "Amaranth:400normal,400italic".toList WOFF)
    (Queries "Amaranth:400italic,400normal".toList WOFF)
    [sampleFont, sampleItalic] [sampleItalic, sampleFont]
    [⟨"amaranth-regular.woff".toList⟩, ⟨"amaranth-italic.woff".toList⟩]
    [⟨"amaranth-italic.woff".toList⟩, ⟨"amaranth-regular.woff".toList⟩]
    (by decide) (by decide) (by decide) (by decide) (by decide)).1.2 (by decide)

/-! ## Lemmas on the gates and on the rendering part of `CssHandler` -/

theorem CssHandler_of_gates (env : Env) (w : ResponseWriter) (r : Request)
    (ctx : HandlerContext) (h : PassesGates r ctx) :
    CssHandler env w r ctx
      = if (if ctx.Flags.Etag then
              Etag env w r (Queries (r.FormValue "family".toList) (requestFormat r)) ctx
            else (w, false)).2 = true
        then (if ctx.Flags.Etag then
              Etag env w r (Queries (r.FormValue "family".toList) (requestFormat r)) ctx
            else (w, false)).1
        else renderReply env (if ctx.Flags.Etag then
              Etag env w r (Queries (r.FormValue "family".toList) (requestFormat r)) ctx
            else (w, false)).1 r ctx
              (Queries (r.FormValue "family".toList) (requestFormat r)) := by
  rw [CssHandler_passed env w r ctx h.1 h.2.1 h.2.2.1 h.2.2.2.1 h.2.2.2.2]
  rfl

theorem CssHandler_rejected (env : Env) (w : ResponseWriter) (r : Request)
    (ctx : HandlerContext) (h : ¬ PassesGates r ctx) :
    CssHandler env w r ctx
      = if r.Method ≠ "GET".toList then errorReply w 501
        else if ctx.Whitelist.Contains r.Referer = false then errorReply w 403
        else errorReply w 400 := by
  by_cases hm : r.Method = "GET".toList
  swap
  · rw [if_pos hm]
    unfold CssHandler
    rw [if_pos hm]
    rfl
  rw [if_neg (not_not.2 hm)]
  by_cases hwl : ctx.Whitelist.Contains r.Referer = true
  swap
  · rw [Bool.not_eq_true] at hwl
    rw [if_pos hwl]
    unfold CssHandler
    rw [if_neg (not_not.2 hm), hwl]
    rfl
  rw [if_neg (by rw [hwl]; decide)]
  by_cases hfam : r.FormValue "family".toList = []
  · unfold CssHandler
    rw [if_neg (not_not.2 hm), hwl]
    simp only [Bool.not_true, Bool.false_eq_true, if_false, hfam, if_true]
    rfl
  by_cases hfmt : requestFormat r = NOF
  · unfold requestFormat at hfmt
    unfold CssHandler
    rw [if_neg (not_not.2 hm), hwl]
    simp only [Bool.not_true, Bool.false_eq_true, if_false, hfam, hfmt, if_true]
    rfl
  by_cases hq : Queries (r.FormValue "family".toList) (requestFormat r) = []
  · unfold requestFormat at hfmt hq
    unfold CssHandler
    rw [if_neg (not_not.2 hm), hwl]
    simp only [Bool.not_true, Bool.false_eq_true, if_false, hfam, hfmt, hq,
      List.length_nil, if_true]
    rfl
  exact absurd ⟨hm, hwl, hfam, hfmt, hq⟩ h

theorem Body_errorReply (w : ResponseWriter) (code : Nat) :
    (errorReply w code).Body = w.Body := by
  unfold errorReply
  rw [Body_WriteHeader]
  rfl

theorem ContentType_errorReply (w : ResponseWriter) (code : Nat) :
    (errorReply w code).Header.Get "Content-Type".toList
      = "text/plain; charset=utf-8".toList := by
  unfold errorReply
  rw [Header_WriteHeader, Get_SetHeader, if_pos rfl]

theorem Etag_congr_header (env : Env) (w : ResponseWriter) (r r1 : Request)
    (queries : List Query) (ctx : HandlerContext) (h : r1.Header = r.Header) :
    Etag env w r1 queries ctx = Etag env w r queries ctx := by
  unfold Etag NotModified
  rw [h]

theorem renderReply_congr_request (env : Env) (w : ResponseWriter) (r r1 : Request)
    (ctx : HandlerContext) (queries : List Query) :
    renderReply env w r1 ctx queries = renderReply env w r ctx queries := rfl

theorem EqualFold_eot (s : GoString) : EqualFold s "eot".toList ↔ ToLower s = "eot".toList := by
  unfold EqualFold
  have e : ToLower "eot".toList = "eot".toList := by decide
  rw [e]

theorem EqualFold_woff (s : GoString) :
    EqualFold s "woff".toList ↔ ToLower s = "woff".toList := by
  unfold EqualFold
  have e : ToLower "woff".toList = "woff".toList := by decide
  rw [e]

/-! ## The claims on the gates of `CssHandler` -/

/-- C11: for every GET request with a whitelisted referrer, if the family parameter is
missing or empty, or if `Queries` yields no key for the family and the format of the
request, `CssHandler` responds 400. -/
theorem CssHandler_no_family_or_no_key (env : Env) (w : ResponseWriter) (r : Request)
    (ctx : HandlerContext) (hw : w.Status = none) (hm : r.Method = "GET".toList)
    (hwl : ctx.Whitelist.Contains r.Referer = true)
    (h : r.FormValue "family".toList = [] ∨
      Queries (r.FormValue "family".toList) (requestFormat r) = []) :
    (CssHandler env w r ctx).StatusCode = 400 := by
  have hg : ¬ PassesGates r ctx := by
    rintro ⟨-, -, h1, -, h2⟩
    rcases h with h | h
    · exact h1 h
    · exact h2 h
  rw [CssHandler_rejected env w r ctx hg, if_neg (not_not.2 hm),
    if_neg (by rw [hwl]; decide)]
  exact StatusCode_errorReply w 400 hw

/-- Witness of C11 at the family string `|Amaranth`, which parses to no key. -/
theorem CssHandler_no_family_or_no_key_witness :
    Queries ((sampleRequest "GET".toList "|Amaranth".toList).FormValue "family".toList)
        (requestFormat (sampleRequest "GET".toList "|Amaranth".toList)) = [] ∧
      (CssHandler sampleEnv freshWriter (sampleRequest "GET".toList "|Amaranth".toList)
        sampleContext).StatusCode = 400 :=
  ⟨by decide,
    CssHandler_no_family_or_no_key sampleEnv freshWriter
      (sampleRequest "GET".toList "|Amaranth".toList) sampleContext rfl (by decide)
      (by decide) (Or.inr (by decide))⟩

/-- C12: for every GET request with a whitelisted referrer (and a non-empty family, or
an empty one), an absent or empty format parameter is handled exactly as the format `woff` (the handler
returns what it returns for a request that differs in the format value only), and a
format string that is neither `eot` nor `woff`, case-insensitively, yields 400. -/
theorem CssHandler_format_parameter (env : Env) (w : ResponseWriter) (r : Request)
    (ctx : HandlerContext) (hw : w.Status = none) (hm : r.Method = "GET".toList)
    (hwl : ctx.Whitelist.Contains r.Referer = true) :
    (r.FormValue "format".toList = [] →
        ∀ r1 : Request, r1.Method = r.Method → r1.Header = r.Header →
          r1.FormValue "family".toList = r.FormValue "family".toList →
          r1.FormValue "format".toList = "woff".toList →
          CssHandler env w r ctx = CssHandler env w r1 ctx)
      ∧ (r.FormValue "format".toList ≠ [] →
          ¬ EqualFold (r.FormValue "format".toList) "eot".toList →
          ¬ EqualFold (r.FormValue "format".toList) "woff".toList →
          (CssHandler env w r ctx).StatusCode = 400) := by
  constructor
  · intro hempty r1 g1 g2 g3 g4
    have hfmt : requestFormat r1 = requestFormat r := by
      unfold requestFormat
      rw [g4, hempty]
      rfl
    have href : r1.Referer = r.Referer := by
      unfold Request.Referer
      rw [g2]
    have hgates : PassesGates r1 ctx ↔ PassesGates r ctx := by
      unfold PassesGates
      rw [g1, href, g3, hfmt]
    by_cases hg : PassesGates r ctx
    · rw [CssHandler_of_gates env w r ctx hg, CssHandler_of_gates env w r1 ctx (hgates.2 hg),
        g3, hfmt, Etag_congr_header env w r r1 _ ctx g2]
      rfl
    · rw [CssHandler_rejected env w r ctx hg,
        CssHandler_rejected env w r1 ctx (fun h => hg (hgates.1 h)), g1, href]
  · intro hne h1 h2
    have hnof : requestFormat r = NOF := by
      rw [EqualFold_eot] at h1
      rw [EqualFold_woff] at h2
      unfold requestFormat Format.FromString
      rw [if_neg hne, if_neg h1, if_neg h2]
    have hg : ¬ PassesGates r ctx := fun h => h.2.2.2.1 hnof
    rw [CssHandler_rejected env w r ctx hg, if_neg (not_not.2 hm),
      if_neg (by rw [hwl]; decide)]
    exact StatusCode_errorReply w 400 hw

/-- Witness of C12: the sample request without a format is answered as the one with
`format=woff`, and the one with `format=nonexistent` is answered 400. -/
theorem CssHandler_format_parameter_witness :
    CssHandler sampleEnv freshWriter (sampleRequest "GET".toList "Amaranth".toList)
          sampleContext
        = CssHandler sampleEnv freshWriter
            ⟨"GET".toList, [],
              [("family".toList, "Amaranth".toList), ("format".toList, "woff".toList)]⟩
            sampleContext
      ∧ (CssHandler sampleEnv freshWriter
            ⟨"GET".toList, [],
              [("family".toList, "Amaranth".toList),
                ("format".toList, "nonexistent".toList)]⟩
            sampleContext).StatusCode = 400 :=
  ⟨(CssHandler_format_parameter sampleEnv freshWriter
      (sampleRequest "GET".toList "Amaranth".toList) sampleContext rfl (by decide)
      (by decide)).1 (by decide) _ rfl rfl (by decide) (by decide),
    (CssHandler_format_parameter sampleEnv freshWriter
      ⟨"GET".toList, [],
        [("family".toList, "Amaranth".toList), ("format".toList, "nonexistent".toList)]⟩
      sampleContext rfl (by decide) (by decide)).2 (by decide) (by decide) (by decide)⟩

/-! ## Lemmas on the resolution loop -/

theorem resolveLoop_first_missing (env : Env) (ctx : HandlerContext) (q : Query)
    (post : List Query) (hq : ctx.Inventory.Query q = none) :
    ∀ (pre : List Query) (templateData : List FontFace) (templateName : GoString),
      (∀ p ∈ pre, ∃ fnt, ctx.Inventory.Query p = some fnt) →
      ((∀ p ∈ pre, ∀ fnt, ctx.Inventory.Query p = some fnt →
            (FontFace.FromFont env FontFace.zero fnt).isSome = true) →
          resolveLoop env ctx (pre ++ q :: post) templateData templateName = .missing)
        ∧ (¬ (∀ p ∈ pre, ∀ fnt, ctx.Inventory.Query p = some fnt →
            (FontFace.FromFont env FontFace.zero fnt).isSome = true) →
          resolveLoop env ctx (pre ++ q :: post) templateData templateName = .failed) := by
  intro pre
  induction pre with
  | nil =>
    intro d n _
    constructor
    · intro _
      rw [List.nil_append]
      unfold resolveLoop
      rw [hq]
    · intro h
      exact absurd (fun p hp => absurd hp (List.not_mem_nil p)) h
  | cons p ps ih =>
    intro d n hres
    obtain ⟨fnt, hf⟩ := hres p (List.mem_cons_self p ps)
    have hres1 : ∀ p1 ∈ ps, ∃ fnt, ctx.Inventory.Query p1 = some fnt :=
      fun p1 hp1 => hres p1 (List.mem_cons_of_mem p hp1)
    rw [List.cons_append]
    unfold resolveLoop
    rw [hf]
    simp only []
    cases hc : FontFace.FromFont env FontFace.zero fnt with
    | none =>
      simp only []
      constructor
      · intro hall
        have := hall p (List.mem_cons_self p ps) fnt hf
        rw [hc] at this
        exact absurd this (by simp)
      · intro _
        trivial
    | some ff =>
      simp only []
      obtain ⟨ih1, ih2⟩ := ih (d ++ [ff]) (fnt.Format.String ++ ".css.tmpl".toList) hres1
      constructor
      · intro hall
        exact ih1 (fun p1 hp1 => hall p1 (List.mem_cons_of_mem p hp1))
      · intro hnot
        apply ih2
        intro hall
        apply hnot
        intro p1 hp1 fnt1 hf1
        rcases List.mem_cons.1 hp1 with rfl | hp1
        · rw [hf] at hf1
          rw [← Option.some.inj hf1, hc]
          rfl
        · exact hall p1 hp1 fnt1 hf1

theorem resolveLoop_failed_inv (env : Env) (ctx : HandlerContext) :
    ∀ (queries : List Query) (templateData : List FontFace) (templateName : GoString),
      resolveLoop env ctx queries templateData templateName = .failed →
      ∃ q ∈ queries, ∃ fnt, ctx.Inventory.Query q = some fnt ∧
        FontFace.FromFont env FontFace.zero fnt = none := by
  intro queries
  induction queries with
  | nil => intro d n h; simp [resolveLoop] at h
  | cons q qs ih =>
    intro d n h
    unfold resolveLoop at h
    cases hq : ctx.Inventory.Query q with
    | none => rw [hq] at h; simp at h
    | some fnt =>
      rw [hq] at h
      simp only [] at h
      cases hc : FontFace.FromFont env FontFace.zero fnt with
      | none => exact ⟨q, List.mem_cons_self q qs, fnt, hq, hc⟩
      | some ff =>
        rw [hc] at h
        simp only [] at h
        obtain ⟨p, hp, hrest⟩ := ih _ _ h
        exact ⟨p, List.mem_cons_of_mem q hp, hrest⟩

theorem resolveLoop_resolved_inv (env : Env) (ctx : HandlerContext) :
    ∀ (queries : List Query) (templateData data : List FontFace)
      (templateName name : GoString),
      resolveLoop env ctx queries templateData templateName = .resolved data name →
      ∃ (fonts : List Font) (faces : List FontFace),
        queries.map ctx.Inventory.Query = fonts.map some ∧
        fonts.map (FontFace.FromFont env FontFace.zero) = faces.map some ∧
        data = templateData ++ faces ∧
        name = (match fonts.getLast? with
          | some f => f.Format.String ++ ".css.tmpl".toList
          | none => templateName) := by
  intro queries
  induction queries with
  | nil =>
    intro d data n name h
    simp only [resolveLoop, Resolution.resolved.injEq] at h
    exact ⟨[], [], rfl, rfl, by simp [h.1], by simp [h.2]⟩
  | cons q qs ih =>
    intro d data n name h
    unfold resolveLoop at h
    cases hq : ctx.Inventory.Query q with
    | none => rw [hq] at h; simp at h
    | some fnt =>
      rw [hq] at h
      simp only [] at h
      cases hc : FontFace.FromFont env FontFace.zero fnt with
      | none => rw [hc] at h; simp at h
      | some ff =>
        rw [hc] at h
        simp only [] at h
        obtain ⟨fonts, faces, h1, h2, h3, h4⟩ := ih _ _ _ _ h
        refine ⟨fnt :: fonts, ff :: faces, ?_, ?_, ?_, ?_⟩
        · simp [hq, h1]
        · simp [hc, h2]
        · rw [h3]; simp
        · rw [h4]
          cases fonts with
          | nil => rfl
          | cons f fs =>
            rw [List.getLast?_cons_cons]
            cases hl : (f :: fs).getLast? with
            | none => exact absurd (List.getLast?_eq_none_iff.1 hl) (by simp)
            | some g => rfl

theorem resolveLoop_congr (env : Env) (ctx ctx1 : HandlerContext)
    (h : ctx1.Inventory = ctx.Inventory) :
    ∀ (queries : List Query) (templateData : List FontFace) (templateName : GoString),
      resolveLoop env ctx1 queries templateData templateName
        = resolveLoop env ctx queries templateData templateName := by
  intro queries
  induction queries with
  | nil => intro d n; rfl
  | cons q qs ih =>
    intro d n
    unfold resolveLoop
    rw [h]
    cases ctx.Inventory.Query q with
    | none => rfl
    | some fnt =>
      simp only []
      cases FontFace.FromFont env FontFace.zero fnt with
      | none => rfl
      | some ff => exact ih _ _

theorem renderReply_of_missing (env : Env) (w : ResponseWriter) (r : Request)
    (ctx : HandlerContext) (queries : List Query)
    (h : resolveLoop env ctx queries [] [] = .missing) :
    renderReply env w r ctx queries = errorReply w 400 := by
  unfold renderReply
  rw [h]
  rfl

theorem renderReply_of_failed (env : Env) (w : ResponseWriter) (r : Request)
    (ctx : HandlerContext) (queries : List Query)
    (h : resolveLoop env ctx queries [] [] = .failed) :
    renderReply env w r ctx queries = errorReply w 500 := by
  unfold renderReply
  rw [h]
  rfl

theorem renderReply_of_resolved (env : Env) (w : ResponseWriter) (r : Request)
    (ctx : HandlerContext) (queries : List Query) (data : List FontFace) (name : GoString)
    (h : resolveLoop env ctx queries [] [] = .resolved data name) :
    renderReply env w r ctx queries
      = match ctx.Templates.ExecuteTemplate name data with
        | none => errorReply w 500
        | some buf =>
          ((w.SetHeader "Cache-Control".toList
              ("max-age=".toList ++ FormatUint ctx.Flags.CcMaxAge)).SetHeader
            "Content-Type".toList "text/css; charset=utf-8".toList).Copy buf := by
  unfold renderReply
  rw [h]
  rfl

theorem Status_errorReply (w : ResponseWriter) (code : Nat) :
    (errorReply w code).Status = some (w.Status.getD code) := by
  unfold errorReply ResponseWriter.WriteHeader
  rw [Status_SetHeader]
  cases h : w.Status <;> simp [ResponseWriter.SetHeader, h]

theorem Status_Copy (w : ResponseWriter) (buf : GoString) :
    (w.Copy buf).Status = if buf = [] then w.Status else some (w.Status.getD 200) := by
  unfold ResponseWriter.Copy
  split
  · rfl
  · unfold ResponseWriter.Write ResponseWriter.WriteHeader
    cases h : w.Status <;> simp [h]

theorem Body_Copy (w : ResponseWriter) (buf : GoString) :
    (w.Copy buf).Body = w.Body ++ buf := by
  unfold ResponseWriter.Copy
  split
  · rename_i h
    rw [h, List.append_nil]
  · unfold ResponseWriter.Write
    simp only []
    rw [Body_WriteHeader]

theorem Header_Copy (w : ResponseWriter) (buf : GoString) :
    (w.Copy buf).Header = w.Header := by
  unfold ResponseWriter.Copy
  split
  · rfl
  · unfold ResponseWriter.Write
    simp only []
    rw [Header_WriteHeader]

theorem renderReply_status_body (env : Env) (w1 w2 : ResponseWriter) (r : Request)
    (ctx ctx1 : HandlerContext) (queries : List Query) (hs : w1.Status = w2.Status)
    (hb : w1.Body = w2.Body) (hinv : ctx1.Inventory = ctx.Inventory)
    (htm : ctx1.Templates = ctx.Templates) :
    (renderReply env w1 r ctx queries).Status = (renderReply env w2 r ctx1 queries).Status
      ∧ (renderReply env w1 r ctx queries).Body
          = (renderReply env w2 r ctx1 queries).Body := by
  have hloop := resolveLoop_congr env ctx ctx1 hinv queries [] []
  cases h : resolveLoop env ctx queries [] [] with
  | missing =>
    rw [renderReply_of_missing env w1 r ctx queries h,
      renderReply_of_missing env w2 r ctx1 queries (hloop.trans h), Status_errorReply,
      Status_errorReply, Body_errorReply, Body_errorReply, hs, hb]
    exact ⟨rfl, rfl⟩
  | failed =>
    rw [renderReply_of_failed env w1 r ctx queries h,
      renderReply_of_failed env w2 r ctx1 queries (hloop.trans h), Status_errorReply,
      Status_errorReply, Body_errorReply, Body_errorReply, hs, hb]
    exact ⟨rfl, rfl⟩
  | resolved data name =>
    rw [renderReply_of_resolved env w1 r ctx queries data name h,
      renderReply_of_resolved env w2 r ctx1 queries data name (hloop.trans h), htm]
    cases ctx.Templates.ExecuteTemplate name data with
    | none =>
      simp only []
      rw [Status_errorReply, Status_errorReply, Body_errorReply, Body_errorReply, hs, hb]
      exact ⟨rfl, rfl⟩
    | some buf =>
      simp only []
      rw [Status_Copy, Status_Copy, Body_Copy, Body_Copy, Status_SetHeader,
        Status_SetHeader, Status_SetHeader, Status_SetHeader, hs]
      exact ⟨rfl, by
        show w1.Body ++ buf = w2.Body ++ buf
        rw [hb]⟩

theorem checked_of_fails (env : Env) (w : ResponseWriter) (r : Request)
    (queries : List Query) (ctx : HandlerContext)
    (h : ∃ q ∈ queries, FingerprintFails env ctx q) :
    (if ctx.Flags.Etag then Etag env w r queries ctx else (w, false)).2 = false
      ∧ (if ctx.Flags.Etag then Etag env w r queries ctx else (w, false)).1.Status
          = w.Status
      ∧ (if ctx.Flags.Etag then Etag env w r queries ctx else (w, false)).1.Body
          = w.Body := by
  cases ctx.Flags.Etag with
  | false => exact ⟨rfl, rfl, rfl⟩
  | true =>
    simp only [if_true]
    rw [Etag_of_fails env w r queries ctx h]
    split <;> exact ⟨rfl, rfl, rfl⟩

theorem Body_Etag (env : Env) (w : ResponseWriter) (r : Request) (queries : List Query)
    (ctx : HandlerContext) : (Etag env w r queries ctx).1.Body = w.Body := by
  rcases fingerprint_cases env ctx queries with hf | ⟨fonts, times, h1, h2⟩
  · rw [Etag_of_fails env w r queries ctx hf]
    split <;> rfl
  · rw [Etag_of_times env w r queries ctx fonts times h1 h2]
    split
    · show (NotModified _ r).Body = _
      unfold NotModified
      rw [Body_WriteHeader]
      rfl
    · rfl

/-! ## The claims on resolution and rendering -/

/-- C13, as the claim states it, fails: the request for `Amaranth|Nonexistent` passes the
gates and its second key has no font, but the file of the first font cannot be read, so
the handler answers 500, not 400. -/
theorem CssHandler_conversion_failure_counterexample :
    PassesGates (sampleRequest "GET".toList "Amaranth|Nonexistent".toList) sampleContext
      ∧ (∃ q ∈ Queries "Amaranth|Nonexistent".toList WOFF,
          sampleContext.Inventory.Query q = none)
      ∧ (CssHandler unreadableEnv freshWriter
          (sampleRequest "GET".toList "Amaranth|Nonexistent".toList)
          sampleContext).StatusCode = 500 :=
  ⟨by decide, ⟨⟨"Nonexistent".toList, "woff400normal".toList⟩, by decide, by decide⟩,
    by decide⟩

/-- C13, amended: resolution is fail-closed. For every request that passes the gates and
has a parsed key with no font in the inventory, no CSS is served: the status is 400 or
500, the body is untouched and the content type is `text/plain`. The status is 400 when
every key that resolves converts to a font face; precisely, with `q` the first key
without a font, it is 400 exactly when every key ahead of `q` converts, and 500
otherwise. -/
theorem CssHandler_missing_font (env : Env) (w : ResponseWriter) (r : Request)
    (ctx : HandlerContext) (hw : w.Status = none) (hg : PassesGates r ctx)
    (hmiss : ∃ q ∈ Queries (r.FormValue "family".toList) (requestFormat r),
      ctx.Inventory.Query q = none) :
    ((CssHandler env w r ctx).StatusCode = 400 ∨ (CssHandler env w r ctx).StatusCode = 500)
      ∧ (CssHandler env w r ctx).Body = w.Body
      ∧ (CssHandler env w r ctx).Header.Get "Content-Type".toList
          = "text/plain; charset=utf-8".toList
      ∧ ((∀ q ∈ Queries (r.FormValue "family".toList) (requestFormat r),
            ∀ fnt, ctx.Inventory.Query q = some fnt →
              (FontFace.FromFont env FontFace.zero fnt).isSome = true) →
          (CssHandler env w r ctx).StatusCode = 400)
      ∧ (∀ (pre post : List Query) (q : Query),
          Queries (r.FormValue "family".toList) (requestFormat r) = pre ++ q :: post →
          ctx.Inventory.Query q = none →
          (∀ p ∈ pre, ∃ fnt, ctx.Inventory.Query p = some fnt) →
          ((CssHandler env w r ctx).StatusCode = 400 ↔
            ∀ p ∈ pre, ∀ fnt, ctx.Inventory.Query p = some fnt →
              (FontFace.FromFont env FontFace.zero fnt).isSome = true)) := by
  generalize hqs : Queries (r.FormValue "family".toList) (requestFormat r) = queries
    at hmiss
  have hfail : ∃ q ∈ queries, FingerprintFails env ctx q := by
    obtain ⟨q, hq, hn⟩ := hmiss
    exact ⟨q, hq, Or.inl hn⟩
  obtain ⟨c2, cs, cb⟩ := checked_of_fails env w r queries ctx hfail
  have hform : CssHandler env w r ctx
      = renderReply env (if ctx.Flags.Etag then Etag env w r queries ctx
          else (w, false)).1 r ctx queries := by
    rw [CssHandler_of_gates env w r ctx hg, hqs, if_neg (by rw [c2]; decide)]
  generalize (if ctx.Flags.Etag then Etag env w r queries ctx else (w, false)) = checked
    at c2 cs cb hform
  have hw1 : checked.1.Status = none := cs.trans hw
  have hnotres : ∀ d n, resolveLoop env ctx queries [] [] ≠ .resolved d n := by
    intro d n h
    obtain ⟨q, hq, hn⟩ := hmiss
    obtain ⟨fnt, hf, -⟩ := (resolveLoop_resolved env ctx queries [] []).1 ⟨d, n, h⟩ q hq
    rw [hn] at hf
    exact absurd hf (by simp)
  have hcases : (resolveLoop env ctx queries [] [] = .missing ∧
        CssHandler env w r ctx = errorReply checked.1 400) ∨
      (resolveLoop env ctx queries [] [] = .failed ∧
        CssHandler env w r ctx = errorReply checked.1 500) := by
    cases h : resolveLoop env ctx queries [] [] with
    | missing => exact Or.inl ⟨rfl, by rw [hform, renderReply_of_missing _ _ _ _ _ h]⟩
    | failed => exact Or.inr ⟨rfl, by rw [hform, renderReply_of_failed _ _ _ _ _ h]⟩
    | resolved d n => exact absurd h (hnotres d n)
  refine ⟨?_, ?_, ?_, ?_, ?_⟩
  · rcases hcases with ⟨-, e⟩ | ⟨-, e⟩
    · exact Or.inl (by rw [e]; exact StatusCode_errorReply _ 400 hw1)
    · exact Or.inr (by rw [e]; exact StatusCode_errorReply _ 500 hw1)
  · rcases hcases with ⟨-, e⟩ | ⟨-, e⟩ <;> rw [e, Body_errorReply, cb]
  · rcases hcases with ⟨-, e⟩ | ⟨-, e⟩ <;> rw [e, ContentType_errorReply]
  · intro hall
    rcases hcases with ⟨-, e⟩ | ⟨hfl, -⟩
    · rw [e]; exact StatusCode_errorReply _ 400 hw1
    · obtain ⟨q, hq, fnt, hf, hc⟩ := resolveLoop_failed_inv env ctx queries [] [] hfl
      have := hall q hq fnt hf
      rw [hc] at this
      exact absurd this (by simp)
  · intro pre post q hsplit hq hpre
    obtain ⟨m1, m2⟩ := resolveLoop_first_missing env ctx q post hq pre [] [] hpre
    rw [← hsplit] at m1 m2
    constructor
    · intro h400
      by_contra hnot
      rcases hcases with ⟨hms, -⟩ | ⟨-, e⟩
      · rw [m2 hnot] at hms
        exact Resolution.noConfusion hms
      · rw [e, StatusCode_errorReply _ 500 hw1] at h400
        exact absurd h400 (by decide)
    · intro hall
      rcases hcases with ⟨-, e⟩ | ⟨hfl, -⟩
      · rw [e]; exact StatusCode_errorReply _ 400 hw1
      · rw [m1 hall] at hfl
        exact Resolution.noConfusion hfl

/-- Witness of the amended C13: with readable files the request for
`Amaranth|Nonexistent` is answered 400. -/
theorem CssHandler_missing_font_witness :
    (CssHandler sampleEnv freshWriter
        (sampleRequest "GET".toList "Amaranth|Nonexistent".toList)
        sampleContext).StatusCode = 400 :=
  (CssHandler_missing_font sampleEnv freshWriter
    (sampleRequest "GET".toList "Amaranth|Nonexistent".toList) sampleContext rfl (by decide)
    ⟨⟨"Nonexistent".toList, "woff400normal".toList⟩, by decide, by decide⟩).2.2.2.1
    (by decide)

/-- C19: a fingerprint failure never aborts the request. For every request with entity
tags enabled on which fingerprinting fails, the final status and body of `CssHandler` are
those it gives with entity tags disabled; and when the request passes the gates, the
handler goes on to resolution and rendering from the response `Etag` has left. -/
theorem CssHandler_fingerprint_failure (env : Env) (w : ResponseWriter) (r : Request)
    (ctx : HandlerContext) (hflag : ctx.Flags.Etag = true)
    (hfail : ∃ q ∈ Queries (r.FormValue "family".toList) (requestFormat r),
      FingerprintFails env ctx q) :
    (CssHandler env w r ctx).StatusCode = (CssHandler env w r (withoutEtag ctx)).StatusCode
      ∧ (CssHandler env w r ctx).Body = (CssHandler env w r (withoutEtag ctx)).Body
      ∧ (PassesGates r ctx →
          CssHandler env w r ctx
            = renderReply env
                (Etag env w r (Queries (r.FormValue "family".toList) (requestFormat r))
                  ctx).1 r ctx
                (Queries (r.FormValue "family".toList) (requestFormat r))) := by
  by_cases hg : PassesGates r ctx
  · have hg1 : PassesGates r (withoutEtag ctx) := hg
    obtain ⟨c2, cs, cb⟩ := checked_of_fails env w r _ ctx hfail
    have e1 : CssHandler env w r ctx
        = renderReply env
            (Etag env w r (Queries (r.FormValue "family".toList) (requestFormat r)) ctx).1
            r ctx (Queries (r.FormValue "family".toList) (requestFormat r)) := by
      rw [CssHandler_of_gates env w r ctx hg, if_neg (by rw [c2]; decide)]
      simp only [hflag, if_true]
    have e2 : CssHandler env w r (withoutEtag ctx)
        = renderReply env w r (withoutEtag ctx)
            (Queries (r.FormValue "family".toList) (requestFormat r)) := by
      rw [CssHandler_of_gates env w r (withoutEtag ctx) hg1]
      rfl
    simp only [hflag, if_true] at cs cb
    obtain ⟨k1, k2⟩ := renderReply_status_body env
      (Etag env w r (Queries (r.FormValue "family".toList) (requestFormat r)) ctx).1 w r
      ctx (withoutEtag ctx) (Queries (r.FormValue "family".toList) (requestFormat r))
      cs cb rfl rfl
    refine ⟨?_, ?_, fun _ => e1⟩
    · unfold ResponseWriter.StatusCode
      rw [e1, e2, k1]
    · rw [e1, e2, k2]
  · have hg1 : ¬ PassesGates r (withoutEtag ctx) := hg
    have e : CssHandler env w r (withoutEtag ctx) = CssHandler env w r ctx := by
      rw [CssHandler_rejected env w r ctx hg,
        CssHandler_rejected env w r (withoutEtag ctx) hg1]
      rfl
    rw [e]
    exact ⟨rfl, rfl, fun h => absurd h hg⟩

/-- Witness of C19: no modification time can be read, the sample request is served all
the same, with the status it has when entity tags are off. -/
theorem CssHandler_fingerprint_failure_witness :
    (CssHandler noStatEnv freshWriter (sampleRequest "GET".toList "Amaranth".toList)
        sampleContext).StatusCode = 200
      ∧ (CssHandler noStatEnv freshWriter (sampleRequest "GET".toList "Amaranth".toList)
          sampleContext).StatusCode
        = (CssHandler noStatEnv freshWriter (sampleRequest "GET".toList "Amaranth".toList)
          (withoutEtag sampleContext)).StatusCode :=
  ⟨by decide,
    (CssHandler_fingerprint_failure noStatEnv freshWriter
      (sampleRequest "GET".toList "Amaranth".toList) sampleContext rfl
      ⟨⟨"Amaranth".toList, "woff400normal".toList⟩, by decide,
        Or.inr ⟨sampleFont, by decide, rfl⟩⟩).1⟩

/-- C20: every 200 response of `CssHandler` carries the header `Cache-Control` equal to
`max-age=` followed by the decimal `CcMaxAge` and the header `Content-Type` equal to
`text/css; charset=utf-8`, and its body is the rendering, by the template named after the
format of the last font, of the font faces of the fonts the keys resolve to, in query
order. -/
theorem CssHandler_ok_reply (env : Env) (w : ResponseWriter) (r : Request)
    (ctx : HandlerContext) (hw : w.Status = none)
    (h200 : (CssHandler env w r ctx).StatusCode = 200) :
    (CssHandler env w r ctx).Header.Get "Cache-Control".toList
        = "max-age=".toList ++ FormatUint ctx.Flags.CcMaxAge
      ∧ (CssHandler env w r ctx).Header.Get "Content-Type".toList
          = "text/css; charset=utf-8".toList
      ∧ ∃ (fonts : List Font) (faces : List FontFace) (last : Font) (buf : GoString),
          (Queries (r.FormValue "family".toList) (requestFormat r)).map ctx.Inventory.Query
            = fonts.map some ∧
          fonts.map (FontFace.FromFont env FontFace.zero) = faces.map some ∧
          fonts.getLast? = some last ∧
          ctx.Templates.ExecuteTemplate (last.Format.String ++ ".css.tmpl".toList) faces
            = some buf ∧
          (CssHandler env w r ctx).Body = w.Body ++ buf := by
  by_cases hg : PassesGates r ctx
  swap
  · rw [CssHandler_rejected env w r ctx hg] at h200
    split at h200
    · rw [StatusCode_errorReply w 501 hw] at h200
      exact absurd h200 (by decide)
    · split at h200
      · rw [StatusCode_errorReply w 403 hw] at h200
        exact absurd h200 (by decide)
      · rw [StatusCode_errorReply w 400 hw] at h200
        exact absurd h200 (by decide)
  have hform := CssHandler_of_gates env w r ctx hg
  have hqne := hg.2.2.2.2
  generalize Queries (r.FormValue "family".toList) (requestFormat r) = queries
    at hform hqne ⊢
  have hchecked :
      ((if ctx.Flags.Etag then Etag env w r queries ctx else (w, false)).2 = true →
          (if ctx.Flags.Etag then Etag env w r queries ctx else (w, false)).1.StatusCode
            = 304)
        ∧ ((if ctx.Flags.Etag then Etag env w r queries ctx else (w, false)).2 = false →
          (if ctx.Flags.Etag then Etag env w r queries ctx else (w, false)).1.Status
            = none)
        ∧ (if ctx.Flags.Etag then Etag env w r queries ctx else (w, false)).1.Body
            = w.Body := by
    cases ctx.Flags.Etag with
    | false => exact ⟨fun h => by simp at h, fun _ => hw, rfl⟩
    | true =>
      simp only [if_true]
      exact ⟨(Etag_status env w r queries ctx hw).1, (Etag_status env w r queries ctx hw).2,
        Body_Etag env w r queries ctx⟩
  generalize (if ctx.Flags.Etag then Etag env w r queries ctx else (w, false)) = checked
    at hform hchecked
  obtain ⟨c304, cnone, cbody⟩ := hchecked
  by_cases hmatch : checked.2 = true
  · rw [hform, if_pos hmatch, c304 hmatch] at h200
    exact absurd h200 (by decide)
  rw [if_neg hmatch] at hform
  have hw1 : checked.1.Status = none := cnone (by simpa using hmatch)
  cases hloop : resolveLoop env ctx queries [] [] with
  | missing =>
    rw [hform, renderReply_of_missing _ _ _ _ _ hloop, StatusCode_errorReply _ 400 hw1]
      at h200
    exact absurd h200 (by decide)
  | failed =>
    rw [hform, renderReply_of_failed _ _ _ _ _ hloop, StatusCode_errorReply _ 500 hw1]
      at h200
    exact absurd h200 (by decide)
  | resolved data name =>
    rw [renderReply_of_resolved _ _ _ _ _ data name hloop] at hform
    cases htmpl : ctx.Templates.ExecuteTemplate name data with
    | none =>
      rw [htmpl] at hform
      simp only [] at hform
      rw [hform, StatusCode_errorReply _ 500 hw1] at h200
      exact absurd h200 (by decide)
    | some buf =>
      rw [htmpl] at hform
      simp only [] at hform
      obtain ⟨fonts, faces, g1, g2, g3, g4⟩ :=
        resolveLoop_resolved_inv env ctx queries [] data [] name hloop
      rw [List.nil_append] at g3
      subst g3
      cases hlast : fonts.getLast? with
      | none =>
        rw [List.getLast?_eq_none_iff] at hlast
        subst hlast
        cases queries with
        | nil => exact absurd rfl hqne
        | cons q qs => simp at g1
      | some last =>
        rw [hlast] at g4
        simp only [] at g4
        subst g4
        refine ⟨?_, ?_, fonts, data, last, buf, g1, g2, hlast, htmpl, ?_⟩
        · rw [hform, Header_Copy, Get_SetHeader, if_neg (by decide), Get_SetHeader,
            if_pos rfl]
        · rw [hform, Header_Copy, Get_SetHeader, if_pos rfl]
        · rw [hform, Body_Copy]
          show checked.1.Body ++ buf = w.Body ++ buf
          rw [cbody]

/-- Witness of C20 at the sample request, which is answered 200. -/
theorem CssHandler_ok_reply_witness :
    (CssHandler sampleEnv freshWriter (sampleRequest "GET".toList "Amaranth".toList)
        sampleContext).StatusCode = 200
      ∧ (CssHandler sampleEnv freshWriter (sampleRequest "GET".toList "Amaranth".toList)
          sampleContext).Header.Get "Content-Type".toList
        = "text/css; charset=utf-8".toList :=
  ⟨by decide,
    (CssHandler_ok_reply sampleEnv freshWriter (sampleRequest "GET".toList "Amaranth".toList)
      sampleContext rfl (by decide)).2.1⟩

/-! ## The claims on `MakeHandler`, the whitelist and the formats -/

/-- C22: for every flag setting, the handler `MakeHandler` returns sets
`Access-Control-Allow-Origin` to `*` exactly when `AcAllowOrigin` is true, `Server` to
`Version` exactly when `Version` is non-empty and `Vary` to `Accept-Encoding` exactly
when `Gzip` is true (every other header, the status and the body are left as they were),
and then calls the wrapped handler once, with the same request and context. -/
theorem MakeHandler_headers (fn : HandlerFunc) (ctx : HandlerContext) (w : ResponseWriter)
    (r : Request) :
    ∃ w1 : ResponseWriter,
      MakeHandler fn ctx w r = fn w1 r ctx
        ∧ MakeHandler emptyHandler ctx w r = w1
        ∧ w1.Status = w.Status ∧ w1.Body = w.Body
        ∧ w1.Header.Get "Access-Control-Allow-Origin".toList
            = (if ctx.Flags.AcAllowOrigin = true then "*".toList
              else w.Header.Get "Access-Control-Allow-Origin".toList)
        ∧ w1.Header.Get "Server".toList
            = (if ctx.Flags.Version ≠ [] then ctx.Flags.Version
              else w.Header.Get "Server".toList)
        ∧ w1.Header.Get "Vary".toList
            = (if ctx.Flags.Gzip = true then "Accept-Encoding".toList
              else w.Header.Get "Vary".toList)
        ∧ ∀ key : GoString, key ≠ "Access-Control-Allow-Origin".toList →
            key ≠ "Server".toList → key ≠ "Vary".toList →
            w1.Header.Get key = w.Header.Get key := by
  refine ⟨_, rfl, rfl, ?_, ?_, ?_, ?_, ?_, ?_⟩
  · cases ctx.Flags.AcAllowOrigin <;> cases ctx.Flags.Gzip <;>
      by_cases hv : ctx.Flags.Version = [] <;> simp [hv] <;> rfl
  · cases ctx.Flags.AcAllowOrigin <;> cases ctx.Flags.Gzip <;>
      by_cases hv : ctx.Flags.Version = [] <;> simp [hv] <;> rfl
  · have n1 : "Access-Control-Allow-Origin".toList ≠ "Vary".toList := by decide
    have n2 : "Access-Control-Allow-Origin".toList ≠ "Server".toList := by decide
    cases ctx.Flags.AcAllowOrigin <;> cases ctx.Flags.Gzip <;>
      by_cases hv : ctx.Flags.Version = [] <;>
      simp only [hv, if_true, if_false, ne_eq, not_true_eq_false, not_false_eq_true,
        Bool.false_eq_true, Get_SetHeader, n1, n2]
  · have n1 : "Server".toList ≠ "Vary".toList := by decide
    have n2 : "Server".toList ≠ "Access-Control-Allow-Origin".toList := by decide
    cases ctx.Flags.AcAllowOrigin <;> cases ctx.Flags.Gzip <;>
      by_cases hv : ctx.Flags.Version = [] <;>
      simp only [hv, if_true, if_false, ne_eq, not_true_eq_false, not_false_eq_true,
        Bool.false_eq_true, Get_SetHeader, n1, n2]
  · have n1 : "Vary".toList ≠ "Server".toList := by decide
    have n2 : "Vary".toList ≠ "Access-Control-Allow-Origin".toList := by decide
    cases ctx.Flags.AcAllowOrigin <;> cases ctx.Flags.Gzip <;>
      by_cases hv : ctx.Flags.Version = [] <;>
      simp only [hv, if_true, if_false, ne_eq, not_true_eq_false, not_false_eq_true,
        Bool.false_eq_true, Get_SetHeader, n1, n2]
  · intro key k1 k2 k3
    cases ctx.Flags.AcAllowOrigin <;> cases ctx.Flags.Gzip <;>
      by_cases hv : ctx.Flags.Version = [] <;>
      simp only [hv, if_true, if_false, ne_eq, not_true_eq_false, not_false_eq_true,
        Bool.false_eq_true, Get_SetHeader, k1, k2, k3]

theorem foldl_raise (p : GoString → Bool) (l : List GoString) :
    ∀ y : Bool, l.foldl (fun y d => if p d then true else y) y = (y || l.any p) := by
  induction l with
  | nil => intro y; simp
  | cons d ds ih =>
    intro y
    rw [List.foldl_cons, ih, List.any_cons]
    cases y <;> cases p d <;> simp

theorem Whitelist_Contains_eq_any (w : Whitelist) (d : GoString) :
    w.Contains d = w.Domains.any (fun e => HasPrefix d e) := by
  unfold Whitelist.Contains
  rw [foldl_raise (fun e => HasPrefix d e) w.Domains false, Bool.false_or]

theorem HasPrefix_iff (s pre : GoString) :
    HasPrefix s pre = true ↔ ∃ rest, s = pre ++ rest := by
  unfold HasPrefix
  rw [List.isPrefixOf_iff_prefix]
  constructor
  · rintro ⟨t, ht⟩
    exact ⟨t, ht.symm⟩
  · rintro ⟨t, ht⟩
    exact ⟨t, ht.symm⟩

/-- C23: `Contains d` is true if and only if at least one entry of the whitelist is a
prefix of `d`; an empty whitelist contains nothing, and the entry `http://one/` contains
`http://one/two` but not `http://one`. -/
theorem Whitelist_Contains_iff (w : Whitelist) (d : GoString) :
    (w.Contains d = true ↔ ∃ e ∈ w.Domains, ∃ rest, d = e ++ rest)
      ∧ (⟨[]⟩ : Whitelist).Contains d = false
      ∧ (⟨["http://one/".toList]⟩ : Whitelist).Contains "http://one/".toList = true
      ∧ (⟨["http://one/".toList]⟩ : Whitelist).Contains "http://one/two".toList = true
      ∧ (⟨["http://one/".toList]⟩ : Whitelist).Contains "http://one".toList = false := by
  refine ⟨?_, rfl, by decide, by decide, by decide⟩
  rw [Whitelist_Contains_eq_any, List.any_eq_true]
  constructor
  · rintro ⟨e, he, hp⟩
    exact ⟨e, he, (HasPrefix_iff d e).1 hp⟩
  · rintro ⟨e, he, hp⟩
    exact ⟨e, he, (HasPrefix_iff d e).2 hp⟩

/-- C24: a whitelist that has the empty string among its entries contains every referrer,
the empty one included. -/
theorem Whitelist_allow_all (w : Whitelist) (h : [] ∈ w.Domains) (d : GoString) :
    w.Contains d = true := by
  rw [Whitelist_Contains_eq_any, List.any_eq_true]
  exact ⟨[], h, (HasPrefix_iff d []).2 ⟨d, rfl⟩⟩

/-- Witness of C24 at the allow-all whitelist of the tests and the absent referrer. -/
theorem Whitelist_allow_all_witness :
    ([] : GoString) ∈ (⟨[[]]⟩ : Whitelist).Domains ∧
      (⟨[[]]⟩ : Whitelist).Contains [] = true :=
  ⟨by decide, Whitelist_allow_all ⟨[[]]⟩ (by decide) []⟩

/-- C27: for every format value `f` and every string `s`, `f.FromString s` is EOT when
`s` equals `eot` case-insensitively, WOFF when `s` equals `woff` case-insensitively, and
`f` itself otherwise. -/
theorem Format_FromString_cases (f : Format) (s : GoString) :
    (EqualFold s "eot".toList → f.FromString s = EOT)
      ∧ (EqualFold s "woff".toList → f.FromString s = WOFF)
      ∧ (¬ EqualFold s "eot".toList → ¬ EqualFold s "woff".toList → f.FromString s = f) := by
  rw [EqualFold_eot, EqualFold_woff]
  unfold Format.FromString
  refine ⟨fun h => by rw [if_pos h], fun h => ?_, fun h1 h2 => by rw [if_neg h1, if_neg h2]⟩
  have hne : ¬ ToLower s = "eot".toList := by
    rw [h]
    decide
  rw [if_neg hne, if_pos h]

/-- Witness of C27 at the strings of the tests: `eot` and `WOFF` are recognised, and
`svg` leaves the format as it was. -/
theorem Format_FromString_cases_witness :
    NOF.FromString "eot".toList = EOT ∧ EOT.FromString "WOFF".toList = WOFF
      ∧ EOT.FromString "svg".toList = EOT :=
  ⟨(Format_FromString_cases NOF "eot".toList).1 (by decide),
    (Format_FromString_cases EOT "WOFF".toList).2.1 (by decide),
    (Format_FromString_cases EOT "svg".toList).2.2 (by decide) (by decide)⟩

/-- C28: `String` and `FromString` round-trip on the supported formats: for `f` one of
EOT and WOFF and every starting value `g`, `g.FromString f.String` is `f`; the string of
NOF is empty, and `FromString` does not recognise the empty string. -/
theorem Format_String_roundtrip (g : Format) :
    (∀ f : Format, f = EOT ∨ f = WOFF → g.FromString f.String = f)
      ∧ NOF.String = []
      ∧ g.FromString NOF.String = g := by
  refine ⟨?_, rfl, rfl⟩
  rintro f (rfl | rfl) <;> rfl

/-- Witness of C28 at the format WOFF and the starting value EOT. -/
theorem Format_String_roundtrip_witness : EOT.FromString WOFF.String = WOFF :=
  (Format_String_roundtrip EOT).1 WOFF (Or.inr rfl)

theorem Format_String_ne_nil_iff (f : Format) : f.String ≠ [] ↔ f = EOT ∨ f = WOFF := by
  unfold Format.String
  by_cases h1 : f = EOT
  · rw [if_pos h1]
    exact ⟨fun _ => Or.inl h1, fun _ => by decide⟩
  · rw [if_neg h1]
    by_cases h2 : f = WOFF
    · rw [if_pos h2]
      exact ⟨fun _ => Or.inr h2, fun _ => by decide⟩
    · rw [if_neg h2]
      exact ⟨fun h => absurd rfl h, fun h => by rcases h with h | h <;> contradiction⟩

/-- C29: `MimeType` is `application/vnd.ms-fontobject` for the format EOT,
`application/x-font-woff` for the format WOFF and the empty string for every other format
value; it is non-empty exactly when the string of the format is non-empty. -/
theorem Font_MimeType_cases (f : Font) :
    (f.Format = EOT → f.MimeType = "application/vnd.ms-fontobject".toList)
      ∧ (f.Format = WOFF → f.MimeType = "application/x-font-woff".toList)
      ∧ (f.Format ≠ EOT → f.Format ≠ WOFF → f.MimeType = [])
      ∧ (f.MimeType ≠ [] ↔ f.Format.String ≠ []) := by
  unfold Font.MimeType
  refine ⟨fun h => by rw [if_pos h], fun h => ?_, fun h1 h2 => by rw [if_neg h1, if_neg h2],
    ?_⟩
  · have hne : ¬ f.Format = EOT := by rw [h]; decide
    rw [if_neg hne, if_pos h]
  · rw [Format_String_ne_nil_iff]
    by_cases h1 : f.Format = EOT
    · rw [if_pos h1]
      exact ⟨fun _ => Or.inl h1, fun _ => by decide⟩
    · rw [if_neg h1]
      by_cases h2 : f.Format = WOFF
      · rw [if_pos h2]
        exact ⟨fun _ => Or.inr h2, fun _ => by decide⟩
      · rw [if_neg h2]
        exact ⟨fun h => absurd rfl h, fun h => by rcases h with h | h <;> contradiction⟩

/-- Witness of C29 at the sample font, whose format is WOFF. -/
theorem Font_MimeType_cases_witness :
    sampleFont.MimeType = "application/x-font-woff".toList :=
  (Font_MimeType_cases sampleFont).2.1 rfl

/-! ## The claims on `Fonts` and on the inventory -/

theorem FromString_NOF_eq (f : GoString) :
    NOF.FromString f
      = if EqualFold f "eot".toList then EOT
        else if EqualFold f "woff".toList then WOFF else NOF := by
  unfold Format.FromString
  by_cases h1 : ToLower f = "eot".toList
  · rw [if_pos h1, if_pos ((EqualFold_eot f).2 h1)]
  · rw [if_neg h1, if_neg (fun h => h1 ((EqualFold_eot f).1 h))]
    by_cases h2 : ToLower f = "woff".toList
    · rw [if_pos h2, if_pos ((EqualFold_woff f).2 h2)]
    · rw [if_neg h2, if_neg (fun h => h2 ((EqualFold_woff f).1 h))]

theorem formatStep_eq (fp : Filepath) (m : Metadata) (s : Subfamily) (fonts : List Font)
    (f : GoString) :
    m.formatStep fp s fonts f
      = fonts ++
        (if EqualFold f "eot".toList ∨ EqualFold f "woff".toList then
          [m.fontOf fp s f (if EqualFold f "eot".toList then EOT else WOFF)]
        else []) := by
  unfold Metadata.formatStep
  simp only []
  rw [FromString_NOF_eq]
  by_cases h1 : EqualFold f "eot".toList
  · rw [if_pos h1, if_neg (by decide), if_pos (Or.inl h1), if_pos h1]
  · rw [if_neg h1]
    by_cases h2 : EqualFold f "woff".toList
    · rw [if_pos h2, if_neg (by decide), if_pos (Or.inr h2), if_neg h1]
    · rw [if_neg h2, if_pos rfl, if_neg (by rintro (h | h) <;> contradiction),
        List.append_nil]

theorem foldl_formatStep (fp : Filepath) (m : Metadata) (s : Subfamily)
    (fs : List GoString) :
    ∀ fonts : List Font,
      fs.foldl (m.formatStep fp s) fonts
        = fonts ++
          (fs.filter (fun f =>
              decide (EqualFold f "eot".toList ∨ EqualFold f "woff".toList))).map
            (fun f => m.fontOf fp s f (if EqualFold f "eot".toList then EOT else WOFF)) := by
  induction fs with
  | nil => intro fonts; simp
  | cons f fs ih =>
    intro fonts
    rw [List.foldl_cons, ih, formatStep_eq]
    by_cases h : EqualFold f "eot".toList ∨ EqualFold f "woff".toList
    · have hp : (f :: fs).filter (fun f =>
            decide (EqualFold f "eot".toList ∨ EqualFold f "woff".toList))
          = f :: fs.filter (fun f =>
            decide (EqualFold f "eot".toList ∨ EqualFold f "woff".toList)) :=
        List.filter_cons_of_pos (decide_eq_true h)
      rw [if_pos h, hp, List.map_cons, List.append_assoc]
      rfl
    · have hp : (f :: fs).filter (fun f =>
            decide (EqualFold f "eot".toList ∨ EqualFold f "woff".toList))
          = fs.filter (fun f =>
            decide (EqualFold f "eot".toList ∨ EqualFold f "woff".toList)) :=
        List.filter_cons_of_neg (by
          show ¬ decide (EqualFold f "eot".toList ∨ EqualFold f "woff".toList) = true
          rw [decide_eq_true_iff]
          exact h)
      rw [if_neg h, hp, List.append_nil]

theorem foldl_append_flatMap {α β : Type} (g : α → List β) (l : List α) :
    ∀ acc : List β, l.foldl (fun acc a => acc ++ g a) acc = acc ++ l.flatMap g := by
  induction l with
  | nil => intro acc; simp
  | cons a as ih =>
    intro acc
    rw [List.foldl_cons, ih, List.flatMap_cons, List.append_assoc]

/-- C30: for every metadata value, `Fonts` returns, in subfamily order and within a
subfamily in the order of its format list, exactly one font per format string that is
`eot` or `woff` case-insensitively; the font has the family of the metadata, the style
and weight of the subfamily, the recognised format, and the path made by joining the
directory of the metadata path with the base name, a dot and the format string; the
other format strings are skipped. -/
theorem Metadata_Fonts_eq (fp : Filepath) (m : Metadata) :
    m.Fonts fp
        = m.Subfamilies.flatMap (fun s =>
            (s.Formats.filter (fun f =>
                decide (EqualFold f "eot".toList ∨ EqualFold f "woff".toList))).map
              (fun f =>
                ({ Family := m.Family
                   Format := if EqualFold f "eot".toList then EOT else WOFF
                   Path := fp.Join [fp.Dir m.path, s.Basename ++ ".".toList ++ f]
                   Style := s.Style
                   Weight := s.Weight } : Font)))
      ∧ sampleMetadata.Fonts sampleFilepath
          = [⟨"Amaranth".toList, EOT, "fonts/Amaranth/amaranth-regular.eot".toList,
                "normal".toList, 400⟩,
              ⟨"Amaranth".toList, WOFF, "fonts/Amaranth/amaranth-regular.WOFF".toList,
                "normal".toList, 400⟩,
              ⟨"Amaranth".toList, WOFF, "fonts/Amaranth/amaranth-italic.woff".toList,
                "italic".toList, 400⟩] := by
  refine ⟨?_, by decide⟩
  unfold Metadata.Fonts
  have e : (fun (fonts : List Font) (s : Subfamily) =>
      s.Formats.foldl (m.formatStep fp s) fonts)
      = (fun fonts s => fonts ++
          (s.Formats.filter (fun f =>
              decide (EqualFold f "eot".toList ∨ EqualFold f "woff".toList))).map
            (fun f => m.fontOf fp s f (if EqualFold f "eot".toList then EOT else WOFF))) := by
    funext fonts s
    exact foldl_formatStep fp m s s.Formats fonts
  rw [e, foldl_append_flatMap, List.nil_append]
  rfl

theorem Inventory_Query_Put (i : Inventory) (rowKey columnKey : GoString) (font : Font)
    (q : Query) :
    (i.Put rowKey columnKey font).Query q
      = if q.RowKey = rowKey ∧ q.ColumnKey = columnKey then some font else i.Query q := by
  unfold Inventory.Query Inventory.Get Inventory.Put
  simp only [List.lookup_cons]
  by_cases h : q.RowKey = rowKey ∧ q.ColumnKey = columnKey
  · have hb : ((q.RowKey, q.ColumnKey) == (rowKey, columnKey)) = true := by
      rw [h.1, h.2]
      exact beq_self_eq_true _
    rw [hb, if_pos h]
  · have hne : (q.RowKey, q.ColumnKey) ≠ (rowKey, columnKey) := by
      intro e
      exact h ⟨congrArg Prod.fst e, congrArg Prod.snd e⟩
    have hb : ((q.RowKey, q.ColumnKey) == (rowKey, columnKey)) = false := by
      rw [beq_eq_false_iff_ne]
      exact hne
    rw [hb, if_neg h]
    simp only []
    generalize i.cells = cells
    induction cells with
    | nil => rfl
    | cons e es ih =>
      obtain ⟨k, v⟩ := e
      by_cases he : k = (rowKey, columnKey)
      · have hb1 : ((q.RowKey, q.ColumnKey) == k) = false := by
          rw [he]
          exact hb
        rw [List.filter_cons_of_neg (by simp [he]), ih, List.lookup_cons, hb1]
      · rw [List.filter_cons_of_pos (by simp [he]), List.lookup_cons, List.lookup_cons, ih]

theorem putFonts_Query (fonts : List Font) (q : Query) :
    ∀ i : Inventory,
      (putFonts i fonts).Query q
        = match fonts.reverse.find?
            (fun f => decide (f.Family = q.RowKey ∧ columnKeyOf f = q.ColumnKey)) with
          | some f => some f
          | none => i.Query q := by
  induction fonts with
  | nil => intro i; rfl
  | cons f fs ih =>
    intro i
    have e : putFonts i (f :: fs) = putFonts (i.Put f.Family (columnKeyOf f) f) fs := rfl
    rw [e, ih, List.reverse_cons, List.find?_append]
    cases hfind : fs.reverse.find?
        (fun f => decide (f.Family = q.RowKey ∧ columnKeyOf f = q.ColumnKey)) with
    | some g => rfl
    | none =>
      simp only [Option.none_or, List.find?_cons, List.find?_nil]
      rw [Inventory_Query_Put]
      by_cases h : f.Family = q.RowKey ∧ columnKeyOf f = q.ColumnKey
      · rw [if_pos ⟨h.1.symm, h.2.symm⟩]
        simp [h]
      · rw [if_neg (fun g => h ⟨g.1.symm, g.2.symm⟩)]
        simp [h]

theorem foldl_putFonts (g : FileInfo → List Font) (entries : List FileInfo) :
    ∀ i : Inventory,
      entries.foldl (fun i entry => putFonts i (g entry)) i
        = putFonts i (entries.flatMap g) := by
  induction entries with
  | nil => intro i; rfl
  | cons e es ih =>
    intro i
    rw [List.foldl_cons, ih, List.flatMap_cons]
    unfold putFonts
    rw [List.foldl_append]

/-- C25: after the fonts of a sequence are put into the index, each under its family and
its column key (format string, decimal weight, style), `Query` returns the last font of
the sequence that has the queried pair, and `none` for a pair no font has; a new inventory
returns `none` for every query; and the index `Build` makes is the one obtained by putting
the fonts of the entries of the font library, in order. -/
theorem Inventory_last_write_wins (fonts : List Font) (q : Query) :
    (putFonts Inventory.New fonts).Query q
        = fonts.reverse.find?
            (fun f => decide (f.Family = q.RowKey ∧ columnKeyOf f = q.ColumnKey))
      ∧ ((∀ f ∈ fonts, ¬ (f.Family = q.RowKey ∧ columnKeyOf f = q.ColumnKey)) →
          (putFonts Inventory.New fonts).Query q = none)
      ∧ Inventory.New.Query q = none
      ∧ ∀ (disk : Disk) (fp : Filepath) (name : GoString) (built : Inventory),
          Inventory.Build disk fp Inventory.New name = some built →
          ∃ entries, disk.ReadDir name = some entries ∧
            built = putFonts Inventory.New (entries.flatMap (entryFonts disk fp name)) := by
  have key := putFonts_Query fonts q Inventory.New
  have hnew : Inventory.New.Query q = none := rfl
  refine ⟨?_, ?_, hnew, ?_⟩
  · rw [key]
    cases fonts.reverse.find?
        (fun f => decide (f.Family = q.RowKey ∧ columnKeyOf f = q.ColumnKey)) with
    | some g => rfl
    | none => exact hnew
  · intro hall
    rw [key]
    have hnone : fonts.reverse.find?
        (fun f => decide (f.Family = q.RowKey ∧ columnKeyOf f = q.ColumnKey)) = none := by
      rw [List.find?_eq_none]
      intro f hf
      have := hall f (List.mem_reverse.1 hf)
      simpa using this
    rw [hnone]
    exact hnew
  · intro disk fp name built hb
    unfold Inventory.Build at hb
    by_cases hd : disk.IsDir name = true
    · simp only [hd, Bool.not_true, Bool.false_eq_true, if_false] at hb
      cases hr : disk.ReadDir name with
      | none => rw [hr] at hb; exact absurd hb (by simp)
      | some entries =>
        rw [hr] at hb
        simp only [Option.some.injEq] at hb
        refine ⟨entries, rfl, ?_⟩
        rw [← hb, foldl_putFonts]
    · simp [hd] at hb

/-- Witness of C25: two fonts of the same family, format, weight and style, differing in
their paths only; the query returns the second. -/
theorem Inventory_last_write_wins_witness :
    (putFonts Inventory.New
        [sampleFont, { sampleFont with Path := "other/amaranth-regular.woff".toList }]).Query
        ⟨"Amaranth".toList, "woff400normal".toList⟩
      = some { sampleFont with Path := "other/amaranth-regular.woff".toList } :=
  (Inventory_last_write_wins
    [sampleFont, { sampleFont with Path := "other/amaranth-regular.woff".toList }]
    ⟨"Amaranth".toList, "woff400normal".toList⟩).1

/-! ## The claim on the `ETag` header of the responses -/

theorem ETag_errorReply (w : ResponseWriter) (code : Nat) :
    (errorReply w code).Header.Get "ETag".toList = w.Header.Get "ETag".toList := by
  unfold errorReply
  rw [Header_WriteHeader, Get_SetHeader, if_neg (by decide)]

theorem ETag_renderReply (env : Env) (w : ResponseWriter) (r : Request)
    (ctx : HandlerContext) (queries : List Query) :
    (renderReply env w r ctx queries).Header.Get "ETag".toList
      = w.Header.Get "ETag".toList := by
  cases h : resolveLoop env ctx queries [] [] with
  | missing => rw [renderReply_of_missing _ _ _ _ _ h, ETag_errorReply]
  | failed => rw [renderReply_of_failed _ _ _ _ _ h, ETag_errorReply]
  | resolved data name =>
    rw [renderReply_of_resolved _ _ _ _ _ data name h]
    cases ctx.Templates.ExecuteTemplate name data with
    | none =>
      simp only []
      rw [ETag_errorReply]
    | some buf =>
      simp only []
      rw [Header_Copy, Get_SetHeader, if_neg (by decide), Get_SetHeader,
        if_neg (by decide)]

theorem CssHandler_ETag (env : Env) (w : ResponseWriter) (r : Request)
    (ctx : HandlerContext) :
    (CssHandler env w r ctx).Header.Get "ETag".toList
      = if PassesGates r ctx ∧ ctx.Flags.Etag = true then
          (Etag env w r (Queries (r.FormValue "family".toList) (requestFormat r))
            ctx).1.Header.Get "ETag".toList
        else w.Header.Get "ETag".toList := by
  by_cases hg : PassesGates r ctx
  · by_cases hflag : ctx.Flags.Etag = true
    · rw [if_pos (⟨hg, hflag⟩ : PassesGates r ctx ∧ ctx.Flags.Etag = true),
        CssHandler_of_gates env w r ctx hg]
      simp only [hflag, if_true]
      by_cases hm : (Etag env w r (Queries (r.FormValue "family".toList) (requestFormat r))
          ctx).2 = true
      · rw [if_pos hm]
      · rw [if_neg hm, ETag_renderReply]
    · rw [if_neg (fun h : PassesGates r ctx ∧ ctx.Flags.Etag = true => hflag h.2),
        CssHandler_of_gates env w r ctx hg]
      have hf : ctx.Flags.Etag = false := by simpa using hflag
      simp only [hf, Bool.false_eq_true, if_false]
      rw [ETag_renderReply]
  · rw [if_neg (fun h : PassesGates r ctx ∧ ctx.Flags.Etag = true => hg h.1),
      CssHandler_rejected env w r ctx hg]
    split
    · rw [ETag_errorReply]
    · split <;> rw [ETag_errorReply]

theorem PassesGates_of_ok (env : Env) (w : ResponseWriter) (r : Request)
    (ctx : HandlerContext) (hw : w.Status = none)
    (h200 : (CssHandler env w r ctx).StatusCode = 200) : PassesGates r ctx := by
  by_contra hg
  rw [CssHandler_rejected env w r ctx hg] at h200
  split at h200
  · rw [StatusCode_errorReply w 501 hw] at h200
    exact absurd h200 (by decide)
  · split at h200
    · rw [StatusCode_errorReply w 403 hw] at h200
      exact absurd h200 (by decide)
    · rw [StatusCode_errorReply w 400 hw] at h200
      exact absurd h200 (by decide)

/-- C21, as the claim states it, fails: entity tags are enabled, no modification time
can be read, so no entity tag is computed; the sample request is answered 200 all the
same, and its `ETag` header is the stale tag the client has sent. -/
theorem CssHandler_stale_etag_counterexample :
    sampleContext.Flags.Etag = true
      ∧ etagLoop noStatEnv sampleContext (Queries "Amaranth".toList WOFF) [] = none
      ∧ (CssHandler noStatEnv freshWriter
          (conditionalRequest "Amaranth".toList "stale".toList) sampleContext).StatusCode
          = 200
      ∧ (CssHandler noStatEnv freshWriter
          (conditionalRequest "Amaranth".toList "stale".toList)
          sampleContext).Header.Get "ETag".toList = "stale".toList := by
  refine ⟨rfl, by decide, by decide, by decide⟩

/-- C21, amended: every 200 response produced with entity tags enabled carries an `ETag`
header equal to the freshly computed entity tag when fingerprinting succeeds; when
fingerprinting fails, its `ETag` header is the `If-None-Match` value of the request if
that is non-empty, and otherwise is not set by the handler; and every response produced
with entity tags disabled carries no `ETag` header set by the handler. -/
theorem CssHandler_etag_header (env : Env) (w : ResponseWriter) (r : Request)
    (ctx : HandlerContext) (hw : w.Status = none) :
    (ctx.Flags.Etag = true → (CssHandler env w r ctx).StatusCode = 200 →
        (∀ (fonts : List Font) (times : List Time),
            (Queries (r.FormValue "family".toList) (requestFormat r)).map
              ctx.Inventory.Query = fonts.map some →
            fonts.map (Font.ModTime env) = times.map some →
            (CssHandler env w r ctx).Header.Get "ETag".toList
              = specEntityTag env ctx r times)
          ∧ ((∃ q ∈ Queries (r.FormValue "family".toList) (requestFormat r),
                FingerprintFails env ctx q) →
              (CssHandler env w r ctx).Header.Get "ETag".toList
                = if r.Header.Get "If-None-Match".toList ≠ [] then
                    r.Header.Get "If-None-Match".toList
                  else w.Header.Get "ETag".toList))
      ∧ (ctx.Flags.Etag = false →
          (CssHandler env w r ctx).Header.Get "ETag".toList
            = w.Header.Get "ETag".toList) := by
  constructor
  · intro hflag h200
    have hg := PassesGates_of_ok env w r ctx hw h200
    have key := CssHandler_ETag env w r ctx
    rw [if_pos ⟨hg, hflag⟩] at key
    constructor
    · intro fonts times h1 h2
      rw [key, Etag_header_of_times env w r _ ctx fonts times h1 h2]
    · intro hfail
      rw [key, Etag_of_fails env w r _ ctx hfail]
      split
      · show (w.SetHeader _ _).Header.Get _ = _
        rw [Get_SetHeader, if_pos rfl]
      · rfl
  · intro hflag
    rw [CssHandler_ETag, if_neg (by rw [hflag]; simp)]

/-- Witness of the amended C21: the sample request, with modification times that can be
read, is answered with the tag of the sample font. -/
theorem CssHandler_etag_header_witness :
    (CssHandler sampleEnv freshWriter (sampleRequest "GET".toList "Amaranth".toList)
        sampleContext).Header.Get "ETag".toList
      = specEntityTag sampleEnv sampleContext
          (sampleRequest "GET".toList "Amaranth".toList)
          [⟨"amaranth-regular.woff".toList⟩] :=
  ((CssHandler_etag_header sampleEnv freshWriter
    (sampleRequest "GET".toList "Amaranth".toList) sampleContext rfl).1 rfl (by decide)).1
    [sampleFont] [⟨"amaranth-regular.woff".toList⟩] (by decide) (by decide)

/-! ## Decimal representations and the column key -/

theorem digitChar_spec : ∀ k : Nat, k < 10 →
    (Nat.digitChar k).isDigit = true ∧ (Nat.digitChar k).toNat - 48 = k := by
  decide

theorem digitsValue_append (ds : List Char) (c : Char) :
    digitsValue (ds ++ [c]) = digitsValue ds * 10 + (c.toNat - 48) := by
  unfold digitsValue
  rw [List.foldl_append]
  rfl

theorem toDigitsCore_spec :
    ∀ (fuel n : Nat) (ds : List Char), n < fuel →
      ∃ pre : List Char, Nat.toDigitsCore 10 fuel n ds = pre ++ ds ∧ pre ≠ [] ∧
        (∀ c ∈ pre, c.isDigit = true) ∧ digitsValue pre = n := by
  intro fuel
  induction fuel with
  | zero => intro n ds h; exact absurd h (Nat.not_lt_zero n)
  | succ fuel ih =>
    intro n ds h
    have hd := digitChar_spec (n % 10) (Nat.mod_lt n (by decide))
    unfold Nat.toDigitsCore
    simp only []
    by_cases hz : n / 10 = 0
    · rw [if_pos hz]
      refine ⟨[Nat.digitChar (n % 10)], rfl, by simp, ?_, ?_⟩
      · intro c hc
        rw [List.mem_singleton] at hc
        rw [hc]
        exact hd.1
      · have hn : n % 10 = n := Nat.mod_eq_of_lt (by omega)
        show 0 * 10 + ((Nat.digitChar (n % 10)).toNat - 48) = n
        rw [hd.2]
        omega
    · rw [if_neg hz]
      have hlt : n / 10 < fuel := by omega
      obtain ⟨pre, h1, _, h3, h4⟩ := ih (n / 10) (Nat.digitChar (n % 10) :: ds) hlt
      refine ⟨pre ++ [Nat.digitChar (n % 10)], ?_, by simp, ?_, ?_⟩
      · rw [h1, List.append_assoc]
        rfl
      · intro c hc
        rcases List.mem_append.1 hc with hc | hc
        · exact h3 c hc
        · rw [List.mem_singleton] at hc
          rw [hc]
          exact hd.1
      · rw [digitsValue_append, h4, hd.2]
        omega

theorem toDigits_spec (n : Nat) :
    Nat.toDigits 10 n ≠ [] ∧ (∀ c ∈ Nat.toDigits 10 n, c.isDigit = true) ∧
      digitsValue (Nat.toDigits 10 n) = n := by
  obtain ⟨pre, h1, h2, h3, h4⟩ := toDigitsCore_spec (n + 1) n [] (Nat.lt_succ_self n)
  unfold Nat.toDigits
  rw [h1, List.append_nil]
  exact ⟨h2, h3, h4⟩

theorem digit_run (d1 : List Char) :
    ∀ (d2 s1 s2 : List Char), (∀ c ∈ d1, c.isDigit = true) → (∀ c ∈ d2, c.isDigit = true) →
      beginsWithDigit s1 = false → beginsWithDigit s2 = false →
      d1 ++ s1 = d2 ++ s2 → d1 = d2 ∧ s1 = s2 := by
  induction d1 with
  | nil =>
    intro d2 s1 s2 _ h2 hs1 _ h
    cases d2 with
    | nil => exact ⟨rfl, h⟩
    | cons c cs =>
      rw [List.nil_append] at h
      rw [h] at hs1
      have := h2 c (List.mem_cons_self c cs)
      simp only [List.cons_append, beginsWithDigit] at hs1
      rw [this] at hs1
      exact absurd hs1 (by decide)
  | cons c cs ih =>
    intro d2 s1 s2 h1 h2 hs1 hs2 h
    cases d2 with
    | nil =>
      rw [List.nil_append] at h
      rw [← h] at hs2
      have := h1 c (List.mem_cons_self c cs)
      simp only [List.cons_append, beginsWithDigit] at hs2
      rw [this] at hs2
      exact absurd hs2 (by decide)
    | cons c2 cs2 =>
      simp only [List.cons_append, List.cons.injEq] at h
      obtain ⟨e1, e2⟩ := ih cs2 s1 s2 (fun x hx => h1 x (List.mem_cons_of_mem c hx))
        (fun x hx => h2 x (List.mem_cons_of_mem c2 hx)) hs1 hs2 h.2
      exact ⟨by rw [h.1, e1], e2⟩

theorem Itoa_append_inj (w1 w2 : Int) (s1 s2 : GoString)
    (hs1 : beginsWithDigit s1 = false) (hs2 : beginsWithDigit s2 = false)
    (h : Itoa w1 ++ s1 = Itoa w2 ++ s2) : w1 = w2 ∧ s1 = s2 := by
  obtain ⟨a1, a2, a3⟩ := toDigits_spec w1.natAbs
  obtain ⟨b1, b2, b3⟩ := toDigits_spec w2.natAbs
  obtain ⟨c1, c2, c3⟩ := toDigits_spec w1.toNat
  obtain ⟨d1, d2, d3⟩ := toDigits_spec w2.toNat
  unfold Itoa at h
  by_cases n1 : w1 < 0
  · rw [if_pos n1] at h
    by_cases n2 : w2 < 0
    · rw [if_pos n2] at h
      simp only [List.cons_append, List.cons.injEq, true_and] at h
      obtain ⟨e1, e2⟩ := digit_run _ _ s1 s2 a2 b2 hs1 hs2 h
      have : w1.natAbs = w2.natAbs := by rw [← a3, ← b3, e1]
      exact ⟨by omega, e2⟩
    · rw [if_neg n2] at h
      cases hd : Nat.toDigits 10 w2.toNat with
      | nil => exact absurd hd d1
      | cons c cs =>
        rw [hd] at h d2
        simp only [List.cons_append, List.cons.injEq] at h
        have := d2 c (List.mem_cons_self c cs)
        rw [← h.1] at this
        exact absurd this (by decide)
  · rw [if_neg n1] at h
    by_cases n2 : w2 < 0
    · rw [if_pos n2] at h
      cases hd : Nat.toDigits 10 w1.toNat with
      | nil => exact absurd hd c1
      | cons c cs =>
        rw [hd] at h c2
        simp only [List.cons_append, List.cons.injEq] at h
        have := c2 c (List.mem_cons_self c cs)
        rw [h.1] at this
        exact absurd this (by decide)
    · rw [if_neg n2] at h
      obtain ⟨e1, e2⟩ := digit_run _ _ s1 s2 c2 d2 hs1 hs2 h
      have : w1.toNat = w2.toNat := by rw [← c3, ← d3, e1]
      exact ⟨by omega, e2⟩

theorem Itoa_head (w : Int) (s : GoString) :
    ∃ c rest, Itoa w ++ s = c :: rest ∧ (c = '-' ∨ c.isDigit = true) := by
  unfold Itoa
  by_cases n : w < 0
  · rw [if_pos n]
    exact ⟨'-', _, rfl, Or.inl rfl⟩
  · rw [if_neg n]
    obtain ⟨c1, c2, -⟩ := toDigits_spec w.toNat
    cases hd : Nat.toDigits 10 w.toNat with
    | nil => exact absurd hd c1
    | cons c cs =>
      rw [hd] at c2
      exact ⟨c, cs ++ s, rfl, Or.inr (c2 c (List.mem_cons_self c cs))⟩

theorem Format_String_cases (f : Format) :
    f.String = [] ∨ f.String = "eot".toList ∨ f.String = "woff".toList := by
  unfold Format.String
  by_cases h1 : f = EOT
  · rw [if_pos h1]; exact Or.inr (Or.inl rfl)
  · rw [if_neg h1]
    by_cases h2 : f = WOFF
    · rw [if_pos h2]; exact Or.inr (Or.inr rfl)
    · rw [if_neg h2]; exact Or.inl rfl

theorem Format_String_inj (f1 f2 : Format) (h1 : f1.Declared) (h2 : f2.Declared)
    (h : f1.String = f2.String) : f1 = f2 := by
  rcases h1 with rfl | rfl | rfl <;> rcases h2 with rfl | rfl | rfl <;>
    first
      | rfl
      | exact absurd h (by decide)

theorem columnKey_format_string (f1 f2 : Format) (t1 t2 : GoString)
    (h1 : ∃ c rest, t1 = c :: rest ∧ (c = '-' ∨ c.isDigit = true))
    (h2 : ∃ c rest, t2 = c :: rest ∧ (c = '-' ∨ c.isDigit = true))
    (h : f1.String ++ t1 = f2.String ++ t2) : f1.String = f2.String := by
  obtain ⟨c1, r1, e1, p1⟩ := h1
  obtain ⟨c2, r2, e2, p2⟩ := h2
  subst e1
  subst e2
  have ne : ∀ c : Char, (c = '-' ∨ c.isDigit = true) → c ≠ 'e' := by
    intro c hc e
    subst e
    rcases hc with hc | hc <;> exact absurd hc (by decide)
  have nw : ∀ c : Char, (c = '-' ∨ c.isDigit = true) → c ≠ 'w' := by
    intro c hc e
    subst e
    rcases hc with hc | hc <;> exact absurd hc (by decide)
  have eot : "eot".toList = [ 'e', 'o', 't'] := rfl
  have woff : "woff".toList = [ 'w', 'o', 'f', 'f'] := rfl
  rcases Format_String_cases f1 with a | a | a <;>
    rcases Format_String_cases f2 with b | b | b <;> rw [a, b] at h ⊢
  · rw [eot] at h
    simp only [List.nil_append, List.cons_append, List.cons.injEq] at h
    exact absurd h.1 (ne c1 p1)
  · rw [woff] at h
    simp only [List.nil_append, List.cons_append, List.cons.injEq] at h
    exact absurd h.1 (nw c1 p1)
  · rw [eot] at h
    simp only [List.nil_append, List.cons_append, List.cons.injEq] at h
    exact absurd h.1.symm (ne c2 p2)
  · rw [eot, woff] at h
    simp only [List.cons_append, List.cons.injEq] at h
    exact absurd h.1 (by decide)
  · rw [woff] at h
    simp only [List.nil_append, List.cons_append, List.cons.injEq] at h
    exact absurd h.1.symm (nw c2 p2)
  · rw [eot, woff] at h
    simp only [List.cons_append, List.cons.injEq] at h
    exact absurd h.1 (by decide)

theorem columnKey_parts_eq (f1 f2 : Format) (w1 w2 : Int) (s1 s2 : GoString)
    (hs1 : beginsWithDigit s1 = false) (hs2 : beginsWithDigit s2 = false)
    (h : f1.String ++ Itoa w1 ++ s1 = f2.String ++ Itoa w2 ++ s2) :
    f1.String = f2.String ∧ w1 = w2 ∧ s1 = s2 := by
  rw [List.append_assoc, List.append_assoc] at h
  have hF := columnKey_format_string f1 f2 _ _ (Itoa_head w1 s1) (Itoa_head w2 s2) h
  rw [hF] at h
  obtain ⟨e1, e2⟩ := Itoa_append_inj w1 w2 s1 s2 hs1 hs2 (List.append_cancel_left h)
  exact ⟨hF, e1, e2⟩

/-- C26: the column key is collision-free on the closed vocabulary. For formats `f1`,
`f2` (the declared NOF, EOT and WOFF), integer weights `w1`, `w2` and styles `s1`, `s2`
that do not begin with a decimal digit, if the keys `f1.String ++ decimal w1 ++ s1` and
`f2.String ++ decimal w2 ++ s2` are equal, then `f1 = f2`, `w1 = w2` and `s1 = s2`. -/
theorem columnKey_collision_free (f1 f2 : Format) (w1 w2 : Int) (s1 s2 : GoString)
    (hf1 : f1.Declared) (hf2 : f2.Declared)
    (hs1 : beginsWithDigit s1 = false) (hs2 : beginsWithDigit s2 = false)
    (h : f1.String ++ Itoa w1 ++ s1 = f2.String ++ Itoa w2 ++ s2) :
    f1 = f2 ∧ w1 = w2 ∧ s1 = s2 := by
  obtain ⟨hF, e1, e2⟩ := columnKey_parts_eq f1 f2 w1 w2 s1 s2 hs1 hs2 h
  exact ⟨Format_String_inj f1 f2 hf1 hf2 hF, e1, e2⟩

/-- Witness of C26 at two equal keys of the vocabulary, `woff400normal`. -/
theorem columnKey_collision_free_witness :
    WOFF.String ++ Itoa 400 ++ "normal".toList = "woff400normal".toList ∧
      (WOFF = WOFF ∧ (400 : Int) = 400 ∧ "normal".toList = "normal".toList) :=
  ⟨by decide,
    columnKey_collision_free WOFF WOFF 400 400 "normal".toList "normal".toList (by decide)
      (by decide) (by decide) (by decide) rfl⟩

/-! ## Lemmas on `Atoi` and `Itoa` -/

theorem Itoa_of_neg (w : Int) (h : w < 0) : Itoa w = '-' :: Nat.toDigits 10 w.natAbs := by
  unfold Itoa
  rw [if_pos h]

theorem Itoa_of_nonneg (w : Int) (h : ¬ w < 0) : Itoa w = Nat.toDigits 10 w.toNat := by
  unfold Itoa
  rw [if_neg h]

theorem Itoa_chars (w : Int) : ∀ c ∈ Itoa w, c = '-' ∨ c.isDigit = true := by
  intro c hc
  by_cases h : w < 0
  · rw [Itoa_of_neg w h] at hc
    rcases List.mem_cons.1 hc with hc | hc
    · exact Or.inl hc
    · exact Or.inr ((toDigits_spec w.natAbs).2.1 c hc)
  · rw [Itoa_of_nonneg w h] at hc
    exact Or.inr ((toDigits_spec w.toNat).2.1 c hc)

theorem Itoa_ne_nil (w : Int) : Itoa w ≠ [] := by
  by_cases h : w < 0
  · rw [Itoa_of_neg w h]
    exact List.cons_ne_nil _ _
  · rw [Itoa_of_nonneg w h]
    exact (toDigits_spec w.toNat).1

theorem Atoi_of_digits (c : Char) (cs : List Char) (hc : c.isDigit = true) :
    Atoi (c :: cs)
      = if (c :: cs).all Char.isDigit = true then
          (if digitsValue (c :: cs) < 2 ^ (intSize - 1) then
            some (digitsValue (c :: cs) : Int) else none)
        else none := by
  have n1 : c ≠ '-' := by
    intro e
    rw [e] at hc
    exact absurd hc (by decide)
  have n2 : c ≠ '+' := by
    intro e
    rw [e] at hc
    exact absurd hc (by decide)
  unfold Atoi
  simp only [n1, n2, or_self, if_false, decide_False, List.isEmpty_cons, Bool.false_or,
    Bool.false_eq_true]
  by_cases hall : (c :: cs).all Char.isDigit = true
  · rw [hall]
    simp
  · rw [if_neg hall]
    have : (c :: cs).all Char.isDigit = false := by simpa using hall
    rw [this]
    simp

theorem Atoi_minus_unfold (ds : List Char) :
    Atoi ( '-' :: ds)
      = if (ds.isEmpty || !ds.all Char.isDigit) = true then none
        else (if digitsValue ds ≤ 2 ^ (intSize - 1) then
          some (-(digitsValue ds : Int)) else none) := rfl

theorem Atoi_of_minus (ds : List Char) :
    Atoi ( '-' :: ds)
      = if ds ≠ [] ∧ ds.all Char.isDigit = true then
          (if digitsValue ds ≤ 2 ^ (intSize - 1) then
            some (-(digitsValue ds : Int)) else none)
        else none := by
  rw [Atoi_minus_unfold]
  cases ds with
  | nil => rfl
  | cons d ds =>
    by_cases hall : (d :: ds).all Char.isDigit = true
    · have c1 : ¬ ((d :: ds).isEmpty || !(d :: ds).all Char.isDigit) = true := by
        rw [hall]
        simp
      have c2 : d :: ds ≠ [] ∧ (d :: ds).all Char.isDigit = true :=
        ⟨List.cons_ne_nil _ _, hall⟩
      rw [if_neg c1, if_pos c2]
    · have hf : (d :: ds).all Char.isDigit = false := by simpa using hall
      have c1 : ((d :: ds).isEmpty || !(d :: ds).all Char.isDigit) = true := by
        rw [hf]
        rfl
      have c2 : ¬ (d :: ds ≠ [] ∧ (d :: ds).all Char.isDigit = true) := fun h => hall h.2
      rw [if_pos c1, if_neg c2]

theorem pow_intSize : (2 : Nat) ^ (intSize - 1) = 9223372036854775808 := by
  decide

theorem all_append_nondigit (ds s : List Char) (h : ∃ c ∈ s, c.isDigit = false) :
    ¬ (ds ++ s).all Char.isDigit = true := by
  obtain ⟨c, hc, hd⟩ := h
  intro hall
  rw [List.all_eq_true] at hall
  have := hall c (List.mem_append_right ds hc)
  rw [hd] at this
  exact absurd this (by decide)

theorem Atoi_Itoa_append (w : Int) (s : GoString) (h : ∃ c ∈ s, c.isDigit = false) :
    Atoi (Itoa w ++ s) = none := by
  by_cases hw : w < 0
  · rw [Itoa_of_neg w hw, List.cons_append, Atoi_of_minus,
      if_neg (fun g => all_append_nondigit _ s h g.2)]
  · rw [Itoa_of_nonneg w hw]
    obtain ⟨d1, d2, -⟩ := toDigits_spec w.toNat
    cases hd : Nat.toDigits 10 w.toNat with
    | nil => exact absurd hd d1
    | cons c cs =>
      rw [hd] at d2
      rw [List.cons_append, Atoi_of_digits c _ (d2 c (List.mem_cons_self c cs)),
        if_neg]
      rw [← List.cons_append]
      exact all_append_nondigit _ s h

theorem Atoi_Itoa (w : Int) (h : IsGoInt w) : Atoi (Itoa w) = some w := by
  unfold IsGoInt at h
  have hp : ((2 : Int) ^ (intSize - 1)) = 9223372036854775808 := by decide
  rw [hp] at h
  obtain ⟨lo, hi⟩ := h
  by_cases hw : w < 0
  · obtain ⟨d1, d2, d3⟩ := toDigits_spec w.natAbs
    rw [Itoa_of_neg w hw, Atoi_of_minus, if_pos ⟨d1, List.all_eq_true.2 d2⟩, d3]
    have hle : w.natAbs ≤ 2 ^ (intSize - 1) := by
      rw [pow_intSize]
      omega
    rw [if_pos hle]
    congr 1
    omega
  · obtain ⟨d1, d2, d3⟩ := toDigits_spec w.toNat
    rw [Itoa_of_nonneg w hw]
    cases hd : Nat.toDigits 10 w.toNat with
    | nil => exact absurd hd d1
    | cons c cs =>
      rw [hd] at d2 d3
      rw [Atoi_of_digits c cs (d2 c (List.mem_cons_self c cs)),
        if_pos (List.all_eq_true.2 d2), d3]
      have hlt : w.toNat < 2 ^ (intSize - 1) := by
        rw [pow_intSize]
        omega
      rw [if_pos hlt]
      congr 1
      omega

theorem Queries_one_token (A t : GoString) (format : Format) (hA : ValidFamilyName A)
    (ht : t ≠ []) (h1 : '|' ∉ t) (h2 : ':' ∉ t) (h3 : ',' ∉ t) :
    Queries (A ++ ':' :: t) format = [⟨A, format.String ++ styleComposite t⟩] := by
  rw [Queries_colon_styles A t format hA h1 h2, Split_of_not_mem _ _ h3]
  cases t with
  | nil => exact absurd rfl ht
  | cons c cs => rfl

theorem not_mem_Itoa (w : Int) (c : Char) (h1 : c ≠ '-') (h2 : c.isDigit = false) :
    c ∉ Itoa w := by
  intro hc
  rcases Itoa_chars w c hc with e | e
  · exact h1 e
  · rw [h2] at e
    exact absurd e (by decide)

/-! ## The claims on `FromFont` and on the agreement of parser and index -/

/-- C31: for every font whose contents can be read and whose format is EOT or WOFF, and
every prior state of the font face, `FromFont` succeeds and sets `Base64Data` to the
base64 encoding of the contents, `Family`, `Style` and `Weight` to those of the font,
`Format` to the format string and `MimeType` to the MIME type of the font; it returns an
error when the contents cannot be read or the MIME type is empty. -/
theorem FromFont_cases (env : Env) (ff : FontFace) (f : Font) :
    (∀ data : Bytes, f.Contents env = some data → (f.Format = EOT ∨ f.Format = WOFF) →
        FontFace.FromFont env ff f
          = some
            { Base64Data := Base64 data
              Family := f.Family
              Format := f.Format.String
              MimeType := f.MimeType
              Style := f.Style
              Weight := f.Weight })
      ∧ (f.Contents env = none ∨ f.MimeType = [] → FontFace.FromFont env ff f = none)
      ∧ Base64 [77, 97, 110] = "TWFu".toList ∧ Base64 [77, 97] = "TWE=".toList
      ∧ Base64 [77] = "TQ==".toList := by
  refine ⟨?_, ?_, by decide, by decide, by decide⟩
  · intro data hd hf
    have hm : f.MimeType ≠ [] := by
      unfold Font.MimeType
      rcases hf with hf | hf <;> rw [hf] <;> decide
    unfold FontFace.FromFont
    rw [hd]
    simp only []
    rw [if_neg hm]
  · intro h
    unfold FontFace.FromFont
    cases hc : f.Contents env with
    | none => rfl
    | some data =>
      rcases h with h | h
      · rw [hc] at h
        exact absurd h (by simp)
      · simp only []
        rw [if_pos h]

/-- Witness of C31 at the sample font, whose file holds the three bytes of `Man`. -/
theorem FromFont_cases_witness :
    FontFace.FromFont sampleEnv FontFace.zero sampleFont
      = some
        { Base64Data := "TWFu".toList
          Family := "Amaranth".toList
          Format := "woff".toList
          MimeType := "application/x-font-woff".toList
          Style := "normal".toList
          Weight := 400 } :=
  (FromFont_cases sampleEnv FontFace.zero sampleFont).1 [77, 97, 110] rfl (Or.inr rfl)

/-- C32: parser and index agree on keys. For every font with a valid family name `F`, a
weight `w` and a style `s` free of `|`, `:` and `,`: when `s` has a character that is not
a digit, `Queries (F ++ ":" ++ decimal w ++ s)` with the font's format is exactly the one
key `(F, format ++ decimal w ++ s)`, the key under which `Build` puts the font (and
`Query` finds it there); and when `s` is `normal` and `w` is a Go `int`,
`Queries (F ++ ":" ++ decimal w)` is that same key. -/
theorem Queries_agrees_with_Build (font : Font) (hF : ValidFamilyName font.Family)
    (h1 : '|' ∉ font.Style) (h2 : ':' ∉ font.Style) (h3 : ',' ∉ font.Style) :
    ((∃ c ∈ font.Style, c.isDigit = false) →
        Queries (font.Family ++ ':' :: (Itoa font.Weight ++ font.Style)) font.Format
          = [⟨font.Family, columnKeyOf font⟩])
      ∧ (font.Style = "normal".toList → IsGoInt font.Weight →
          Queries (font.Family ++ ':' :: Itoa font.Weight) font.Format
            = [⟨font.Family, columnKeyOf font⟩])
      ∧ ∀ i : Inventory,
          (putFonts i [font]).Query ⟨font.Family, columnKeyOf font⟩ = some font := by
  have nb : '|' ∉ Itoa font.Weight := not_mem_Itoa _ _ (by decide) (by decide)
  have nc : ':' ∉ Itoa font.Weight := not_mem_Itoa _ _ (by decide) (by decide)
  have nm : ',' ∉ Itoa font.Weight := not_mem_Itoa _ _ (by decide) (by decide)
  refine ⟨fun hs => ?_, fun hs hw => ?_, fun i => ?_⟩
  · have ht : Itoa font.Weight ++ font.Style ≠ [] := by
      intro e
      exact Itoa_ne_nil _ (List.append_eq_nil.1 e).1
    rw [Queries_one_token font.Family _ font.Format hF ht
      (fun h => (List.mem_append.1 h).elim nb h1)
      (fun h => (List.mem_append.1 h).elim nc h2)
      (fun h => (List.mem_append.1 h).elim nm h3)]
    unfold styleComposite columnKeyOf
    rw [Atoi_Itoa_append _ _ hs]
    simp
  · rw [Queries_one_token font.Family _ font.Format hF (Itoa_ne_nil _) nb nc nm]
    unfold styleComposite columnKeyOf
    rw [Atoi_Itoa _ hw, hs]
    simp
  · show (i.Put font.Family (columnKeyOf font) font).Query _ = _
    rw [Inventory_Query_Put, if_pos ⟨rfl, rfl⟩]

/-- Witness of C32 at the italic and the regular font of the sample family. -/
theorem Queries_agrees_with_Build_witness :
    Queries "Amaranth:400italic".toList WOFF
        = [⟨"Amaranth".toList, "woff400italic".toList⟩]
      ∧ Queries "Amaranth:400".toList WOFF = [⟨"Amaranth".toList, "woff400normal".toList⟩] :=
  ⟨(Queries_agrees_with_Build sampleItalic (by decide) (by decide) (by decide)
      (by decide)).1 ⟨'i', by decide, by decide⟩,
    (Queries_agrees_with_Build sampleFont (by decide) (by decide) (by decide)
      (by decide)).2.1 rfl (by decide)⟩

/-! ## The claims on the entity tag and on the whitelist, continued -/

/-- C34: the entity tag depends only on the sequence of modification-time strings and on
gzip negotiation, not on the identity of the fonts. For two requests with the same gzip
negotiation whose resolved fonts have the same modification-time strings in the same
order, `Etag` computes the same tag, whatever the inventories, the queries and the fonts
are. -/
theorem Etag_ignores_font_identity (env : Env) (ctx1 ctx2 : HandlerContext)
    (w1 w2 : ResponseWriter) (r1 r2 : Request) (queries1 queries2 : List Query)
    (fonts1 fonts2 : List Font) (times1 times2 : List Time)
    (h1 : queries1.map ctx1.Inventory.Query = fonts1.map some)
    (h2 : fonts1.map (Font.ModTime env) = times1.map some)
    (g1 : queries2.map ctx2.Inventory.Query = fonts2.map some)
    (g2 : fonts2.map (Font.ModTime env) = times2.map some)
    (htimes : times1.map Time.String = times2.map Time.String)
    (hneg : (ctx1.Flags.Gzip = true ∧
        Contains (r1.Header.Get "Accept-Encoding".toList) "gzip".toList = true)
      ↔ (ctx2.Flags.Gzip = true ∧
        Contains (r2.Header.Get "Accept-Encoding".toList) "gzip".toList = true)) :
    (Etag env w1 r1 queries1 ctx1).1.Header.Get "ETag".toList
      = (Etag env w2 r2 queries2 ctx2).1.Header.Get "ETag".toList := by
  rw [Etag_header_of_times env w1 r1 queries1 ctx1 fonts1 times1 h1 h2,
    Etag_header_of_times env w2 r2 queries2 ctx2 fonts2 times2 g1 g2]
  unfold specEntityTag
  rw [htimes]
  by_cases hc : ctx1.Flags.Gzip = true ∧
      Contains (r1.Header.Get "Accept-Encoding".toList) "gzip".toList = true
  · rw [if_pos hc, if_pos (hneg.1 hc)]
  · rw [if_neg hc, if_neg (fun h => hc (hneg.2 h))]

/-- Witness of C34: the regular and the italic sample font, modified at the same time,
get the same tag. -/
theorem Etag_ignores_font_identity_witness :
    (Etag (sameTimeEnv (fun text => text)) freshWriter
        (sampleRequest "GET".toList "Amaranth:400normal".toList)
        [⟨"Amaranth".toList, "woff400normal".toList⟩] twoFontContext).1.Header.Get
        "ETag".toList
      = (Etag (sameTimeEnv (fun text => text)) freshWriter
        (sampleRequest "GET".toList "Amaranth:400italic".toList)
        [⟨"Amaranth".toList, "woff400italic".toList⟩] twoFontContext).1.Header.Get
        "ETag".toList :=
  Etag_ignores_font_identity (sameTimeEnv (fun text => text)) twoFontContext twoFontContext
    freshWriter freshWriter (sampleRequest "GET".toList "Amaranth:400normal".toList)
    (sampleRequest "GET".toList "Amaranth:400italic".toList)
    [⟨"Amaranth".toList, "woff400normal".toList⟩]
    [⟨"Amaranth".toList, "woff400italic".toList⟩] [sampleFont] [sampleItalic]
    [⟨"2012-10-01 12:00:00 +0000 UTC".toList⟩] [⟨"2012-10-01 12:00:00 +0000 UTC".toList⟩]
    (by decide) rfl (by decide) rfl rfl Iff.rfl

theorem specEntityTag_length (env : Env) (hmd5 : Md5Shaped env.Md5Hex)
    (ctx : HandlerContext) (r : Request) (times : List Time) :
    (specEntityTag env ctx r times).length
      = 32 + (if ctx.Flags.Gzip = true ∧
          Contains (r.Header.Get "Accept-Encoding".toList) "gzip".toList = true
        then 5 else 0) := by
  unfold specEntityTag
  rw [List.length_append, hmd5]
  split <;> rfl

/-- C35: a request without an `If-None-Match` header, or with an empty one, never
short-circuits. With a digest of the shape of MD5 (32 characters), `Etag` returns false
for it on every inventory and flag setting: a successfully computed tag has 32
characters, or 37 with its `+gzip` suffix, so it is never the empty string. -/
theorem Etag_no_header_no_shortcut (env : Env) (hmd5 : Md5Shaped env.Md5Hex)
    (w : ResponseWriter) (r : Request) (queries : List Query) (ctx : HandlerContext)
    (hinm : r.Header.Get "If-None-Match".toList = []) :
    (Etag env w r queries ctx).2 = false
      ∧ ∀ (fonts : List Font) (times : List Time),
          queries.map ctx.Inventory.Query = fonts.map some →
          fonts.map (Font.ModTime env) = times.map some →
          ((Etag env w r queries ctx).1.Header.Get "ETag".toList).length
            = 32 + (if ctx.Flags.Gzip = true ∧
                Contains (r.Header.Get "Accept-Encoding".toList) "gzip".toList = true
              then 5 else 0) := by
  constructor
  · rcases fingerprint_cases env ctx queries with hf | ⟨fonts, times, h1, h2⟩
    · rw [Etag_of_fails env w r queries ctx hf]
      split <;> rfl
    · rw [Etag_of_times env w r queries ctx fonts times h1 h2, hinm]
      have hne : ¬ ([] : GoString) = specEntityTag env ctx r times := by
        intro e
        have hl := specEntityTag_length env hmd5 ctx r times
        rw [← e, List.length_nil] at hl
        omega
      rw [if_neg hne]
  · intro fonts times h1 h2
    rw [Etag_header_of_times env w r queries ctx fonts times h1 h2]
    exact specEntityTag_length env hmd5 ctx r times

/-- Witness of C35 at the sample request, which carries no header, with a digest of 32
characters. -/
theorem Etag_no_header_no_shortcut_witness :
    Md5Shaped shapedEnv.Md5Hex ∧
      (Etag shapedEnv freshWriter (sampleRequest "GET".toList "Amaranth".toList)
        [⟨"Amaranth".toList, "woff400normal".toList⟩] sampleContext).2 = false :=
  ⟨fun text => by simp [shapedEnv],
    (Etag_no_header_no_shortcut shapedEnv (fun text => by simp [shapedEnv]) freshWriter
      (sampleRequest "GET".toList "Amaranth".toList)
      [⟨"Amaranth".toList, "woff400normal".toList⟩] sampleContext rfl).1⟩

/-- C36: `Contains` is monotone. If `Contains d` is true, then `Contains (d ++ s)` is true
for every `s`, and it stays true when an entry is appended to the whitelist, and indeed
for every whitelist that has all the entries of this one. -/
theorem Whitelist_Contains_monotone (w : Whitelist) (d s : GoString)
    (h : w.Contains d = true) :
    w.Contains (d ++ s) = true
      ∧ (∀ e : GoString, (⟨w.Domains ++ [e]⟩ : Whitelist).Contains d = true)
      ∧ (∀ w1 : Whitelist, (∀ x ∈ w.Domains, x ∈ w1.Domains) → w1.Contains d = true) := by
  rw [Whitelist_Contains_eq_any, List.any_eq_true] at h
  obtain ⟨x, hx, hp⟩ := h
  have big : ∀ w1 : Whitelist, (∀ x ∈ w.Domains, x ∈ w1.Domains) → w1.Contains d = true := by
    intro w1 hsub
    rw [Whitelist_Contains_eq_any, List.any_eq_true]
    exact ⟨x, hsub x hx, hp⟩
  refine ⟨?_, fun e => big ⟨w.Domains ++ [e]⟩ (fun y hy => List.mem_append_left _ hy), big⟩
  rw [Whitelist_Contains_eq_any, List.any_eq_true]
  obtain ⟨rest, hr⟩ := (HasPrefix_iff d x).1 hp
  exact ⟨x, hx, (HasPrefix_iff (d ++ s) x).2 ⟨rest ++ s, by rw [hr, List.append_assoc]⟩⟩

/-- Witness of C36 at the whitelist and the referrers of the tests. -/
theorem Whitelist_Contains_monotone_witness :
    (⟨["http://one/".toList]⟩ : Whitelist).Contains "http://one/".toList = true ∧
      (⟨["http://one/".toList]⟩ : Whitelist).Contains
        ("http://one/".toList ++ "two".toList) = true :=
  ⟨by decide,
    (Whitelist_Contains_monotone ⟨["http://one/".toList]⟩ "http://one/".toList "two".toList
      (by decide)).1⟩

/-! ## Lemmas on the index `Build` makes -/

theorem Metadata_Fonts_flatMap (fp : Filepath) (m : Metadata) :
    m.Fonts fp
      = m.Subfamilies.flatMap (fun s =>
          (s.Formats.filter (fun f =>
              decide (EqualFold f "eot".toList ∨ EqualFold f "woff".toList))).map
            (fun f => m.fontOf fp s f (if EqualFold f "eot".toList then EOT else WOFF))) := by
  unfold Metadata.Fonts
  have e : (fun (fonts : List Font) (s : Subfamily) =>
      s.Formats.foldl (m.formatStep fp s) fonts)
      = (fun fonts s => fonts ++
          (s.Formats.filter (fun f =>
              decide (EqualFold f "eot".toList ∨ EqualFold f "woff".toList))).map
            (fun f => m.fontOf fp s f (if EqualFold f "eot".toList then EOT else WOFF))) := by
    funext fonts s
    exact foldl_formatStep fp m s s.Formats fonts
  rw [e, foldl_append_flatMap, List.nil_append]

theorem Fonts_format (fp : Filepath) (m : Metadata) :
    ∀ font ∈ m.Fonts fp, font.Format = EOT ∨ font.Format = WOFF := by
  intro font hf
  rw [Metadata_Fonts_flatMap, List.mem_flatMap] at hf
  obtain ⟨sub, -, hsub⟩ := hf
  rw [List.mem_map] at hsub
  obtain ⟨f, -, rfl⟩ := hsub
  show (if EqualFold f "eot".toList then EOT else WOFF) = EOT ∨
    (if EqualFold f "eot".toList then EOT else WOFF) = WOFF
  split
  · exact Or.inl rfl
  · exact Or.inr rfl

theorem entryFonts_format (disk : Disk) (fp : Filepath) (name : GoString)
    (entry : FileInfo) :
    ∀ font ∈ entryFonts disk fp name entry, font.Format = EOT ∨ font.Format = WOFF := by
  intro font hf
  unfold entryFonts at hf
  simp only [] at hf
  split at hf
  · exact absurd hf (List.not_mem_nil font)
  · split at hf
    · exact absurd hf (List.not_mem_nil font)
    · exact Fonts_format fp _ font hf

theorem BuiltIndex_New : BuiltIndex Inventory.New := by
  intro cell hc
  exact absurd hc (List.not_mem_nil cell)

theorem BuiltIndex_Put (i : Inventory) (font : Font)
    (hf : font.Format = EOT ∨ font.Format = WOFF) (hi : BuiltIndex i) :
    BuiltIndex (i.Put font.Family (columnKeyOf font) font) := by
  intro cell hc
  unfold Inventory.Put at hc
  rcases List.mem_cons.1 hc with hc | hc
  · rw [hc]
    exact ⟨rfl, hf⟩
  · exact hi cell (List.mem_filter.1 hc).1

theorem BuiltIndex_putFonts (fonts : List Font) :
    ∀ i : Inventory, (∀ font ∈ fonts, font.Format = EOT ∨ font.Format = WOFF) →
      BuiltIndex i → BuiltIndex (putFonts i fonts) := by
  induction fonts with
  | nil => intro i _ hi; exact hi
  | cons f fs ih =>
    intro i hall hi
    have e : putFonts i (f :: fs) = putFonts (i.Put f.Family (columnKeyOf f) f) fs := rfl
    rw [e]
    exact ih _ (fun g hg => hall g (List.mem_cons_of_mem f hg))
      (BuiltIndex_Put i f (hall f (List.mem_cons_self f fs)) hi)

theorem BuiltIndex_Build (disk : Disk) (fp : Filepath) (name : GoString)
    (i built : Inventory) (hi : BuiltIndex i)
    (hb : Inventory.Build disk fp i name = some built) : BuiltIndex built := by
  unfold Inventory.Build at hb
  by_cases hd : disk.IsDir name = true
  · simp only [hd, Bool.not_true, Bool.false_eq_true, if_false] at hb
    cases hr : disk.ReadDir name with
    | none => rw [hr] at hb; exact absurd hb (by simp)
    | some entries =>
      rw [hr] at hb
      simp only [Option.some.injEq] at hb
      rw [← hb, foldl_putFonts]
      apply BuiltIndex_putFonts _ _ _ hi
      intro font hf
      rw [List.mem_flatMap] at hf
      obtain ⟨entry, -, he⟩ := hf
      exact entryFonts_format disk fp name entry font he
  · simp [hd] at hb

theorem lookup_mem {α β : Type} [BEq α] [LawfulBEq α] (k : α) (v : β) :
    ∀ l : List (α × β), l.lookup k = some v → (k, v) ∈ l := by
  intro l
  induction l with
  | nil => intro h; simp at h
  | cons e es ih =>
    intro h
    obtain ⟨a, b⟩ := e
    rw [List.lookup_cons] at h
    by_cases hk : (k == a) = true
    · rw [hk] at h
      simp only [Option.some.injEq] at h
      rw [eq_of_beq hk, h]
      exact List.mem_cons_self _ _
    · have hf : (k == a) = false := by simpa using hk
      rw [hf] at h
      exact List.mem_cons_of_mem _ (ih h)

theorem BuiltIndex_Query (i : Inventory) (hi : BuiltIndex i) (q : Query) (fnt : Font)
    (hq : i.Query q = some fnt) :
    q.RowKey = fnt.Family ∧ q.ColumnKey = columnKeyOf fnt ∧
      (fnt.Format = EOT ∨ fnt.Format = WOFF) := by
  have hm := lookup_mem (q.RowKey, q.ColumnKey) fnt i.cells hq
  obtain ⟨h1, h2⟩ := hi _ hm
  simp only [Prod.mk.injEq] at h1
  exact ⟨h1.1, h1.2, h2⟩

theorem Queries_mem_shape (family : GoString) (format : Format) (q : Query)
    (h : q ∈ Queries family format) :
    q.RowKey ≠ [] ∧ ∃ c : GoString, c ≠ [] ∧ q.ColumnKey = format.String ++ c := by
  by_cases hb : BeginsWithSeparator family
  · rw [Queries_of_begins _ _ hb] at h
    exact absurd h (List.not_mem_nil q)
  · rw [Queries_of_not_begins _ _ hb, List.mem_flatMap] at h
    obtain ⟨f, -, hf⟩ := h
    exact segmentKeys_mem format f q hf

theorem format_of_key (f g : Format) (a b : GoString) (hf : f = EOT ∨ f = WOFF)
    (hg : g = EOT ∨ g = WOFF) (h : f.String ++ a = g.String ++ b) : g = f := by
  rcases hf with rfl | rfl <;> rcases hg with rfl | rfl
  · rfl
  · have e1 : EOT.String = [ 'e', 'o', 't'] := rfl
    have e2 : WOFF.String = [ 'w', 'o', 'f', 'f'] := rfl
    rw [e1, e2] at h
    simp only [List.cons_append, List.cons.injEq] at h
    exact absurd h.1 (by decide)
  · have e1 : EOT.String = [ 'e', 'o', 't'] := rfl
    have e2 : WOFF.String = [ 'w', 'o', 'f', 'f'] := rfl
    rw [e1, e2] at h
    simp only [List.cons_append, List.cons.injEq] at h
    exact absurd h.1 (by decide)
  · rfl

theorem FromString_NOF_cases (s : GoString) (h : NOF.FromString s ≠ NOF) :
    NOF.FromString s = EOT ∨ NOF.FromString s = WOFF := by
  rw [FromString_NOF_eq] at h ⊢
  by_cases h1 : EqualFold s "eot".toList
  · rw [if_pos h1]
    exact Or.inl rfl
  · rw [if_neg h1] at h ⊢
    by_cases h2 : EqualFold s "woff".toList
    · rw [if_pos h2]
      exact Or.inr rfl
    · rw [if_neg h2] at h
      exact absurd rfl h

theorem requestFormat_cases (r : Request) (h : requestFormat r ≠ NOF) :
    requestFormat r = EOT ∨ requestFormat r = WOFF :=
  FromString_NOF_cases _ h

theorem BuiltIndex_resolves (i : Inventory) (hi : BuiltIndex i) (family : GoString)
    (f : Format) (q : Query) (fnt : Font) (hf : f = EOT ∨ f = WOFF)
    (hq : q ∈ Queries family f) (hres : i.Query q = some fnt) :
    fnt.Family = q.RowKey ∧ fnt.Format = f := by
  obtain ⟨k1, k2, k3⟩ := BuiltIndex_Query i hi q fnt hres
  obtain ⟨-, c, -, hc⟩ := Queries_mem_shape family f q hq
  refine ⟨k1.symm, ?_⟩
  rw [k2] at hc
  unfold columnKeyOf at hc
  rw [List.append_assoc] at hc
  exact format_of_key f fnt.Format c _ hf k3 hc.symm

theorem MimeType_ne_nil (f : Font) (h : f.Format = EOT ∨ f.Format = WOFF) :
    f.MimeType ≠ [] := by
  unfold Font.MimeType
  rcases h with h | h <;> rw [h] <;> decide

theorem FromFont_eq_none_iff (env : Env) (ff : FontFace) (f : Font)
    (hm : f.MimeType ≠ []) :
    FontFace.FromFont env ff f = none ↔ f.Contents env = none := by
  unfold FontFace.FromFont
  cases f.Contents env with
  | none => exact ⟨fun _ => rfl, fun _ => rfl⟩
  | some data =>
    simp only []
    rw [if_neg hm]
    exact ⟨fun h => absurd h (by simp), fun h => absurd h (by simp)⟩

/-! ## The claims on the index `Build` makes -/

/-- C33: `Build` leaves an index in which every font is stored under its own family and
column key and has the format EOT or WOFF; in such an index, every font `Query` returns
for a key of `Queries family f`, with `f` one of EOT and WOFF, has the family of the key
and the format `f`; so the template name `CssHandler` derives from the last resolved font
is the one of the requested format. -/
theorem BuiltIndex_requested_format :
    (∀ (disk : Disk) (fp : Filepath) (name : GoString) (built : Inventory),
        Inventory.Build disk fp Inventory.New name = some built → BuiltIndex built)
      ∧ ∀ i : Inventory, BuiltIndex i →
          (∀ (family : GoString) (f : Format) (q : Query) (fnt : Font),
              (f = EOT ∨ f = WOFF) → q ∈ Queries family f → i.Query q = some fnt →
              fnt.Family = q.RowKey ∧ fnt.Format = f)
          ∧ (∀ (env : Env) (ctx : HandlerContext) (r : Request) (data : List FontFace)
              (name : GoString),
              ctx.Inventory = i → requestFormat r ≠ NOF →
              Queries (r.FormValue "family".toList) (requestFormat r) ≠ [] →
              resolveLoop env ctx (Queries (r.FormValue "family".toList) (requestFormat r))
                [] [] = .resolved data name →
              name = (requestFormat r).String ++ ".css.tmpl".toList) := by
  refine ⟨fun disk fp name built hb =>
    BuiltIndex_Build disk fp name Inventory.New built BuiltIndex_New hb, fun i hi => ?_⟩
  refine ⟨fun family f q fnt hf hq hres =>
    BuiltIndex_resolves i hi family f q fnt hf hq hres, ?_⟩
  intro env ctx r data name hinv hfmt hne hloop
  obtain ⟨fonts, faces, h1, -, -, h4⟩ :=
    resolveLoop_resolved_inv env ctx _ [] data [] name hloop
  cases hlast : fonts.getLast? with
  | none =>
    rw [List.getLast?_eq_none_iff] at hlast
    rw [hlast] at h1
    exact absurd (List.map_eq_nil_iff.1 h1) hne
  | some last =>
    rw [hlast] at h4
    simp only [] at h4
    have hmem : some last ∈ fonts.map some :=
      List.mem_map_of_mem _ (List.mem_of_getLast?_eq_some hlast)
    rw [← h1, List.mem_map] at hmem
    obtain ⟨q, hq, hres⟩ := hmem
    rw [hinv] at hres
    obtain ⟨-, e⟩ := BuiltIndex_resolves i hi _ _ q last (requestFormat_cases r hfmt) hq hres
    rw [h4, e]

/-- Witness of C33: the index built from the sample disk holds fonts under their own
keys. -/
theorem BuiltIndex_requested_format_witness :
    Inventory.Build sampleDisk sampleFilepath Inventory.New "fonts".toList
        = some (putFonts Inventory.New (sampleMetadata.Fonts sampleFilepath))
      ∧ BuiltIndex (putFonts Inventory.New (sampleMetadata.Fonts sampleFilepath)) :=
  ⟨rfl, BuiltIndex_requested_format.1 sampleDisk sampleFilepath "fonts".toList _ rfl⟩

/-- C37: every font `Fonts` returns has the format EOT or WOFF, hence a non-empty MIME
type and a non-empty format string; so for a font that reaches the index through `Build`
the MIME type is non-empty, and `FromFont` fails on it only when its contents cannot be
read: the branch of the undetermined MIME type is not reached. -/
theorem Fonts_mime_determined (fp : Filepath) (m : Metadata) :
    (∀ font ∈ m.Fonts fp,
        (font.Format = EOT ∨ font.Format = WOFF) ∧ font.MimeType ≠ [] ∧
          font.Format.String ≠ [])
      ∧ ∀ (disk : Disk) (name : GoString) (built : Inventory) (q : Query) (fnt : Font),
          Inventory.Build disk fp Inventory.New name = some built →
          built.Query q = some fnt →
          fnt.MimeType ≠ [] ∧
            ∀ (env : Env) (ff : FontFace),
              FontFace.FromFont env ff fnt = none ↔ fnt.Contents env = none := by
  constructor
  · intro font hf
    have h := Fonts_format fp m font hf
    exact ⟨h, MimeType_ne_nil font h, (Format_String_ne_nil_iff font.Format).2 h⟩
  · intro disk name built q fnt hb hq
    have hi := BuiltIndex_Build disk fp name Inventory.New built BuiltIndex_New hb
    obtain ⟨-, -, h⟩ := BuiltIndex_Query built hi q fnt hq
    exact ⟨MimeType_ne_nil fnt h,
      fun env ff => FromFont_eq_none_iff env ff fnt (MimeType_ne_nil fnt h)⟩

/-- Witness of C37 at the first font of the sample metadata. -/
theorem Fonts_mime_determined_witness :
    (⟨"Amaranth".toList, EOT, "fonts/Amaranth/amaranth-regular.eot".toList,
        "normal".toList, 400⟩ : Font).MimeType ≠ [] :=
  ((Fonts_mime_determined sampleFilepath sampleMetadata).1
    ⟨"Amaranth".toList, EOT, "fonts/Amaranth/amaranth-regular.eot".toList,
      "normal".toList, 400⟩ (by decide)).2.1

end Mjau
